import Mathlib

/-!
# bhojpur/configure: a verification development

A shallow embedding of the parts of the repository that the specification
talks about, followed by theorems about them.

* `markup`   : `pkg/markup/configuration.go` (environment selection)
* `toml`     : `pkg/toml/type_toml.go` (the kind enumeration)
* `Go`       : the Go values, and the few standard-library routines, that the
               code below is written against
* `tag`      : `pkg/toml/internal/tag/add.go` and `rm.go`
* `tomltest` : `pkg/toml/internal/toml-test/toml.go`

Go strings are modelled by `String`, `error` values by their message, a
panic by `Except.error`.
-/

set_option autoImplicit false
set_option linter.dupNamespace false
set_option linter.unusedVariables false

/-! ## pkg/markup/configuration.go -/

namespace markup

/-- The regular expressions that `configuration.go` hands to
`regexp.MustCompile`: literals, alternation, concatenation, a capture group
and the end-of-text anchor `$` (no multi-line flag). -/
inductive Regexp where
  | lit : List Char → Regexp
  | endText : Regexp
  | cat : Regexp → Regexp → Regexp
  | alt : Regexp → Regexp → Regexp
  | group : Regexp → Regexp

/-- All the ways `r` can match at the head of the input: each result is the
input that is left after one match. -/
def Regexp.run : Regexp → List Char → List (List Char)
  | .lit l, s => if l.isPrefixOf s then [s.drop l.length] else []
  | .endText, s => if s.isEmpty then [s] else []
  | .cat a b, s => (a.run s).flatMap (fun t => b.run t)
  | .alt a b, s => a.run s ++ b.run s
  | .group a, s => a.run s

/-- The unanchored search of `(*Regexp).MatchString`: some position of the
text starts a match. -/
def Regexp.MatchString (r : Regexp) (s : String) : Bool :=
  s.toList.tails.any (fun t => !(r.run t).isEmpty)

/-- The pattern `"_test|(\\.test$)"`. -/
def testRegexp : Regexp :=
  .alt (.lit "_test".toList) (.group (.cat (.lit ".test".toList) .endText))

/-- The fields of `Config` (the callback `AutoReloadCallback` is a function
value that none of the modelled code calls; it is left out). The duration is
in nanoseconds. -/
structure Config where
  Environment : String
  ENVPrefix : String
  Debug : Bool
  Verbose : Bool
  Silent : Bool
  AutoReload : Bool
  AutoReloadInterval : Int
  ErrorOnUnmatchedKeys : Bool

/-- The zero value `Config{}`. -/
def Config.zero : Config :=
  ⟨"", "", false, false, false, false, 0, false⟩

/-- A `Configure` as `New` builds it: its embedded `*Config` is set. -/
structure Configure where
  Config : markup.Config

/-- What the process sees of its surroundings: the environment variables and
`os.Args[0]`. -/
structure Process where
  environ : List (String × String)
  arg0 : String

/-- `os.Getenv`: the value of the variable, empty when it is not set. -/
def Process.Getenv (p : Process) (key : String) : String :=
  (p.environ.lookup key).getD ""

/-- `time.Second`, in nanoseconds. -/
def Second : Int := 1000000000

/-- `New(config)`; `none` is the nil pointer. -/
def New (p : Process) (config : Option Config) : Configure :=
  let config := config.getD Config.zero
  let config := if p.Getenv "CONFIGURE_DEBUG_MODE" ≠ "" then { config with Debug := true } else config
  let config := if p.Getenv "CONFIGURE_VERBOSE_MODE" ≠ "" then { config with Verbose := true } else config
  let config := if p.Getenv "CONFIGURE_SILENT_MODE" ≠ "" then { config with Silent := true } else config
  let config :=
    if config.AutoReload && config.AutoReloadInterval == 0 then
      { config with AutoReloadInterval := Second }
    else config
  ⟨config⟩

/-- `(*Configure).GetEnvironment`. -/
def Configure.GetEnvironment (configure : Configure) (p : Process) : String :=
  if configure.Config.Environment = "" then
    if p.Getenv "CONFIGURE_ENV" ≠ "" then
      p.Getenv "CONFIGURE_ENV"
    else if testRegexp.MatchString p.arg0 then
      "test"
    else
      "development"
  else
    configure.Config.Environment

/-- `(*Configure).GetErrorOnUnmatchedKeys`. -/
def Configure.GetErrorOnUnmatchedKeys (configure : Configure) : Bool :=
  configure.Config.ErrorOnUnmatchedKeys

/-- `ENV()`. -/
def ENV (p : Process) : String :=
  (New p none).GetEnvironment p

end markup

/-! ## pkg/toml/type_toml.go -/

namespace toml

/-- `type tomlBaseType string`. -/
structure tomlBaseType where
  name : String
deriving DecidableEq, Repr

/-- `(tomlBaseType).typeString`. -/
def tomlBaseType.typeString (btype : tomlBaseType) : String := btype.name

/-- `(tomlBaseType).String`. -/
def tomlBaseType.String (btype : tomlBaseType) : String := btype.typeString

/-- A value of the interface `tomlType`: nil, or a `tomlBaseType` (the only
implementation). -/
abbrev tomlType := Option tomlBaseType

def tomlInteger : tomlBaseType := ⟨"Integer"⟩
def tomlFloat : tomlBaseType := ⟨"Float"⟩
def tomlDatetime : tomlBaseType := ⟨"Datetime"⟩
def tomlString : tomlBaseType := ⟨"String"⟩
def tomlBool : tomlBaseType := ⟨"Bool"⟩
def tomlArray : tomlBaseType := ⟨"Array"⟩
def tomlHash : tomlBaseType := ⟨"Hash"⟩
def tomlArrayHash : tomlBaseType := ⟨"ArrayHash"⟩

/-- The eight kinds of the `var` block, in its order. -/
def kinds : List tomlBaseType :=
  [tomlInteger, tomlFloat, tomlDatetime, tomlString, tomlBool, tomlArray, tomlHash, tomlArrayHash]

/-- `typeEqual`. -/
def typeEqual (t1 t2 : tomlType) : Bool :=
  match t1, t2 with
  | some a, some b => a.typeString == b.typeString
  | _, _ => false

/-- `typeIsTable`. -/
def typeIsTable (t : tomlType) : Bool :=
  typeEqual t (some tomlHash) || typeEqual t (some tomlArrayHash)

/-- Modelled from the spec: the lexer's item types (`lex.go` is not among the
sources). The eight that `typeOfPrimitive` names, and the other token variants
of the data model: lexical error, nil, end of input, key text, array, table
header, array-of-tables header, key, comment and inline-table delimiters. -/
inductive itemType where
  | itemError | itemNIL | itemEOF | itemText
  | itemString | itemRawString | itemMultilineString | itemRawMultilineString
  | itemBool | itemInteger | itemFloat | itemDatetime
  | itemArray | itemArrayEnd | itemTableStart | itemTableEnd
  | itemArrayTableStart | itemArrayTableEnd | itemKeyStart | itemKeyEnd
  | itemCommentStart | itemInlineTableStart | itemInlineTableEnd
deriving DecidableEq, Repr

/-- Modelled from the spec: a lexer item, a token with its text and position
(`lex.go` is not among the sources). -/
structure item where
  typ : itemType
  val : String
  line : Nat
deriving DecidableEq, Repr

/-- `(*parser).typeOfPrimitive`. The call of `p.bug`, which panics, is
`Except.error` with the message. -/
def typeOfPrimitive (lexItem : item) : Except String tomlType :=
  match lexItem.typ with
  | .itemInteger => .ok (some tomlInteger)
  | .itemFloat => .ok (some tomlFloat)
  | .itemDatetime => .ok (some tomlDatetime)
  | .itemString => .ok (some tomlString)
  | .itemMultilineString => .ok (some tomlString)
  | .itemRawString => .ok (some tomlString)
  | .itemRawMultilineString => .ok (some tomlString)
  | .itemBool => .ok (some tomlBool)
  | _ => .error ("BUG: Cannot infer primitive type of lex item '" ++ lexItem.val ++ "'.")

end toml

/-! ## Go values and the standard-library routines the code calls -/

namespace Go

/-- A `float64`, as its IEEE-754 binary64 bit pattern (sign, 11 exponent
bits, 52 fraction bits). -/
structure Float64 where
  bits : Nat
deriving DecidableEq, Repr

/-- `math.IsNaN`: all exponent bits set and a non-zero fraction. -/
def Float64.IsNaN (f : Float64) : Bool :=
  (f.bits / 2 ^ 52) % 2 ^ 11 == 2047 && f.bits % 2 ^ 52 != 0

/-- The zero value `0.0`. -/
def Float64.zero : Float64 := ⟨0⟩

/-- The operator `==` on `float64`: a NaN equals nothing, the two zeros are
equal, everything else is compared by its bits. -/
def Float64.eq (a b : Float64) : Bool :=
  !a.IsNaN && !b.IsNaN &&
    (a.bits % 2 ^ 64 == b.bits % 2 ^ 64 || (a.bits % 2 ^ 63 == 0 && b.bits % 2 ^ 63 == 0))

/-- A `float32`, as its IEEE-754 binary32 bit pattern (sign, 8 exponent bits,
23 fraction bits). -/
structure Float32 where
  bits : Nat
deriving DecidableEq, Repr

/-- Whether a `float32` is a NaN. -/
def Float32.IsNaN (f : Float32) : Bool :=
  (f.bits / 2 ^ 23) % 2 ^ 8 == 255 && f.bits % 2 ^ 23 != 0

/-- The operator `==` on `float32`. -/
def Float32.eq (a b : Float32) : Bool :=
  !a.IsNaN && !b.IsNaN &&
    (a.bits % 2 ^ 32 == b.bits % 2 ^ 32 || (a.bits % 2 ^ 31 == 0 && b.bits % 2 ^ 31 == 0))

/-- The conversion `float64(f)`, which is exact: infinities and NaNs keep an
all-ones exponent (a NaN is quieted), zeros stay zeros, subnormals are
normalised, and a normal number has its exponent re-biased. -/
def Float32.toFloat64 (f : Float32) : Float64 :=
  let s := (f.bits / 2 ^ 31) % 2
  let e := (f.bits / 2 ^ 23) % 2 ^ 8
  let m := f.bits % 2 ^ 23
  if e == 255 then
    ⟨s * 2 ^ 63 + 2047 * 2 ^ 52 + (if m == 0 then 0 else (m * 2 ^ 29) % 2 ^ 51 + 2 ^ 51)⟩
  else if e == 0 then
    if m == 0 then ⟨s * 2 ^ 63⟩
    else
      let k := Nat.log2 m
      ⟨s * 2 ^ 63 + (k + 874) * 2 ^ 52 + (m - 2 ^ k) * 2 ^ (52 - k)⟩
  else
    ⟨s * 2 ^ 63 + (e + 896) * 2 ^ 52 + m * 2 ^ 29⟩

/-- Modelled from the spec: the markers `internal.LocalDatetime`,
`internal.LocalDate` and `internal.LocalTime` (`internal/tz.go` is not among
the sources), one marker location per local datetime subkind (local
date-time, local date, local time), distinct from every other location. With
them, a `*time.Location` as the code tells them apart: UTC, the system's
local zone, and any other fixed zone. -/
inductive Location where
  | UTC
  | Local
  | fixed (name : String) (offset : Int)
  | LocalDatetime
  | LocalDate
  | LocalTime
deriving DecidableEq, Repr

/-- A `time.Time`: an instant (seconds and nanoseconds since year 1) and a
location. -/
structure Time where
  sec : Int
  nsec : Nat
  loc : Location
deriving DecidableEq, Repr

/-- The zero value `time.Time{}`. -/
def Time.zero : Time := ⟨0, 0, .UTC⟩

/-- `(Time).Location`. -/
def Time.Location (t : Time) : Go.Location := t.loc

/-- `(Time).In`: the same instant, in the location `l`. -/
def Time.In (t : Time) (l : Go.Location) : Time := { t with loc := l }

/-- A dynamically typed Go value (`interface{}`) of the types that the TOML
and JSON decoders produce and that the modelled code switches on. A map is
the list of its entries; a Go map has each key once. -/
inductive Value where
  | null : Value
  | bool : Bool → Value
  | str : String → Value
  | int : Int → Value
  | float : Float64 → Value
  | float32 : Float32 → Value
  | time : Time → Value
  | array : List Value → Value
  | tableArray : List (List (String × Value)) → Value
  | table : List (String × Value) → Value
deriving Repr

/-- A `map[string]interface{}`. -/
abbrev Table := List (String × Value)

/-- The verb `%T`: the name of the dynamic type. -/
def Value.goType : Value → String
  | .null => "<nil>"
  | .bool _ => "bool"
  | .str _ => "string"
  | .int _ => "int64"
  | .float _ => "float64"
  | .float32 _ => "float32"
  | .time _ => "time.Time"
  | .array _ => "[]interface {}"
  | .tableArray _ => "[]map[string]interface {}"
  | .table _ => "map[string]interface {}"

/-- The index expression `m[key]` with the comma-ok form. -/
def Table.get? (m : Table) (key : String) : Option Value := m.lookup key

/-- The index expression `m[key]`: nil when the key is absent. -/
def Table.get (m : Table) (key : String) : Value := (m.lookup key).getD .null

/-- The keys of a map. -/
def Table.keys (m : Table) : List String := m.map Prod.fst

mutual
/-- Whether a value is built from tables and arrays over leaves that satisfy
`leaf`. -/
def Value.isTree (leaf : Value → Bool) : Value → Bool
  | .table m => Value.isTreeEntries leaf m
  | .array a => Value.isTreeList leaf a
  | .null => leaf .null
  | .bool b => leaf (.bool b)
  | .str s => leaf (.str s)
  | .int n => leaf (.int n)
  | .float f => leaf (.float f)
  | .float32 f => leaf (.float32 f)
  | .time t => leaf (.time t)
  | .tableArray ts => leaf (.tableArray ts)
/-- `Value.isTree` for the values of a table. -/
def Value.isTreeEntries (leaf : Value → Bool) : List (String × Value) → Bool
  | [] => true
  | (_, v) :: rest => Value.isTree leaf v && Value.isTreeEntries leaf rest
/-- `Value.isTree` for the elements of an array. -/
def Value.isTreeList (leaf : Value → Bool) : List Value → Bool
  | [] => true
  | v :: rest => Value.isTree leaf v && Value.isTreeList leaf rest
end

mutual
/-- Whether every table inside a value, at any depth, satisfies `p`. -/
def Value.allTables (p : List (String × Value) → Bool) : Value → Bool
  | .table m => p m && Value.allTablesEntries p m
  | .array a => Value.allTablesList p a
  | .tableArray ts => Value.allTablesTables p ts
  | _ => true
/-- `Value.allTables` for the values of a table. -/
def Value.allTablesEntries (p : List (String × Value) → Bool) : List (String × Value) → Bool
  | [] => true
  | (_, v) :: rest => Value.allTables p v && Value.allTablesEntries p rest
/-- `Value.allTables` for the elements of an array. -/
def Value.allTablesList (p : List (String × Value) → Bool) : List Value → Bool
  | [] => true
  | v :: rest => Value.allTables p v && Value.allTablesList p rest
/-- `Value.allTables` for the tables of an array of tables. -/
def Value.allTablesTables (p : List (String × Value) → Bool) :
    List (List (String × Value)) → Bool
  | [] => true
  | m :: rest => (p m && Value.allTablesEntries p m) && Value.allTablesTables p rest
end

/-- A leaf of a document: anything but a table, an array and an array of
tables. -/
def Value.isLeaf : Value → Bool
  | .table _ => false
  | .array _ => false
  | .tableArray _ => false
  | _ => true

/-- The invariant of a Go map: each key occurs once. -/
def Table.distinctKeys (m : List (String × Value)) : Bool := decide (m.map Prod.fst).Nodup

/-- The range of `int64`. -/
def isInt64 (n : Int) : Prop := -2 ^ 63 ≤ n ∧ n < 2 ^ 63

instance (n : Int) : Decidable (isInt64 n) := by unfold isInt64; infer_instance

/-- A string, an `int64` or a `bool`. -/
def Value.isScalar : Value → Bool
  | .str _ => true
  | .bool _ => true
  | .int n => decide (isInt64 n)
  | _ => false

/-- The conversion `int64(u)` of a `uint64`. -/
def toInt64 (u : Nat) : Int :=
  if u % 2 ^ 64 < 2 ^ 63 then (u % 2 ^ 64 : Nat) else (u % 2 ^ 64 : Nat) - 2 ^ 64

/-- The conversion `uint64(n)` of an `int64`. -/
def toUint64 (n : Int) : Nat := (n % 2 ^ 64).toNat

/-- Unary minus on `int64`, which wraps at the minimum. -/
def negInt64 (n : Int) : Int := toInt64 (toUint64 (-n))

/-- The decimal digit of `d < 10`. -/
def digit (d : Nat) : Char := Char.ofNat (48 + d)

/-- The digit loop of `fmtInteger` for base 10. It fills the buffer from the
right: `acc` is the part written so far. The buffer has room for `fuel` more
digits, and 20 are enough for a `uint64`. -/
def fmtDigits : Nat → Nat → List Char → List Char
  | 0, _, acc => acc
  | fuel + 1, u, acc =>
    if 10 ≤ u then fmtDigits fuel (u / 10) (digit (u % 10) :: acc)
    else digit u :: acc

/-- What `fmt.Sprintf("%d", n)` gives for an `int64`: a minus sign for a
negative number, then the digits of the magnitude. -/
def fmtInt (n : Int) : String :=
  let negative := n < 0
  let u := if negative then toUint64 (-n) else toUint64 n
  let ds := fmtDigits 20 u []
  String.mk (if negative then '-' :: ds else ds)

/-- What `fmt.Sprintf("%v", b)` gives for a `bool`. -/
def fmtBool (b : Bool) : String := if b then "true" else "false"

/-- The two causes of a `*strconv.NumError`. -/
inductive NumErr where
  | ErrSyntax
  | ErrRange
deriving DecidableEq, Repr

/-- `strconv.NumError`. -/
structure NumError where
  Func : String
  Num : String
  Err : NumErr
deriving DecidableEq, Repr

/-- `lower(c)` of `strconv`: the byte with the ASCII lower-case bit set. -/
def lower (c : Nat) : Nat := c ||| 32

/-- The digit loop of `strconv.ParseUint(s, 10, 64)`: `n` is the number read
so far. The result is the value returned and the cause of the error, if
any. -/
def parseUintLoop : List Char → Nat → Nat × Option NumErr
  | [], n => (n, none)
  | c :: cs, n =>
    let cutoff := (2 ^ 64 - 1) / 10 + 1
    let maxVal := 2 ^ 64 - 1
    -- the underscore case needs base 0
    let d? : Option Nat :=
      if 48 ≤ c.toNat ∧ c.toNat ≤ 57 then some (c.toNat - 48)
      else if 97 ≤ lower c.toNat ∧ lower c.toNat ≤ 122 then some (lower c.toNat - 97 + 10)
      else none
    match d? with
    | none => (0, some .ErrSyntax)
    | some d =>
      if d ≥ 10 then (0, some .ErrSyntax)
      else if n ≥ cutoff then (maxVal, some .ErrRange)
      else
        let n10 := n * 10
        let n1 := (n10 + d) % 2 ^ 64
        if n1 < n10 ∨ n1 > maxVal then (maxVal, some .ErrRange)
        else parseUintLoop cs n1

/-- `strconv.ParseUint(s, 10, 64)`. -/
def ParseUint (s : List Char) : Nat × Option NumErr :=
  if s.isEmpty then (0, some .ErrSyntax) else parseUintLoop s 0

/-- `strconv.ParseInt(s, 10, 64)`. -/
def ParseInt (s0 : String) : Int × Option NumError :=
  match s0.toList with
  | [] => (0, some ⟨"ParseInt", s0, .ErrSyntax⟩)
  | c :: rest =>
    let neg := c == '-'
    let s := if c == '+' ∨ c == '-' then rest else c :: rest
    match ParseUint s with
    | (_, some .ErrSyntax) => (0, some ⟨"ParseInt", s0, .ErrSyntax⟩)
    | (un, _) =>
      let cutoff := 2 ^ 63
      if !neg ∧ un ≥ cutoff then (cutoff - 1, some ⟨"ParseInt", s0, .ErrRange⟩)
      else if neg ∧ un > cutoff then (-cutoff, some ⟨"ParseInt", s0, .ErrRange⟩)
      else
        let n := toInt64 un
        (if neg then negInt64 n else n, none)

/-- Whether a character is a decimal digit. -/
def isDecimalDigit (c : Char) : Bool := decide (48 ≤ c.toNat ∧ c.toNat ≤ 57)

/-- The number that decimal digits denote, read from the left after the
number `n` read so far. -/
def digitsNat : List Char → Nat → Nat
  | [], n => n
  | c :: cs, n => digitsNat cs (n * 10 + (c.toNat - 48))

/-- A text without its leading sign, `+` or `-`, if it has one. -/
def numeralBody (s : String) : List Char :=
  match s.toList with
  | [] => []
  | c :: rest => if c == '+' ∨ c == '-' then rest else c :: rest

/-- Whether a text is a base-10 numeral: an optional sign, `+` or `-`,
followed by one or more decimal digits and nothing else. With
`numeralValue`, the notion in which what `ParseInt` accepts is stated. -/
def isNumeral (s : String) : Bool :=
  !(numeralBody s).isEmpty && (numeralBody s).all isDecimalDigit

/-- The number that a base-10 numeral denotes. -/
def numeralValue (s : String) : Int :=
  if s.toList.head? = some '-' then -(digitsNat (numeralBody s) 0 : Int)
  else (digitsNat (numeralBody s) 0 : Int)

/-- `strings.HasSuffix`. -/
def HasSuffix (s suffix : String) : Bool := suffix.toList.isSuffixOf s.toList

/-- Whether a layout of the package `time` has a zone element. The zone
elements are `-0700`, `-07:00`, `-07`, `-070000`, `-07:00:00`, the same with
`Z` for the sign, and `MST`: each contains `-07`, `Z07` or `MST`. -/
def layoutHasZone (layout : String) : Bool :=
  layout.toList.tails.any (fun t =>
    "-07".toList.isPrefixOf t || "Z07".toList.isPrefixOf t || "MST".toList.isPrefixOf t)

/-- The standard-library routines that are taken as given: the formatting and
parsing of floats and of times, and the quoting of the verb `%q`. -/
structure Stdlib where
  /-- What `fmt.Sprintf("%v", f)` gives for a `float64`. -/
  fmtFloat : Float64 → String
  /-- `strconv.ParseFloat(s, 64)`. -/
  ParseFloat : String → Float64 × Option NumError
  /-- `(Time).Format(layout)`. -/
  Format : Time → String → String
  /-- `time.Parse(layout, value)`; the error is its message. -/
  Parse : String → String → Time × Option String
  /-- `strconv.Quote`. -/
  Quote : String → String

/-- An instance of the routines on which examples are evaluated; the
theorems hold for every instance. -/
def exampleLib : Stdlib where
  fmtFloat := fun _ => "1.5"
  ParseFloat := fun s => (⟨0⟩, some ⟨"ParseFloat", s, .ErrSyntax⟩)
  Format := fun _ layout => layout
  Parse := fun _ _ => (⟨0, 0, .UTC⟩, none)
  Quote := fun s => "\"" ++ s ++ "\""

/-- `(*NumError).Error`. -/
def NumError.Error (lib : Stdlib) (e : NumError) : String :=
  "strconv." ++ e.Func ++ ": parsing " ++ lib.Quote e.Num ++ ": " ++
    (match e.Err with
     | .ErrSyntax => "invalid syntax"
     | .ErrRange => "value out of range")

end Go

/-! ## pkg/toml/internal/tag -/

namespace tag

open Go

/-- `tag`: the object with the two entries `type` and `value`. -/
def tag (typeName : String) (data : Value) : Table :=
  [("type", .str typeName), ("value", data)]

mutual
/-- `Add`. The default case of the type switch panics. -/
def Add (lib : Stdlib) (key : String) : Value → Except String Value
  | .table orig => do
    let typed ← AddTable lib orig
    pure (.table typed)
  | .tableArray orig => do
    let typed ← AddTables lib orig
    pure (.tableArray typed)
  | .array orig => do
    let typed ← AddArray lib orig
    pure (.array typed)
  | .time orig =>
    match orig.Location with
    | .LocalDatetime =>
      pure (.table (tag "datetime-local" (.str (lib.Format orig "2006-01-02T15:04:05.999999999"))))
    | .LocalDate => pure (.table (tag "date-local" (.str (lib.Format orig "2006-01-02"))))
    | .LocalTime => pure (.table (tag "time-local" (.str (lib.Format orig "15:04:05.999999999"))))
    | _ =>
      pure (.table (tag "datetime" (.str (lib.Format orig "2006-01-02T15:04:05.999999999Z07:00"))))
  | .bool orig => pure (.table (tag "bool" (.str (fmtBool orig))))
  | .str orig => pure (.table (tag "string" (.str orig)))
  | .int orig => pure (.table (tag "integer" (.str (fmtInt orig))))
  | .float orig =>
    if orig.IsNaN then pure (.table (tag "float" (.str "nan")))
    else pure (.table (tag "float" (.str (lib.fmtFloat orig))))
  | .null => throw ("Unknown type: " ++ Value.null.goType)
  | .float32 f => throw ("Unknown type: " ++ (Value.float32 f).goType)
/-- The loop of `Add` over the entries of a table: `typed[k] = Add(k, v)`. -/
def AddTable (lib : Stdlib) : List (String × Value) → Except String (List (String × Value))
  | [] => pure []
  | (k, v) :: rest => do
    let tv ← Add lib k v
    let typed ← AddTable lib rest
    pure ((k, tv) :: typed)
/-- The loop of `Add` over an array of tables: `typed[i] = Add("", v)`, which
is a map again. -/
def AddTables (lib : Stdlib) :
    List (List (String × Value)) → Except String (List (List (String × Value)))
  | [] => pure []
  | v :: rest => do
    let tv ← AddTable lib v
    let typed ← AddTables lib rest
    pure (tv :: typed)
/-- The loop of `Add` over an array: `typed[i] = Add("", v)`. -/
def AddArray (lib : Stdlib) : List Value → Except String (List Value)
  | [] => pure []
  | v :: rest => do
    let tv ← Add lib "" v
    let typed ← AddArray lib rest
    pure (tv :: typed)
end

mutual
/-- Whether a value is a document as `Add` takes it: built from tables,
arrays and arrays of tables over the types that the switch of `Add` has a
case for, `bool`, `string`, `int64`, `float64` and `time.Time`. -/
def isDocument : Value → Bool
  | .table m => isDocumentEntries m
  | .tableArray ts => isDocumentTables ts
  | .array a => isDocumentList a
  | .time _ => true
  | .bool _ => true
  | .str _ => true
  | .int _ => true
  | .float _ => true
  | .null => false
  | .float32 _ => false
/-- `isDocument` for the values of a table. -/
def isDocumentEntries : List (String × Value) → Bool
  | [] => true
  | (_, v) :: rest => isDocument v && isDocumentEntries rest
/-- `isDocument` for the tables of an array of tables. -/
def isDocumentTables : List (List (String × Value)) → Bool
  | [] => true
  | m :: rest => isDocumentEntries m && isDocumentTables rest
/-- `isDocument` for the elements of an array. -/
def isDocumentList : List Value → Bool
  | [] => true
  | v :: rest => isDocument v && isDocumentList rest
end

/-- `in`: whether the key is in the table. -/
def in_ (key : String) (m : Table) : Bool := (m.get? key).isSome

/-- The test of `Remove` for a primitive with tags: an object of two entries
that has the keys `type` and `value`. -/
def isTagged (v : Table) : Bool := v.length == 2 && in_ "type" v && in_ "value" v

/-- The pair `(interface{}, error)` that `Remove` and `untag` return. -/
structure Ret where
  val : Value
  err : Option String
deriving Repr

/-- `parseTime`. -/
def parseTime (lib : Stdlib) (v format : String) (l : Option Location) : Time × Option String :=
  match lib.Parse format v with
  | (_, some err) =>
    (Time.zero, some ("could not parse " ++ lib.Quote v ++ " as a datetime: " ++ err))
  | (t, none) =>
    match l with
    | some l => (t.In l, none)
    | none => (t, none)

/-- The `return parseTime(...)` of `untag`: the time becomes an
`interface{}`. -/
def retTime (r : Time × Option String) : Ret := ⟨.time r.1, r.2⟩

/-- The type assertion `x.(string)`, which panics on anything else. -/
def assertString : Value → Except String String
  | .str s => pure s
  | v => throw ("interface conversion: interface {} is " ++ v.goType ++ ", not string")

/-- `untag`. -/
def untag (lib : Stdlib) (typed : Table) : Except String Ret := do
  let t ← assertString (typed.get "type")
  let v ← assertString (typed.get "value")
  if t = "string" then
    pure ⟨.str v, none⟩
  else if t = "integer" then
    match ParseInt v with
    | (_, some err) => pure ⟨.null, some ("untag: " ++ err.Error lib)⟩
    | (n, none) => pure ⟨.int n, none⟩
  else if t = "float" then
    match lib.ParseFloat v with
    | (_, some err) => pure ⟨.null, some ("untag: " ++ err.Error lib)⟩
    | (f, none) => pure ⟨.float f, none⟩
  else if t = "datetime" then
    pure (retTime (parseTime lib v "2006-01-02T15:04:05.999999999Z07:00" none))
  else if t = "datetime-local" then
    pure (retTime (parseTime lib v "2006-01-02T15:04:05.999999999" (some .LocalDatetime)))
  else if t = "date-local" then
    pure (retTime (parseTime lib v "2006-01-02" (some .LocalDate)))
  else if t = "time-local" then
    pure (retTime (parseTime lib v "15:04:05.999999999" (some .LocalTime)))
  else if t = "bool" then
    if v = "true" then pure ⟨.bool true, none⟩
    else if v = "false" then pure ⟨.bool false, none⟩
    else pure ⟨.null, some ("untag: could not parse " ++ lib.Quote v ++ " as a boolean")⟩
  else
    pure ⟨.null, some ("untag: unrecognized tag type " ++ lib.Quote t)⟩

mutual
/-- `Remove`. -/
def Remove (lib : Stdlib) : Value → Except String Ret
  | .table v =>
    if v.length == 2 && in_ "type" v && in_ "value" v then do
      let ut ← untag lib v
      match ut.err with
      | some err => pure ⟨ut.val, some ("tag.Remove: " ++ err)⟩
      | none => pure ⟨ut.val, none⟩
    else do
      match ← RemoveTable lib v with
      | (_, some err) => pure ⟨.null, some err⟩
      | (m, none) => pure ⟨.table m, none⟩
  | .array v => do
    match ← RemoveArray lib v with
    | (_, some err) => pure ⟨.null, some err⟩
    | (a, none) => pure ⟨.array a, none⟩
  | typedJson =>
    pure ⟨.null, some ("tag.Remove: unrecognized JSON format '" ++ typedJson.goType ++ "'")⟩
/-- The loop of `Remove` over the entries of a table: the entries stored and
the error of the first child that has one. -/
def RemoveTable (lib : Stdlib) :
    List (String × Value) → Except String (List (String × Value) × Option String)
  | [] => pure ([], none)
  | (k, v2) :: rest => do
    let r ← Remove lib v2
    match r.err with
    | some err => pure ([(k, r.val)], some err)
    | none =>
      let (m, err) ← RemoveTable lib rest
      pure ((k, r.val) :: m, err)
/-- The loop of `Remove` over an array. -/
def RemoveArray (lib : Stdlib) : List Value → Except String (List Value × Option String)
  | [] => pure ([], none)
  | v :: rest => do
    let r ← Remove lib v
    match r.err with
    | some err => pure ([r.val], some err)
    | none =>
      let (a, err) ← RemoveArray lib rest
      pure (r.val :: a, err)
end

/-- The composition `Remove(Add(key, tomlData))`; a panic of `Add` is a panic
of the whole. -/
def RemoveAdd (lib : Stdlib) (key : String) (tomlData : Value) : Except String Ret :=
  match Add lib key tomlData with
  | .ok typed => Remove lib typed
  | .error e => .error e

end tag

namespace tag

open Go

/-! ### `Add` on the heap

The values that `Add` is handed hold their maps and slices by reference.
To say what `Add` does to the objects it is handed, it is run here on a heap:
`make` allocates, `typed[k] = ...` writes to the object that was
allocated. -/

/-- A Go value as the program holds it: a map and a slice are references to
an object of the heap. A slice spans the array that it refers to. -/
inductive Ref where
  | null : Ref
  | bool : Bool → Ref
  | str : String → Ref
  | int : Int → Ref
  | float : Float64 → Ref
  | float32 : Float32 → Ref
  | time : Time → Ref
  | slice : Nat → Ref
  | maps : Nat → Ref
  | map : Nat → Ref
deriving DecidableEq, Repr

/-- An object of the heap: the entries of a map, or the elements of the
array under a slice. -/
inductive Obj where
  | map (entries : List (String × Ref))
  | array (elems : List Ref)
deriving DecidableEq, Repr

/-- The heap: the objects by their addresses. -/
abbrev Heap := List Obj

/-- The assignment `m[k] = v` on a map. -/
def Obj.setKey (o : Obj) (k : String) (v : Ref) : Obj :=
  match o with
  | .map es =>
    if es.any (fun e => e.1 == k) then .map (es.map (fun e => if e.1 == k then (k, v) else e))
    else .map (es ++ [(k, v)])
  | .array xs => .array xs

/-- The assignment `a[i] = v` on an array. -/
def Obj.setIndex (o : Obj) (i : Nat) (v : Ref) : Obj :=
  match o with
  | .array xs => .array (xs.set i v)
  | .map es => .map es

/-- A write to the object at an address. -/
def Heap.update (h : Heap) (a : Nat) (f : Obj → Obj) : Heap :=
  match h[a]? with
  | some o => h.set a (f o)
  | none => h

/-- `tag` on the heap: the map literal allocates a map. -/
def tagH (h : Heap) (typeName : String) (data : Ref) : Heap × Ref :=
  (h ++ [.map [("type", .str typeName), ("value", data)]], .map h.length)

/-- `Add` on the heap. The first argument bounds the depth of the recursion;
the default case of the type switch panics. The result is the heap after the
call and the value returned. -/
def AddH (lib : Stdlib) : Nat → Heap → String → Ref → Except String (Heap × Ref)
  | 0, _, _, _ => throw "recursion bound reached"
  | n + 1, h, _, v =>
    match v with
    | .map a =>
      match h[a]? with
      | some (.map orig) => do
        -- typed := make(map[string]interface{}, len(orig))
        let typed := h.length
        let h ← orig.foldlM (fun h e => do
          let (h, tv) ← AddH lib n h e.1 e.2
          pure (h.update typed (fun o => o.setKey e.1 tv))) (h ++ [Obj.map []])
        pure (h, .map typed)
      | _ => throw "invalid memory address"
    | .maps a =>
      match h[a]? with
      | some (.array orig) => do
        -- typed := make([]map[string]interface{}, len(orig))
        let typed := h.length
        let (h, _) ← orig.foldlM (fun (s : Heap × Nat) v => do
          let (h, tv) ← AddH lib n s.1 "" v
          match tv with
          | .map _ => pure (h.update typed (fun o => o.setIndex s.2 tv), s.2 + 1)
          | _ => throw "interface conversion: interface {} is not map[string]interface {}")
          (h ++ [Obj.array (List.replicate orig.length .null)], 0)
        pure (h, .maps typed)
      | _ => throw "invalid memory address"
    | .slice a =>
      match h[a]? with
      | some (.array orig) => do
        -- typed := make([]interface{}, len(orig))
        let typed := h.length
        let (h, _) ← orig.foldlM (fun (s : Heap × Nat) v => do
          let (h, tv) ← AddH lib n s.1 "" v
          pure (h.update typed (fun o => o.setIndex s.2 tv), s.2 + 1))
          (h ++ [Obj.array (List.replicate orig.length .null)], 0)
        pure (h, .slice typed)
      | _ => throw "invalid memory address"
    | .time orig =>
      match orig.Location with
      | .LocalDatetime =>
        pure (tagH h "datetime-local" (.str (lib.Format orig "2006-01-02T15:04:05.999999999")))
      | .LocalDate => pure (tagH h "date-local" (.str (lib.Format orig "2006-01-02")))
      | .LocalTime => pure (tagH h "time-local" (.str (lib.Format orig "15:04:05.999999999")))
      | _ =>
        pure (tagH h "datetime" (.str (lib.Format orig "2006-01-02T15:04:05.999999999Z07:00")))
    | .bool orig => pure (tagH h "bool" (.str (fmtBool orig)))
    | .str orig => pure (tagH h "string" (.str orig))
    | .int orig => pure (tagH h "integer" (.str (fmtInt orig)))
    | .float orig =>
      if orig.IsNaN then pure (tagH h "float" (.str "nan"))
      else pure (tagH h "float" (.str (lib.fmtFloat orig)))
    | .null => throw ("Unknown type: " ++ Value.null.goType)
    | .float32 f => throw ("Unknown type: " ++ (Value.float32 f).goType)

/-- The tree that a value of the heap stands for, read to a bounded depth:
`none` when an address holds no object of the right kind or the bound is
reached. -/
def readRef : Nat → Heap → Ref → Option Value
  | 0, _, _ => none
  | n + 1, h, v =>
    match v with
    | .null => some .null
    | .bool b => some (.bool b)
    | .str s => some (.str s)
    | .int i => some (.int i)
    | .float f => some (.float f)
    | .float32 f => some (.float32 f)
    | .time t => some (.time t)
    | .map a =>
      match h[a]? with
      | some (.map es) =>
        (es.mapM (fun e => (readRef n h e.2).map (fun x => (e.1, x)))).map Value.table
      | _ => none
    | .slice a =>
      match h[a]? with
      | some (.array xs) => (xs.mapM (fun x => readRef n h x)).map Value.array
      | _ => none
    | .maps a =>
      match h[a]? with
      | some (.array xs) =>
        (xs.mapM (fun x =>
          match readRef n h x with
          | some (.table m) => some m
          | _ => none)).map Value.tableArray
      | _ => none

/-- Whether a heap holds every object of an earlier heap, unchanged, at its
address. -/
def Heap.keeps (h' h : Heap) : Prop :=
  h.length ≤ h'.length ∧ ∀ a, a < h.length → h'[a]? = h[a]?

/-- Whether a value reads as a tree through the objects of a heap from an
address on only: it reads as that tree on every heap that holds the same
objects at these addresses. -/
def readsFrom (t : Nat) (s : Heap) (n : Nat) (v : Ref) (d : Value) : Prop :=
  ∀ s' : Heap, (∀ a, t ≤ a → a < s.length → s'[a]? = s[a]?) → readRef n s' v = some d

/-- The heap and the value of an example: a table with a string, an array of
integers and an array of one table. -/
def exampleHeap : Heap :=
  [.array [.int 1, .int 2], .map [("x", .bool true)], .array [.map 1],
    .map [("name", .str "a"), ("ports", .slice 0), ("servers", .maps 2)]]

/-- The document that the value at address 3 of the example heap reads
as. -/
def exampleDoc : Value :=
  .table [("name", .str "a"), ("ports", .array [.int 1, .int 2]),
    ("servers", .tableArray [[("x", .bool true)]])]

end tag

/-! ## pkg/toml/internal/toml-test -/

namespace tomltest

open Go

/-- Modelled from the spec: the record `Test` of the test runner and its
methods `fail`, `Failed`, `kjoin` and `mismatch` (`runner.go` is not among
the sources). `CompareTOML` documents them: the returned value is a copy of
the `Test` with `Failure` set to a description of the first element that is
unequal, and a `Test` has failed when a failure is set. `Key` is the dotted
path of the element under comparison. -/
structure Test where
  Key : String
  Failure : String
deriving DecidableEq, Repr

/-- Modelled from the spec: `(Test).fail` of `runner.go`, a copy with
`Failure` set to the message (the rendering of the compared values in the
message is left out). -/
def Test.fail (t : Test) (msg : String) : Test := { t with Failure := msg }

/-- Modelled from the spec: `(Test).Failed` of `runner.go`, whether a failure
is set. -/
def Test.Failed (t : Test) : Bool := t.Failure != ""

/-- Modelled from the spec: `(Test).kjoin` of `runner.go`, a copy whose key
is extended by one segment. -/
def Test.kjoin (r : Test) (key : String) : Test :=
  if r.Key.length == 0 then { r with Key := key } else { r with Key := r.Key ++ "." ++ key }

/-- Modelled from the spec: `(Test).mismatch` of `runner.go`, the failure for
a value of the wrong shape. -/
def Test.mismatch (r : Test) (wantType : String) (want have_ : Value) : Test :=
  r.fail ("Key '" ++ r.Key ++ "' is not an " ++ wantType ++ " but " ++ have_.goType)

/-- `isTomlValue`. -/
def isTomlValue : Value → Bool
  | .table _ => false
  | .array _ => false
  | _ => true

mutual
/-- `reflect.DeepEqual` on two `interface{}` values: the same dynamic type
and deeply equal contents. Floats are compared with `==`, structs field by
field, slices element by element, and two maps are equal when they have the
same length and every entry of the first has a deeply equal entry in the
second. (A nil and an empty slice or map are not told apart here.) -/
def DeepEqual : Value → Value → Bool
  | .null, w => match w with | .null => true | _ => false
  | .bool a, w => match w with | .bool b => a == b | _ => false
  | .str a, w => match w with | .str b => a == b | _ => false
  | .int a, w => match w with | .int b => a == b | _ => false
  | .float a, w => match w with | .float b => a.eq b | _ => false
  | .float32 a, w => match w with | .float32 b => a.eq b | _ => false
  | .time a, w => match w with | .time b => a == b | _ => false
  | .array a, w => match w with | .array b => DeepEqualSlice a b | _ => false
  | .tableArray a, w => match w with | .tableArray b => DeepEqualMaps a b | _ => false
  | .table a, w => match w with | .table b => a.length == b.length && DeepEqualMap a b | _ => false
termination_by structural x => x
/-- `reflect.DeepEqual` on two `[]interface{}`. -/
def DeepEqualSlice : List Value → List Value → Bool
  | [], bs => bs.isEmpty
  | a :: as, bs =>
    match bs with
    | b :: bs => DeepEqual a b && DeepEqualSlice as bs
    | [] => false
termination_by structural x => x
/-- `reflect.DeepEqual` on two `[]map[string]interface{}`. -/
def DeepEqualMaps : List (List (String × Value)) → List (List (String × Value)) → Bool
  | [], bs => bs.isEmpty
  | a :: as, bs =>
    match bs with
    | b :: bs => (a.length == b.length && DeepEqualMap a b) && DeepEqualMaps as bs
    | [] => false
termination_by structural x => x
/-- The entries of the first map have deeply equal entries in the second. -/
def DeepEqualMap : List (String × Value) → List (String × Value) → Bool
  | [], _ => true
  | (k, v) :: rest, b =>
    (match b.lookup k with
     | some w => DeepEqual v w
     | none => false) && DeepEqualMap rest b
termination_by structural x => x
end

/-- `deepEqual`: `reflect.DeepEqual` that deals with NaN. -/
def deepEqual (want have_ : Value) : Bool :=
  let wantF : Float64 :=
    match want with
    | .float32 f => f.toFloat64
    | .float f => f
    | _ => Float64.zero
  let haveF : Float64 :=
    match have_ with
    | .float32 f => f.toFloat64
    | .float f => f
    | _ => Float64.zero
  if wantF.IsNaN && haveF.IsNaN then true
  else DeepEqual want have_

/-- The first key of `a` that `b` lacks: the key loops of `cmpTOMLMap`. -/
def missingKey (a b : Table) : Option String :=
  a.keys.find? (fun k => (b.get? k).isNone)

mutual
/-- `(Test).CompareTOML`. The bodies of `cmpTOMLMap` and `cmpTOMLArrays`, to
which it hands a table and an array, stand in its two cases; their loops over
the children are `cmpTOMLMapValues` and `cmpTOMLArrayValues`. -/
def CompareTOML (r : Test) : Value → Value → Test
  | .table want, have_ =>
    -- r.cmpTOMLMap(w, have)
    match have_ with
    | .table haveMap =>
      match missingKey want haveMap with
      | some k =>
        let bunk := r.kjoin k
        bunk.fail ("Could not find key '" ++ bunk.Key ++ "' in encoder output")
      | none =>
        match missingKey haveMap want with
        | some k =>
          let bunk := r.kjoin k
          bunk.fail ("Could not find key '" ++ bunk.Key ++ "' in expected output")
        | none =>
          match cmpTOMLMapValues r want haveMap with
          | some sub => sub
          | none => r
    | _ => r.mismatch "table" (.table want) (.table [])
  | .array want, have_ =>
    -- r.cmpTOMLArrays(w, have)
    let haveSlice? : Option (List Value) :=
      match have_ with
      | .array haveSlice => some haveSlice
      | .tableArray tblArray => some (tblArray.map Value.table)
      | _ => none
    match haveSlice? with
    | none => r.mismatch "array" (.array want) have_
    | some haveSlice =>
      if want.length != haveSlice.length then
        r.fail ("Array lengths differ for key '" ++ r.Key ++ "'")
      else
        match cmpTOMLArrayValues r want haveSlice with
        | some sub => sub
        | none => r
  | want, have_ =>
    -- isTomlValue(want)
    if !isTomlValue have_ then
      r.fail ("Type for key '" ++ r.Key ++ "' differs:\n" ++
        "  Expected:     (" ++ want.goType ++ ")\n" ++
        "  Your encoder: (" ++ have_.goType ++ ")")
    else if !deepEqual want have_ then
      r.fail ("Values for key '" ++ r.Key ++ "' differ:\n" ++
        "  Expected:     (" ++ want.goType ++ ")\n" ++
        "  Your encoder: (" ++ have_.goType ++ ")")
    else r
/-- The last loop of `cmpTOMLMap`: the first failed comparison of a value of
`want` with the value of `haveMap` at its key, if there is one. -/
def cmpTOMLMapValues (r : Test) : List (String × Value) → List (String × Value) → Option Test
  | [], _ => none
  | (k, wantk) :: rest, haveMap =>
    let sub := CompareTOML (r.kjoin k) wantk (Table.get haveMap k)
    if sub.Failed then some sub else cmpTOMLMapValues r rest haveMap
/-- The loop of `cmpTOMLArrays` over two slices of the same length: the first
failed comparison, if there is one. -/
def cmpTOMLArrayValues (r : Test) : List Value → List Value → Option Test
  | [], _ => none
  | wanti :: rest, haveSlice =>
    let sub := CompareTOML r wanti (haveSlice.headD .null)
    if sub.Failed then some sub else cmpTOMLArrayValues r rest haveSlice.tail
end

/-- `(Test).cmpTOMLMap`. -/
def cmpTOMLMap (r : Test) (want : Table) (have_ : Value) : Test :=
  CompareTOML r (.table want) have_

/-- `(Test).cmpTOMLArrays`. -/
def cmpTOMLArrays (r : Test) (want : List Value) (have_ : Value) : Test :=
  CompareTOML r (.array want) have_

/-- Whether a leaf is a float, of either width, that is a NaN. -/
def isNaNLeaf : Value → Bool
  | .float f => f.IsNaN
  | .float32 f => f.IsNaN
  | _ => false

/-- Two leaves of the same type and the same value, by the operator `==` of
the type. -/
def sameLeaf : Value → Value → Bool
  | .null, .null => true
  | .bool a, .bool b => a == b
  | .str a, .str b => a == b
  | .int a, .int b => a == b
  | .float a, .float b => a.eq b
  | .float32 a, .float32 b => a.eq b
  | .time a, .time b => a == b
  | _, _ => false

/-- Whether every key of `a` is a key of `b`. -/
def keysIn (a b : Table) : Bool := a.keys.all (fun k => b.keys.contains k)

mutual
/-- Structural equality of two TOML values, in the words of the
specification of `CompareTOML`: two tables are equal when no key is present
on one side only and the values at each key are equal; two arrays when they
have the same length and equal elements at each index; a table or an array
is equal to no value of another shape; two leaves are equal when they have
the same type and value, two NaN floats counting as equal. -/
def tomlEqual : Value → Value → Bool
  | .table a, w =>
    match w with
    | .table b => keysIn a b && keysIn b a && tomlEqualAt a b
    | _ => false
  | .array a, w =>
    match w with
    | .array b => a.length == b.length && tomlEqualEach a b
    | _ => false
  | .null, w => w.isLeaf && sameLeaf .null w
  | .bool x, w => w.isLeaf && sameLeaf (.bool x) w
  | .str x, w => w.isLeaf && sameLeaf (.str x) w
  | .int x, w => w.isLeaf && sameLeaf (.int x) w
  | .time x, w => w.isLeaf && sameLeaf (.time x) w
  | .float x, w => w.isLeaf && ((x.IsNaN && isNaNLeaf w) || sameLeaf (.float x) w)
  | .float32 x, w => w.isLeaf && ((x.IsNaN && isNaNLeaf w) || sameLeaf (.float32 x) w)
  | .tableArray _, _ => false
termination_by structural x => x
/-- The values of `a` are equal to the values of `b` at the same keys. -/
def tomlEqualAt : List (String × Value) → List (String × Value) → Bool
  | [], _ => true
  | (k, x) :: rest, b => tomlEqual x (Table.get b k) && tomlEqualAt rest b
termination_by structural x => x
/-- The elements of `a` are equal to the elements of `b` at the same
indices. -/
def tomlEqualEach : List Value → List Value → Bool
  | [], _ => true
  | x :: rest, b => tomlEqual x (b.headD .null) && tomlEqualEach rest b.tail
termination_by structural x => x
end

end tomltest

/-! ## The decoder and the loader

The decoder and the encoder of `pkg/toml` and the function `load` of
`pkg/markup` are not among the sources; `decode_go117.go`, `Load` and the
tests call them. They
are modelled here from the specification, on the Document Tree: the text
layer (lexer, parser, printer) is modelled only for the fragment of one-line
`key = value` documents. A configuration file is given by its name, its
format and the Document Tree of its contents; where the specification is
silent about the loader, the tests of `pkg/markup` are followed, and the
definitions say which. -/

namespace toml

open Go

/-- Modelled from the spec: the semantic types of a primitive target
(Decoder): an integer of some width, given by its range, a floating type,
text, a boolean, and a calendar/time value. -/
inductive Prim where
  | integer (lo hi : Int)
  | float
  | text
  | boolean
  | time
deriving DecidableEq, Repr

/-- Modelled from the spec: a value of a decode destination. A record holds
the values of its fields in the order of the fields. -/
inductive Dest where
  | int : Int → Dest
  | float : Float64 → Dest
  | text : String → Dest
  | bool : Bool → Dest
  | time : Time → Dest
  | seq : List Dest → Dest
  | record : List Dest → Dest
deriving Repr

/-- Modelled from the spec: the directives of a record field (Decoder): its
name, a source-name override, a default-value directive, a required
directive and an environment/override-name directive. -/
structure Field where
  name : String
  override : Option String
  default : Option Dest
  required : Bool
  env : Option String
deriving Repr

/-- Modelled from the spec: the target shape of a decode (Decoder), with the
kinds record, sequence and primitive. The fields of an embedded record
(anonymous/flatten directive) are merged into the namespace of the parent: a
record lists them among its own fields. Mapping targets and the custom
unmarshal capability are left out. -/
inductive Shape where
  | primitive : Prim → Shape
  | sequence : Shape → Shape
  | record : List (Field × Shape) → Shape
deriving Repr

mutual
/-- The zero value of a shape: a fresh destination. -/
def Shape.zero : Shape → Dest
  | .primitive (.integer _ _) => .int 0
  | .primitive .float => .float ⟨0⟩
  | .primitive .text => .text ""
  | .primitive .boolean => .bool false
  | .primitive .time => .time Time.zero
  | .sequence _ => .seq []
  | .record fields => .record (Shape.zeros fields)
/-- The zero values of the fields of a record. -/
def Shape.zeros : List (Field × Shape) → List Dest
  | [] => []
  | (_, sh) :: rest => Shape.zero sh :: Shape.zeros rest
end

/-- The name under which a field is written and looked up: its source-name
override, or else its name. -/
def Field.sourceName (f : Field) : String := f.override.getD f.name

/-- A text with its letters in lower case. -/
def lowerCase (s : String) : String := ⟨s.data.map Char.toLower⟩

/-- Modelled from the spec: whether a field matches a tree key (Decoder,
matching algorithm): case-insensitively on its name, unless an explicit
override is given, which has to match exactly. -/
def Field.isMatch (f : Field) (key : String) : Bool :=
  match f.override with
  | some o => o == key
  | none => lowerCase f.name == lowerCase key

/-- The index of the field that matches a tree key: the first one in the
order of the fields. -/
def findField : List (Field × Shape) → String → Option Nat
  | [], _ => none
  | (f, _) :: rest, key =>
    if f.isMatch key then some 0 else (findField rest key).map (· + 1)

/-- The shape of the field at an index. -/
def shapeAt (fields : List (Field × Shape)) (i : Nat) : Shape :=
  match fields.get? i with
  | some p => p.2
  | none => .record []

/-- The kind of a node of the Document Tree, as the type system of
`type_toml.go` names it. -/
def kindOf : Value → tomlBaseType
  | .int _ => tomlInteger
  | .float _ => tomlFloat
  | .float32 _ => tomlFloat
  | .time _ => tomlDatetime
  | .str _ => tomlString
  | .bool _ => tomlBool
  | .array _ => tomlArray
  | .table _ => tomlHash
  | .tableArray _ => tomlArrayHash
  | .null => ⟨"nil"⟩

/-- The kind that a shape asks of a node. -/
def Shape.kind : Shape → String
  | .primitive (.integer _ _) => "Integer"
  | .primitive .float => "Float"
  | .primitive .text => "String"
  | .primitive .boolean => "Bool"
  | .primitive .time => "Datetime"
  | .sequence _ => "Array"
  | .record _ => "Hash"

/-- Modelled from the spec: the errors of a decode (Error handling design).
A failed coercion names the key path and both kinds; strict mode reports
every unmatched key path. `PathError` is the error of `fs.FS.Open`, which
the decode entry points pass on. -/
inductive DecodeError where
  | TypeMismatchError (path : List String) (expected actual : String)
  | UnmatchedKeysError (paths : List (List String))
  | MissingRequiredError (path : List String)
  | ParseError (reason : String)
  | PathError (path reason : String)
deriving DecidableEq, Repr

/-- The fields of a record destination; a destination of another form
counts as fresh. -/
def Dest.fieldsOr (d : Dest) (fields : List (Field × Shape)) : List Dest :=
  match d with
  | .record ds => if ds.length = fields.length then ds else Shape.zeros fields
  | _ => Shape.zeros fields

/-- The elements of a sequence destination. -/
def Dest.elems (d : Dest) : List Dest :=
  match d with
  | .seq ds => ds
  | _ => []

/-- Modelled from the spec: the coercion of a scalar node to a primitive
target (Decoder): Integer to any integer width with a range check, Float to
the floating type, String to text, Bool to boolean, Datetime to a time
value; a mismatched kind is a type error naming the key path and both
kinds. -/
def coerce (path : List String) (sh : Shape) (node : Value) : Except DecodeError Dest :=
  match sh, node with
  | .primitive (.integer lo hi), .int n =>
    if lo ≤ n ∧ n ≤ hi then .ok (.int n)
    else .error (.TypeMismatchError path (sh.kind ++ " in range") (kindOf node).typeString)
  | .primitive .float, .float f => .ok (.float f)
  | .primitive .text, .str s => .ok (.text s)
  | .primitive .boolean, .bool b => .ok (.bool b)
  | .primitive .time, .time t => .ok (.time t)
  | _, _ => .error (.TypeMismatchError path sh.kind (kindOf node).typeString)

mutual
/-- Modelled from the spec: the decoding of a node into a destination of a
given shape (Decoder). The result is the populated destination and the key
paths, relative to the node, that fields consumed. -/
def decodeNode (path : List String) (sh : Shape) (d : Dest) :
    Value → Except DecodeError (Dest × List (List String))
  | .table es =>
    match sh with
    | .record fields => do
      let (ds, consumed) ← decodeFields path fields (d.fieldsOr fields) es
      pure (.record ds, consumed)
    | _ => throw (.TypeMismatchError path sh.kind "Hash")
  | .tableArray ts =>
    match sh with
    | .sequence elem => do
      let (ds, consumed) ← decodeTables path elem d.elems ts
      pure (.seq ds, consumed)
    | _ => throw (.TypeMismatchError path sh.kind "ArrayHash")
  | .array xs =>
    match sh with
    | .sequence elem => do
      let (ds, consumed) ← decodeElems path elem d.elems xs
      pure (.seq ds, consumed)
    | _ => throw (.TypeMismatchError path sh.kind "Array")
  | .null => do
    let v ← coerce path sh .null
    pure (v, [])
  | .bool b => do
    let v ← coerce path sh (.bool b)
    pure (v, [])
  | .str s => do
    let v ← coerce path sh (.str s)
    pure (v, [])
  | .int n => do
    let v ← coerce path sh (.int n)
    pure (v, [])
  | .float f => do
    let v ← coerce path sh (.float f)
    pure (v, [])
  | .float32 f => do
    let v ← coerce path sh (.float32 f)
    pure (v, [])
  | .time t => do
    let v ← coerce path sh (.time t)
    pure (v, [])
/-- The matching algorithm for a record target: for every tree key at the
current table level, in order, find the field that matches it and decode the
value into it; a key that no field matches is passed over. -/
def decodeFields (path : List String) (fields : List (Field × Shape)) (ds : List Dest) :
    List (String × Value) → Except DecodeError (List Dest × List (List String))
  | [] => pure (ds, [])
  | (k, v) :: rest =>
    match findField fields k with
    | none => decodeFields path fields ds rest
    | some i => do
      let (d, below) ← decodeNode (path ++ [k]) (shapeAt fields i) (ds.getD i (.record [])) v
      let (ds', consumed) ← decodeFields path fields (ds.set i d) rest
      pure (ds', ([k] :: below.map (k :: ·)) ++ consumed)
/-- A sequence target against an array of tables: decode table by table,
growing or truncating the destination to the length of the array. -/
def decodeTables (path : List String) (elem : Shape) (olds : List Dest) :
    List (List (String × Value)) → Except DecodeError (List Dest × List (List String))
  | [] => pure ([], [])
  | t :: rest =>
    match elem with
    | .record fields => do
      let (ds, below) ←
        decodeFields path fields ((olds.headD (elem.zero)).fieldsOr fields) t
      let (more, consumed) ← decodeTables path elem olds.tail rest
      pure (.record ds :: more, below ++ consumed)
    | _ => throw (.TypeMismatchError path elem.kind "Hash")
/-- A sequence target against an array: decode element by element, growing
or truncating the destination to the length of the array. The keys that the
tables among the elements consumed are consumed under the key path of the
array. -/
def decodeElems (path : List String) (elem : Shape) (olds : List Dest) :
    List Value → Except DecodeError (List Dest × List (List String))
  | [] => pure ([], [])
  | x :: rest => do
    let (d, below) ← decodeNode path elem (olds.headD (elem.zero)) x
    let (more, consumed) ← decodeElems path elem olds.tail rest
    pure (d :: more, below ++ consumed)
end

mutual
/-- Modelled from the spec: the key paths of a Document Tree in discovery
order (Metadata Index), with the kind recorded for each: one entry per key of
each table, at any depth. The keys of the tables of an array of tables, and
of the tables that an array holds, stand under the key path of the array. -/
def keysOf : Value → List (List String × tomlBaseType)
  | .table es => keysOfEntries es
  | .tableArray ts => keysOfTables ts
  | .array xs => keysOfList xs
  | _ => []
/-- The key paths of the entries of a table. -/
def keysOfEntries : List (String × Value) → List (List String × tomlBaseType)
  | [] => []
  | (k, v) :: rest =>
    (([k], kindOf v) :: (keysOf v).map (fun p => (k :: p.1, p.2))) ++ keysOfEntries rest
/-- The key paths of the tables of an array of tables. -/
def keysOfTables : List (List (String × Value)) → List (List String × tomlBaseType)
  | [] => []
  | t :: rest => keysOfEntries t ++ keysOfTables rest
/-- The key paths of the elements of an array. -/
def keysOfList : List Value → List (List String × tomlBaseType)
  | [] => []
  | x :: rest => keysOf x ++ keysOfList rest
end

/-- Modelled from the spec: the metadata of a decode (Metadata Index): the
key paths with their kinds in discovery order, and the key paths that no
field of the destination consumed. -/
structure MetaData where
  keys : List (List String × tomlBaseType)
  undecoded : List (List String)
deriving Repr

/-- The metadata `MetaData{}`. -/
def MetaData.empty : MetaData := ⟨[], []⟩

/-- Modelled from the spec: `Keys()`, the ordered sequence of all key paths
in first-discovery order. -/
def MetaData.Keys (md : MetaData) : List (List String) := md.keys.map Prod.fst

/-- Modelled from the spec: `Type(path)`, the kind recorded for a path, or
not found. -/
def MetaData.Type (md : MetaData) (path : List String) : Option tomlBaseType :=
  md.keys.lookup path

/-- `Undecoded()`: the key paths that no field consumed, in discovery
order. -/
def MetaData.Undecoded (md : MetaData) : List (List String) := md.undecoded

/-- What a decode returns: the metadata, the error, and the destination as
the call leaves it. -/
structure Decoded where
  md : MetaData
  err : Option DecodeError
  dest : Dest
deriving Repr

/-- Modelled from the spec: the decode of a Document Tree into a destination
(Decoder, default mode): unmatched keys are ignored. After an error the
destination counts as untouched. -/
def decodeTree (tree : Value) (sh : Shape) (d : Dest) : Decoded :=
  match decodeNode [] sh d tree with
  | .ok (d', consumed) =>
    ⟨⟨keysOf tree, ((keysOf tree).map Prod.fst).filter (fun p => !consumed.contains p)⟩,
      none, d'⟩
  | .error e => ⟨MetaData.empty, some e, d⟩

/-- Modelled from the spec: strict mode (Decoder): after matching completes
for the whole tree, if any tree key at any level was never matched by any
field, fail with an unmatched-keys error that enumerates every such key path
in discovery order. -/
def decodeStrict (tree : Value) (sh : Shape) (d : Dest) : Decoded :=
  let r := decodeTree tree sh d
  match r.err with
  | some _ => r
  | none =>
    if r.md.undecoded.isEmpty then r
    else { r with err := some (.UnmatchedKeysError r.md.undecoded) }

/-! ### The text layer, for one-line `key = value` documents -/

/-- The pieces of a text between the occurrences of a separator. -/
def splitOn (c : Char) : List Char → List (List Char)
  | [] => [[]]
  | x :: xs =>
    if x == c then [] :: splitOn c xs
    else
      match splitOn c xs with
      | l :: ls => (x :: l) :: ls
      | [] => [[x]]

/-- A text without the blanks at its ends. -/
def trim (l : List Char) : List Char :=
  ((l.dropWhile (· == ' ')).reverse.dropWhile (· == ' ')).reverse

/-- The digits of a decimal integer, read from the left; underscores are
digit-group separators. -/
def digitsValue : List Char → Nat → Nat
  | [], n => n
  | c :: cs, n => if c == '_' then digitsValue cs n else digitsValue cs (n * 10 + (c.toNat - 48))

/-- Whether underscores stand between digits only: not leading, not
trailing, not doubled. `prev` tells whether a digit came before. -/
def separatorsOk : List Char → Bool → Bool
  | [], prev => prev
  | c :: cs, prev =>
    if c == '_' then prev && separatorsOk cs false
    else c.isDigit && separatorsOk cs true

/-- Modelled from the spec: the lexing of a decimal integer (Lexer): an
optional sign, no leading zero except for exactly `0`, underscores only
between digits. Other radixes are outside the fragment. -/
def lexInteger (l : List Char) : Option Int :=
  let neg := l.head? == some '-'
  let body := if l.head? == some '-' ∨ l.head? == some '+' then l.tail else l
  if separatorsOk body false && (body.head? != some '0' || body.length == 1) then
    some (if neg then -(digitsValue body 0 : Int) else (digitsValue body 0 : Int))
  else none

/-- Modelled from the spec: the lexing of a value (Lexer), for the fragment
of booleans, decimal integers and basic strings without escapes. -/
def lexValue (l : List Char) : Option Value :=
  if l == "true".toList then some (.bool true)
  else if l == "false".toList then some (.bool false)
  else if l.head? == some '"' then
    let inner := l.tail.dropLast
    if l.length ≥ 2 ∧ l.getLast? = some '"' ∧ inner.all (fun c => c != '"' && c != '\\' && c.toNat ≥ 32)
    then some (.str ⟨inner⟩)
    else none
  else (lexInteger l).map Value.int

/-- A bare key: letters, digits, underscores and dashes. -/
def isBareKey (l : List Char) : Bool :=
  !l.isEmpty && l.all (fun c => c.isAlphanum || c == '_' || c == '-')

/-- One line `key = value`. -/
def parseLine (line : List Char) : Option (String × Value) :=
  match splitOn '=' line with
  | [k, v] =>
    if isBareKey (trim k) then (lexValue (trim v)).map (fun x => (⟨trim k⟩, x)) else none
  | _ => none

/-- The lines of a document, one key each; a key defined twice is an
error. -/
def parseLines : List (List Char) → Option (List (String × Value))
  | [] => some []
  | line :: rest =>
    if (trim line).isEmpty then parseLines rest
    else
      match parseLine line, parseLines rest with
      | some (k, v), some es => if es.any (fun e => e.1 == k) then none else some ((k, v) :: es)
      | _, _ => none

/-- Modelled from the spec: the parse of a text into the Document Tree
(Lexer, Parser), for the fragment of documents with one bare `key = value`
per line at the root; `none` stands for a text that is in error or outside
the fragment. -/
def parse (text : String) : Option Value :=
  (parseLines (splitOn '\n' text.toList)).map Value.table

/-- Modelled from the spec: the decode entry point on a text (External
interfaces): parse, then decode the tree in default mode. A text that the
modelled fragment does not cover is reported as a parse error. -/
def Decode (text : String) (sh : Shape) (v : Dest) : Decoded :=
  match parse text with
  | some tree => decodeTree tree sh v
  | none => ⟨MetaData.empty, some (.ParseError "not a document of the modelled fragment"), v⟩

/-! ### decode_go117.go -/

/-- An `fs.FS`: what `Open` gives for a path, the contents of the file it
opens or an error. -/
structure FS where
  Open : String → Except DecodeError String

/-- A `fstest.MapFS`: the files by their paths. -/
def MapFS (files : List (String × String)) : FS where
  Open := fun path =>
    match files.lookup path with
    | some data => .ok data
    | none => .error (.PathError path "file does not exist")

/-- `DecodeFS`. The call `NewDecoder(fp).Decode(v)` of the decoder, which is
not among the sources, is the parameter `Decode`: what it returns on the
contents of the opened file. -/
def DecodeFS (Decode : String → Shape → Dest → Decoded) (fsys : FS) (path : String)
    (sh : Shape) (v : Dest) : Decoded :=
  match fsys.Open path with
  | .error err => ⟨MetaData.empty, some err, v⟩
  | .ok fp => Decode fp sh v

/-! ### The encoder, on the Document Tree -/

mutual
/-- Modelled from the spec: the encoding of a source value of a given shape
(Encoder), as the Document Tree of the text it emits: a record emits one key
per field, a sequence emits an array unless its elements are records, in
which case it emits an array of tables. A value that does not have the shape
is unrepresentable, here nil; so is an integer outside the 64 bits of an
Integer node, which is an `int64` (the type switch of `Add` in add.go). -/
def encodeNode : Shape → Dest → Value
  | .primitive p, d =>
    match p, d with
    | .integer _ _, .int n => if isInt64 n then .int n else .null
    | .float, .float f => .float f
    | .text, .text s => .str s
    | .boolean, .bool b => .bool b
    | .time, .time t => .time t
    | _, _ => .null
  | .sequence (.record fields), d =>
    match d with
    | .seq es =>
      .tableArray (es.map (fun e =>
        match e with
        | .record ds => encodeFields fields ds
        | _ => []))
    | _ => .null
  | .sequence (.primitive p), d =>
    match d with
    | .seq es => .array (es.map (fun e => encodeNode (.primitive p) e))
    | _ => .null
  | .sequence (.sequence inner), d =>
    match d with
    | .seq es => .array (es.map (fun e => encodeNode (.sequence inner) e))
    | _ => .null
  | .record fields, d =>
    match d with
    | .record ds => .table (encodeFields fields ds)
    | _ => .null
/-- The entries that the fields of a record emit, in the order of the
fields. -/
def encodeFields : List (Field × Shape) → List Dest → List (String × Value)
  | [], _ => []
  | (f, sh) :: rest, ds =>
    match ds with
    | [] => []
    | d :: ds' => (f.sourceName, encodeNode sh d) :: encodeFields rest ds'
end

/-! ### Notions that the properties of the decoder are stated with -/

/-- A shape without its sequence layers: the shape of the tables of an array
of tables. -/
def Shape.element : Shape → Shape
  | .sequence elem => elem.element
  | sh => sh

/-- Whether a destination field matches a key path: at every level the key
is matched by a field of the record that the path has led to. -/
def Shape.resolves (sh : Shape) : List String → Bool
  | [] => true
  | key :: rest =>
    match sh.element with
    | .record fields =>
      match findField fields key with
      | some i => (shapeAt fields i).resolves rest
      | none => false
    | _ => false

/-- The keys of a Document Tree that no destination field matches, in
discovery order. -/
def unmatchedKeys (sh : Shape) (tree : Value) : List (List String) :=
  ((keysOf tree).map Prod.fst).filter (fun p => !sh.resolves p)

mutual
/-- A Document Tree without the keys that no destination field matches. -/
def prune (sh : Shape) : Value → Value
  | .table es =>
    match sh with
    | .record fields => .table (pruneEntries fields es)
    | _ => .table es
  | .tableArray ts =>
    match sh with
    | .sequence (.record fields) => .tableArray (pruneTables fields ts)
    | _ => .tableArray ts
  | .array xs =>
    match sh with
    | .sequence elem => .array (pruneList elem xs)
    | _ => .array xs
  | .null => .null
  | .bool b => .bool b
  | .str s => .str s
  | .int n => .int n
  | .float f => .float f
  | .float32 f => .float32 f
  | .time t => .time t
/-- The entries of a table without the keys that no field matches. -/
def pruneEntries (fields : List (Field × Shape)) : List (String × Value) → List (String × Value)
  | [] => []
  | (k, v) :: rest =>
    match findField fields k with
    | none => pruneEntries fields rest
    | some i => (k, prune (shapeAt fields i) v) :: pruneEntries fields rest
/-- The tables of an array of tables without the keys that no field
matches. -/
def pruneTables (fields : List (Field × Shape)) :
    List (List (String × Value)) → List (List (String × Value))
  | [] => []
  | t :: rest => pruneEntries fields t :: pruneTables fields rest
/-- The elements of an array without the keys that no field matches. -/
def pruneList (elem : Shape) : List Value → List Value
  | [] => []
  | x :: rest => prune elem x :: pruneList elem rest
end

/-- Whether the name under which each field is written is matched by that
field first. -/
def namesOk (fields : List (Field × Shape)) : Bool :=
  (List.range fields.length).all (fun i =>
    match fields.get? i with
    | some p => findField fields p.1.sourceName == some i
    | none => true)

mutual
/-- Whether the records of a shape, at any depth, have fields that can be
told apart by the names under which they are written. -/
def Shape.wf : Shape → Bool
  | .primitive _ => true
  | .sequence elem => elem.wf
  | .record fields => namesOk fields && Shape.wfFields fields
/-- `Shape.wf` for the fields of a record. -/
def Shape.wfFields : List (Field × Shape) → Bool
  | [] => true
  | (_, sh) :: rest => sh.wf && Shape.wfFields rest
end

mutual
/-- Whether a value has a shape and a node of the Document Tree stands for
it: an integer lies in the range of its type and in the 64 bits of an Integer
node, a float is a number, a sequence holds values of the shape of its
elements, a record one value per field. -/
def Shape.conforms : Shape → Dest → Bool
  | .primitive p, d =>
    match p, d with
    | .integer lo hi, .int n => decide (lo ≤ n ∧ n ≤ hi ∧ isInt64 n)
    | .float, .float f => !f.IsNaN
    | .text, .text _ => true
    | .boolean, .bool _ => true
    | .time, .time _ => true
    | _, _ => false
  | .sequence elem, d =>
    match d with
    | .seq es => es.all (fun e => Shape.conforms elem e)
    | _ => false
  | .record fields, d =>
    match d with
    | .record ds => Shape.conformsFields fields ds
    | _ => false
/-- `Shape.conforms` for the fields of a record. -/
def Shape.conformsFields : List (Field × Shape) → List Dest → Bool
  | [], ds => ds.isEmpty
  | (_, sh) :: rest, ds =>
    match ds with
    | [] => false
    | d :: ds' => Shape.conforms sh d && Shape.conformsFields rest ds'
end

mutual
/-- `reflect.DeepEqual` on two destination values of one type: floats are
compared with `==`, sequences element by element, records field by
field. -/
def Dest.DeepEqual : Dest → Dest → Bool
  | .int a, w => match w with | .int b => a == b | _ => false
  | .float a, w => match w with | .float b => a.eq b | _ => false
  | .text a, w => match w with | .text b => a == b | _ => false
  | .bool a, w => match w with | .bool b => a == b | _ => false
  | .time a, w => match w with | .time b => a == b | _ => false
  | .seq a, w => match w with | .seq b => Dest.DeepEqualList a b | _ => false
  | .record a, w => match w with | .record b => Dest.DeepEqualList a b | _ => false
termination_by structural x => x
/-- `Dest.DeepEqual` on two lists. -/
def Dest.DeepEqualList : List Dest → List Dest → Bool
  | [], bs => bs.isEmpty
  | a :: as, bs =>
    match bs with
    | b :: bs' => Dest.DeepEqual a b && Dest.DeepEqualList as bs'
    | [] => false
termination_by structural x => x
end

/-- A field without directives. -/
def Field.plain (name : String) : Field := ⟨name, none, none, false, none⟩

/-- The type `int` of Go, 64 bits wide. -/
def Shape.int : Shape := .primitive (.integer (-9223372036854775808) 9223372036854775807)

/-- The type `uint` of Go, 64 bits wide. -/
def Shape.uint : Shape := .primitive (.integer 0 18446744073709551615)

/-- The type `string`. -/
def Shape.string : Shape := .primitive .text

/-- The type `bool`. -/
def Shape.bool : Shape := .primitive .boolean

/-- The destination `struct{ A int }` of `TestDecodeFS`. -/
def structA : Shape := .record [(Field.plain "A", Shape.int)]

end toml

/-! ### The loader of pkg/markup -/

namespace markup

open Go toml

/-- Modelled from the spec and from the tests: the errors of `Load`: an error
of the decode; the unmatched keys of strict mode, which a TOML file reports
as an `UnmatchedTomlKeysError` with all the keys
(`TestUnmatchedKeyInTomltestConfigFile`), a JSON file as the error
`json: unknown field` (`TestUnmatchedKeyInJsonConfigFile`) and a YAML file
as a `*yaml.TypeError` (`TestUnmatchedKeyInYamltestConfigFile`); a required
field that is left blank (`TestMissingRequiredValue`); and a `config` that
is not addressable. -/
inductive LoadError where
  | decode (err : DecodeError)
  | UnmatchedTomlKeysError (Keys : List (List String))
  | unknownField (field : String)
  | yamlTypeError (Keys : List (List String))
  | required (field : String)
  | shouldBeAddressable
deriving DecidableEq, Repr

/-- The formats of a configuration file. -/
inductive Format where
  | toml
  | json
  | yaml
deriving DecidableEq, Repr

/-- A configuration file: its name, the format in which it is written and the
Document Tree of its contents (the objects of JSON and the mappings of YAML
are tables, their lists arrays). -/
structure File where
  name : String
  format : Format
  tree : Value

/-- What `Load` is given as `config`: a pointer to the destination, or a
value, which is not addressable. -/
inductive ConfigArg where
  | pointer (d : Dest)
  | value (d : Dest)
deriving Repr

mutual
/-- Whether a destination value is blank: the zero value of its type. -/
def isBlank : Dest → Bool
  | .int n => n == 0
  | .float f => f.eq ⟨0⟩
  | .text s => s == ""
  | .bool b => !b
  | .time t => t == Time.zero
  | .seq es => es.isEmpty
  | .record ds => allBlank ds
/-- Whether all fields of a record are blank. -/
def allBlank : List Dest → Bool
  | [] => true
  | d :: ds => isBlank d && allBlank ds
end

/-- Modelled from the spec: the overlay of the environment (collaborator
contract of the config loader): the value that the environment supplies for
a field, by the path of the field and its environment directive, if it
supplies one. -/
abbrev Overlay := List String → Field → Option Dest

mutual
/-- Modelled from the spec and from the tests: what the loader does to the
destination after the decode (collaborator contract, required-field mode).
Field by field, the overlay of the environment is merged in, after the
decode as the spec has it. A field that is then blank is one that nothing
has supplied: a key that is absent from the tree leaves the field of a fresh
destination blank, and `TestMissingRequiredValue` takes a value that the
file writes empty for a missing one as well. Such a field takes its default
(`TestDefaultValue`, for fields that the file omits), and fails with a
missing-key error when it has none and is marked required (the spec, for a
field that is absent from the tree; the test, for one that is empty). Then
the fields of nested records and of the records of a sequence are treated
the same. A destination that is not fresh keeps what it holds for the keys
that the files do not have; the decode of the spec, which maps a tree onto a
target shape, has no such destination. -/
def processTags (overlay : Overlay) : Shape → List String → Dest → Except LoadError Dest
  | .record fields, path, d =>
    match d with
    | .record ds => do
      let ds' ← processFields overlay fields path ds
      pure (.record ds')
    | _ => pure d
  | .sequence elem, path, d =>
    match d with
    | .seq es => do
      let es' ← es.mapM (fun e => processTags overlay elem path e)
      pure (.seq es')
    | _ => pure d
  | .primitive _, _, d => pure d
/-- The fields of a record, in order. -/
def processFields (overlay : Overlay) :
    List (Field × Shape) → List String → List Dest → Except LoadError (List Dest)
  | [], _, ds => pure ds
  | (f, sh) :: rest, path, ds =>
    match ds with
    | [] => pure []
    | d :: ds' => do
      let d1 := (overlay path f).getD d
      let d2 ←
        if isBlank d1 then
          match f.default with
          | some dv => pure dv
          | none => if f.required then throw (.required f.name) else pure d1
        else pure d1
      let d3 ← processTags overlay sh (path ++ [f.name]) d2
      let rest' ← processFields overlay rest path ds'
      pure (d3 :: rest')
end

/-- Modelled from the spec: the decode of one TOML file, given by its
Document Tree, into the destination: strict mode, when asked for, turns
unmatched keys into an `UnmatchedTomlKeysError` that lists them all. -/
def unmarshalToml (tree : Value) (sh : Shape) (config : Dest) (errorOnUnmatchedKeys : Bool) :
    Dest × Option LoadError :=
  let r := decodeTree tree sh config
  match r.err with
  | some err => (r.dest, some (.decode err))
  | none =>
    if !r.md.Undecoded.isEmpty && errorOnUnmatchedKeys then
      (r.dest, some (.UnmatchedTomlKeysError r.md.Undecoded))
    else (r.dest, none)

/-- Modelled from the spec: the decode of one JSON file. The decoder of
`encoding/json` is not part of the repository; the spec has the loader call
the one decode of the Document Tree for every file, and so does the model.
In strict mode the error names the first field that is unknown. -/
def unmarshalJSON (tree : Value) (sh : Shape) (config : Dest) (errorOnUnmatchedKeys : Bool) :
    Dest × Option LoadError :=
  let r := decodeTree tree sh config
  match r.err with
  | some err => (r.dest, some (.decode err))
  | none =>
    match r.md.Undecoded with
    | key :: _ =>
      if errorOnUnmatchedKeys then (r.dest, some (.unknownField (key.getLastD "")))
      else (r.dest, none)
    | [] => (r.dest, none)

/-- Modelled from the spec: the decode of one YAML file, as for JSON. In
strict mode the unmatched keys are a type error. -/
def unmarshalYAML (tree : Value) (sh : Shape) (config : Dest) (errorOnUnmatchedKeys : Bool) :
    Dest × Option LoadError :=
  let r := decodeTree tree sh config
  match r.err with
  | some err => (r.dest, some (.decode err))
  | none =>
    if !r.md.Undecoded.isEmpty && errorOnUnmatchedKeys then
      (r.dest, some (.yamlTypeError r.md.Undecoded))
    else (r.dest, none)

/-- The decode of a file written in a given format. -/
def unmarshal (format : Format) (tree : Value) (sh : Shape) (config : Dest)
    (errorOnUnmatchedKeys : Bool) : Dest × Option LoadError :=
  match format with
  | .toml => unmarshalToml tree sh config errorOnUnmatchedKeys
  | .json => unmarshalJSON tree sh config errorOnUnmatchedKeys
  | .yaml => unmarshalYAML tree sh config errorOnUnmatchedKeys

/-- The format that the name of a file tells by its extension, if it has the
extension of one of the formats. -/
def extensionFormat (name : String) : Option Format :=
  if HasSuffix name ".yaml" || HasSuffix name ".yml" then some .yaml
  else if HasSuffix name ".toml" then some .toml
  else if HasSuffix name ".json" then some .json
  else none

/-- Whether the name of a file has the extension of the format in which the
file is written, or none of the extensions of the formats. -/
def File.named (file : File) : Bool :=
  match extensionFormat file.name with
  | none => true
  | some format => decide (format = file.format)

/-- Modelled from the tests: the decode of one file. A file whose name has
the extension of its format is decoded as a file of this format, and so is a
file whose name has none of the extensions: the tests of unmatched keys load
each file under a name without extension first and with the extension of its
format then, with the same results. A file under the extension of another
format is not a document of that format. -/
def processFile (sh : Shape) (config : Dest) (file : File) (errorOnUnmatchedKeys : Bool) :
    Dest × Option LoadError :=
  match extensionFormat file.name with
  | none => unmarshal file.format file.tree sh config errorOnUnmatchedKeys
  | some format =>
    if format = file.format then unmarshal format file.tree sh config errorOnUnmatchedKeys
    else (config, some (.decode (.ParseError "not a document of the format of the extension")))

/-- The files of a load, in order; the first error ends the load. -/
def processFiles (sh : Shape) (errorOnUnmatchedKeys : Bool) :
    List File → Dest → Dest × Option LoadError
  | [], config => (config, none)
  | file :: rest, config =>
    match processFile sh config file errorOnUnmatchedKeys with
    | (config', some err) => (config', some err)
    | (config', none) => processFiles sh errorOnUnmatchedKeys rest config'

/-- Modelled from the spec: `(*Configure).load` (collaborator contract of
the config loader): decode once per file, then merge the overlay of the
environment and apply the default and required directives. The result is the
destination and the error. The second result of `load`, whether a watched
file changed, is left out: `Load` drops it. -/
def Configure.load (configure : Configure) (overlay : Overlay) (sh : Shape) (config : Dest)
    (files : List File) : Dest × Option LoadError :=
  match processFiles sh configure.GetErrorOnUnmatchedKeys files config with
  | (config', some err) => (config', some err)
  | (config', none) =>
    match processTags overlay sh [] config' with
    | .ok config'' => (config'', none)
    | .error err => (config', some err)

/-- `(*Configure).Load`: a `config` that is not addressable is an error;
otherwise the result is that of `load` outside watch mode. The result is the
destination and the error as they are when `Load` returns; the goroutine
that `AutoReload` starts runs after that and is left out. -/
def Configure.Load (configure : Configure) (overlay : Overlay) (sh : Shape) (config : ConfigArg)
    (files : List File) : Dest × Option LoadError :=
  match config with
  | .value d => (d, some .shouldBeAddressable)
  | .pointer d => configure.load overlay sh d files

/-- An environment that supplies no value. -/
def noOverlay : Overlay := fun _ _ => none

mutual
/-- Whether no directive changes a value when the environment supplies
nothing: no field that is blank has a default or is marked required, at any
depth. -/
def settled : Shape → Dest → Bool
  | .record fields, d =>
    match d with
    | .record ds => settledFields fields ds
    | _ => true
  | .sequence elem, d =>
    match d with
    | .seq es => es.all (fun e => settled elem e)
    | _ => true
  | .primitive _, _ => true
/-- `settled` for the fields of a record. -/
def settledFields : List (Field × Shape) → List Dest → Bool
  | [], _ => true
  | (f, sh) :: rest, ds =>
    match ds with
    | [] => true
    | d :: ds' =>
      (!isBlank d || (f.default.isNone && !f.required)) && settled sh d && settledFields rest ds'
end

/-- The type `testConfig` of the tests. The fields of the embedded record
`Anonymous` are merged into it. -/
def testConfig : Shape :=
  .record [
    (⟨"APPName", none, some (.text "bhojpur"), false, none⟩, Shape.string),
    (Field.plain "Hosts", .sequence Shape.string),
    (Field.plain "DB", .record [
      (Field.plain "Name", Shape.string),
      (⟨"User", none, some (.text "root"), false, none⟩, Shape.string),
      (⟨"Password", none, none, true, some "DBPassword"⟩, Shape.string),
      (⟨"Port", none, some (.int 3306), false, none⟩, Shape.uint),
      (⟨"SSL", none, some (.bool true), false, none⟩, Shape.bool)]),
    (Field.plain "Contacts", .sequence (.record [
      (Field.plain "Name", Shape.string),
      (⟨"Email", none, none, true, none⟩, Shape.string)])),
    (Field.plain "Description", Shape.string)]

/-- `generateDefaultConfig()` of the tests, with the name of the
application and the password of the database left open. -/
def generateConfig (appName password : String) : Dest :=
  .record [
    .text appName,
    .seq [.text "http://example.org", .text "http://bhojpur.net"],
    .record [.text "bhojpur", .text "bhojpur", .text password, .int 3306, .bool true],
    .seq [.record [.text "Shashi Bhushan Rai", .text "shashi.rai@bhojpur.net"]],
    .text ("This is an anonymous embedded struct whose environment variables " ++
      "should NOT include 'ANONYMOUS'")]

/-- The type `configStruct` of the tests on unmatched keys: the one field
`Name`. -/
def configStruct : Shape := .record [(Field.plain "Name", Shape.string)]

/-- The file of the tests on unmatched keys: the keys `Name` and `Test`. -/
def configFile : Value := .table [("Name", .str "test"), ("Test", .str "ATest")]

/-- A type with a sequence of records: the field `Items`, whose elements have
the field `Name`. -/
def itemsStruct : Shape :=
  .record [(Field.plain "Items", .sequence (.record [(Field.plain "Name", Shape.string)]))]

/-- A `Configure` made by `New(&Config{ErrorOnUnmatchedKeys: strict})` in an
empty environment. -/
def newConfigure (strict : Bool) : Configure :=
  New ⟨[], "configure.test"⟩ (some { Config.zero with ErrorOnUnmatchedKeys := strict })

end markup

/-! # Theorems -/

namespace markup

/-- A pattern `a|(b$)` matches at the head of `t` exactly when `t` starts
with `a` or is `b`. -/
theorem run_alt_lit_end (a b t : List Char) :
    (!((Regexp.alt (.lit a) (.group (.cat (.lit b) .endText))).run t).isEmpty) = true ↔
      a <+: t ∨ t = b := by
  simp only [Regexp.run]
  by_cases h1 : a.isPrefixOf t = true
  · have h1' := List.isPrefixOf_iff_prefix.mp h1
    simp [h1, h1']
  · have h1' : ¬ a <+: t := fun h => h1 (List.isPrefixOf_iff_prefix.mpr h)
    by_cases h2 : b.isPrefixOf t = true
    · obtain ⟨r, hr⟩ := List.isPrefixOf_iff_prefix.mp h2
      subst hr
      cases r with
      | nil => simp [h1, h2]
      | cons c r => simp [h1, h2, h1']
    · have h2' : t ≠ b := by
        intro h
        apply h2
        rw [h]
        exact List.isPrefixOf_iff_prefix.mpr (List.prefix_refl _)
      simp [h1, h2, h1', h2']

/-- There is a match of `testRegexp` at the head of `t` exactly when `t`
starts with `_test` or is `.test`. -/
theorem testRegexp_run_ne_nil (t : List Char) :
    (!(testRegexp.run t).isEmpty) = true ↔
      "_test".toList <+: t ∨ t = ".test".toList :=
  run_alt_lit_end _ _ t

/-- The search of `testRegexp` succeeds exactly on the texts that contain
`_test` or end in `.test`. -/
theorem testRegexp_MatchString (s : String) :
    testRegexp.MatchString s = true ↔
      ("_test".toList <:+: s.toList ∨ ".test".toList <:+ s.toList) := by
  unfold Regexp.MatchString
  rw [List.any_eq_true]
  constructor
  · rintro ⟨t, ht, hm⟩
    rw [List.mem_tails] at ht
    rcases (testRegexp_run_ne_nil t).mp hm with h | h
    · exact Or.inl (List.infix_iff_prefix_suffix.mpr ⟨t, h, ht⟩)
    · exact Or.inr (h ▸ ht)
  · rintro (h | h)
    · obtain ⟨t, h1, h2⟩ := List.infix_iff_prefix_suffix.mp h
      exact ⟨t, (List.mem_tails _ _).mpr h2, (testRegexp_run_ne_nil t).mpr (Or.inl h1)⟩
    · exact ⟨_, (List.mem_tails _ _).mpr h, (testRegexp_run_ne_nil _).mpr (Or.inr rfl)⟩

/-- C1: `GetEnvironment` returns the configured `Environment` when it is
non-empty; otherwise the value of `CONFIGURE_ENV` when that is non-empty;
otherwise `test` when `os.Args[0]` contains `_test` or ends with `.test`;
otherwise `development`. `ENV()` is this result for the default
configuration, whose `Environment` is empty. -/
theorem C1_GetEnvironment (configure : Configure) (p : Process) :
    configure.GetEnvironment p =
        (if configure.Config.Environment ≠ "" then configure.Config.Environment
         else if p.Getenv "CONFIGURE_ENV" ≠ "" then p.Getenv "CONFIGURE_ENV"
         else if "_test".toList <:+: p.arg0.toList ∨ ".test".toList <:+ p.arg0.toList then "test"
         else "development")
      ∧ (New p none).Config.Environment = ""
      ∧ ENV p = (New p none).GetEnvironment p
      ∧ ENV p =
        (if p.Getenv "CONFIGURE_ENV" ≠ "" then p.Getenv "CONFIGURE_ENV"
         else if "_test".toList <:+: p.arg0.toList ∨ ".test".toList <:+ p.arg0.toList then "test"
         else "development") := by
  have hget : ∀ c : Configure, c.GetEnvironment p =
        (if c.Config.Environment ≠ "" then c.Config.Environment
         else if p.Getenv "CONFIGURE_ENV" ≠ "" then p.Getenv "CONFIGURE_ENV"
         else if "_test".toList <:+: p.arg0.toList ∨ ".test".toList <:+ p.arg0.toList then "test"
         else "development") := by
    intro c
    unfold Configure.GetEnvironment
    by_cases he : c.Config.Environment = ""
    · by_cases hv : p.Getenv "CONFIGURE_ENV" = ""
      · by_cases hm : testRegexp.MatchString p.arg0 = true
        · have := (testRegexp_MatchString p.arg0).mp hm
          simp only [he, hv, hm, this, ne_eq, not_true_eq_false, if_true, if_false]
        · have : ¬ ("_test".toList <:+: p.arg0.toList ∨ ".test".toList <:+ p.arg0.toList) :=
            fun h => hm ((testRegexp_MatchString p.arg0).mpr h)
          rw [Bool.not_eq_true] at hm
          simp only [he, hv, hm, this, ne_eq, not_true_eq_false, if_true, if_false,
            Bool.false_eq_true]
      · simp only [he, hv, ne_eq, not_true_eq_false, not_false_eq_true, if_true, if_false]
    · simp only [he, ne_eq, not_false_eq_true, if_true, if_false]
  have hnew : (New p none).Config.Environment = "" := by
    unfold New
    simp only [Option.getD_none]
    split_ifs <;> rfl
  refine ⟨hget configure, hnew, rfl, ?_⟩
  unfold ENV
  rw [hget, hnew]
  simp

end markup

namespace toml

/-- On two kinds that are not nil, `typeEqual` is equality. -/
theorem typeEqual_some (a b : tomlBaseType) :
    typeEqual (some a) (some b) = true ↔ a = b := by
  cases a with
  | mk x =>
    cases b with
    | mk y => simp [typeEqual, tomlBaseType.typeString]

/-- C2: for every kind `t` that is not nil, `typeIsTable t` is true exactly
when `t` is `Hash` (a table) or `ArrayHash` (an array of tables); it is false
for `Integer`, `Float`, `Datetime`, `String`, `Bool` and `Array`. -/
theorem C2_typeIsTable :
    (∀ t : tomlBaseType, typeIsTable (some t) = true ↔ t = tomlHash ∨ t = tomlArrayHash)
      ∧ typeIsTable (some tomlInteger) = false
      ∧ typeIsTable (some tomlFloat) = false
      ∧ typeIsTable (some tomlDatetime) = false
      ∧ typeIsTable (some tomlString) = false
      ∧ typeIsTable (some tomlBool) = false
      ∧ typeIsTable (some tomlArray) = false := by
  refine ⟨?_, by decide, by decide, by decide, by decide, by decide, by decide⟩
  intro t
  unfold typeIsTable
  rw [Bool.or_eq_true, typeEqual_some, typeEqual_some]

/-- C3: on kinds that are not nil, in particular on the eight kinds
`Integer`, `Float`, `Datetime`, `String`, `Bool`, `Array`, `Hash` and
`ArrayHash`, `typeEqual t1 t2` holds exactly when `t1` and `t2` are the same
kind; the eight kinds are pairwise distinct; and `typeEqual` is reflexive on
them, symmetric and transitive. -/
theorem C3_typeEqual :
    (∀ t1 t2 : tomlBaseType, typeEqual (some t1) (some t2) = true ↔ t1 = t2)
      ∧ (∀ t1 ∈ kinds, ∀ t2 ∈ kinds, (typeEqual (some t1) (some t2) = true ↔ t1 = t2))
      ∧ kinds.Nodup ∧ kinds.length = 8
      ∧ (∀ t ∈ kinds, typeEqual (some t) (some t) = true)
      ∧ (∀ t1 t2 : tomlType, typeEqual t1 t2 = typeEqual t2 t1)
      ∧ (∀ t1 t2 t3 : tomlType,
          typeEqual t1 t2 = true → typeEqual t2 t3 = true → typeEqual t1 t3 = true) := by
  refine ⟨typeEqual_some, fun t1 _ t2 _ => typeEqual_some t1 t2, by decide, rfl,
    fun t _ => (typeEqual_some t t).mpr rfl, ?_, ?_⟩
  · intro t1 t2
    cases t1 <;> cases t2 <;> simp [typeEqual, eq_comm]
  · intro t1 t2 t3 h12 h23
    cases t1 with
    | none => simp [typeEqual] at h12
    | some a =>
      cases t2 with
      | none => simp [typeEqual] at h12
      | some b =>
        cases t3 with
        | none => simp [typeEqual] at h23
        | some c =>
          rw [typeEqual_some] at h12 h23 ⊢
          exact h12.trans h23

/-- Whatever `typeOfPrimitive` returns is one of the five primitive kinds. -/
theorem typeOfPrimitive_ok (it : item) (k : tomlType) (h : typeOfPrimitive it = .ok k) :
    k = some tomlInteger ∨ k = some tomlFloat ∨ k = some tomlDatetime
      ∨ k = some tomlString ∨ k = some tomlBool := by
  obtain ⟨typ, val, line⟩ := it
  cases typ <;> simp [typeOfPrimitive] at h <;> simp [← h]

/-- C4: `typeOfPrimitive` gives `Integer` for an integer item, `Float` for a
float item, `Datetime` for a datetime item, `Bool` for a bool item and
`String` for each of the four string items; and whenever it returns, the
result is one of these five primitive kinds. -/
theorem C4_typeOfPrimitive :
    (∀ it : item, it.typ = .itemInteger → typeOfPrimitive it = .ok (some tomlInteger))
      ∧ (∀ it : item, it.typ = .itemFloat → typeOfPrimitive it = .ok (some tomlFloat))
      ∧ (∀ it : item, it.typ = .itemDatetime → typeOfPrimitive it = .ok (some tomlDatetime))
      ∧ (∀ it : item, it.typ = .itemBool → typeOfPrimitive it = .ok (some tomlBool))
      ∧ (∀ it : item, it.typ = .itemString → typeOfPrimitive it = .ok (some tomlString))
      ∧ (∀ it : item, it.typ = .itemMultilineString → typeOfPrimitive it = .ok (some tomlString))
      ∧ (∀ it : item, it.typ = .itemRawString → typeOfPrimitive it = .ok (some tomlString))
      ∧ (∀ it : item,
          it.typ = .itemRawMultilineString → typeOfPrimitive it = .ok (some tomlString))
      ∧ (∀ (it : item) (k : tomlType), typeOfPrimitive it = .ok k →
          k = some tomlInteger ∨ k = some tomlFloat ∨ k = some tomlDatetime
            ∨ k = some tomlString ∨ k = some tomlBool) := by
  refine ⟨?_, ?_, ?_, ?_, ?_, ?_, ?_, ?_, ?_⟩
  all_goals first
    | (intro it h; simp only [typeOfPrimitive, h])
    | skip
  exact typeOfPrimitive_ok

/-- C5: no scalar is given a table kind. For every lexer item on which
`typeOfPrimitive` returns a kind `k`, `typeIsTable k` is false and `k` is
equal (`typeEqual`) to neither `Hash` nor `ArrayHash`. -/
theorem C5_primitive_not_table (lexItem : item) (k : tomlType)
    (h : typeOfPrimitive lexItem = .ok k) :
    typeIsTable k = false
      ∧ typeEqual k (some tomlHash) = false
      ∧ typeEqual k (some tomlArrayHash) = false := by
  rcases typeOfPrimitive_ok lexItem k h with h | h | h | h | h <;>
    subst h <;> decide

/-- C5 at the integer token `42`. -/
theorem C5_primitive_not_table_witness :
    typeOfPrimitive ⟨.itemInteger, "42", 1⟩ = .ok (some tomlInteger)
      ∧ typeIsTable (some tomlInteger) = false
      ∧ typeEqual (some tomlInteger) (some tomlHash) = false
      ∧ typeEqual (some tomlInteger) (some tomlArrayHash) = false :=
  ⟨rfl, C5_primitive_not_table ⟨.itemInteger, "42", 1⟩ (some tomlInteger) rfl⟩

end toml

namespace Go

mutual
theorem Value.induct {P : Value → Prop}
    (hleaf : ∀ v : Value, v.isLeaf = true → P v)
    (harray : ∀ a : List Value, (∀ x ∈ a, P x) → P (.array a))
    (htables : ∀ ts : List (List (String × Value)),
      (∀ m ∈ ts, ∀ e ∈ m, P e.2) → P (.tableArray ts))
    (htable : ∀ m : List (String × Value), (∀ e ∈ m, P e.2) → P (.table m)) :
    ∀ v : Value, P v
  | .null => hleaf _ rfl
  | .bool _ => hleaf _ rfl
  | .str _ => hleaf _ rfl
  | .int _ => hleaf _ rfl
  | .float _ => hleaf _ rfl
  | .float32 _ => hleaf _ rfl
  | .time _ => hleaf _ rfl
  | .array a => harray a (Value.induct_list hleaf harray htables htable a)
  | .tableArray ts => htables ts (Value.induct_tables hleaf harray htables htable ts)
  | .table m => htable m (Value.induct_entries hleaf harray htables htable m)
theorem Value.induct_list {P : Value → Prop}
    (hleaf : ∀ v : Value, v.isLeaf = true → P v)
    (harray : ∀ a : List Value, (∀ x ∈ a, P x) → P (.array a))
    (htables : ∀ ts : List (List (String × Value)),
      (∀ m ∈ ts, ∀ e ∈ m, P e.2) → P (.tableArray ts))
    (htable : ∀ m : List (String × Value), (∀ e ∈ m, P e.2) → P (.table m)) :
    ∀ a : List Value, ∀ x ∈ a, P x
  | [] => fun _ h => by cases h
  | v :: rest => fun x h => by
    rcases List.mem_cons.mp h with h | h
    · exact h ▸ Value.induct hleaf harray htables htable v
    · exact Value.induct_list hleaf harray htables htable rest x h
theorem Value.induct_entries {P : Value → Prop}
    (hleaf : ∀ v : Value, v.isLeaf = true → P v)
    (harray : ∀ a : List Value, (∀ x ∈ a, P x) → P (.array a))
    (htables : ∀ ts : List (List (String × Value)),
      (∀ m ∈ ts, ∀ e ∈ m, P e.2) → P (.tableArray ts))
    (htable : ∀ m : List (String × Value), (∀ e ∈ m, P e.2) → P (.table m)) :
    ∀ m : List (String × Value), ∀ e ∈ m, P e.2
  | [] => fun _ h => by cases h
  | (k, v) :: rest => fun x h => by
    rcases List.mem_cons.mp h with h | h
    · exact h ▸ Value.induct hleaf harray htables htable v
    · exact Value.induct_entries hleaf harray htables htable rest x h
theorem Value.induct_tables {P : Value → Prop}
    (hleaf : ∀ v : Value, v.isLeaf = true → P v)
    (harray : ∀ a : List Value, (∀ x ∈ a, P x) → P (.array a))
    (htables : ∀ ts : List (List (String × Value)),
      (∀ m ∈ ts, ∀ e ∈ m, P e.2) → P (.tableArray ts))
    (htable : ∀ m : List (String × Value), (∀ e ∈ m, P e.2) → P (.table m)) :
    ∀ ts : List (List (String × Value)), ∀ m ∈ ts, ∀ e ∈ m, P e.2
  | [] => fun _ h => by cases h
  | t :: rest => fun x h => by
    rcases List.mem_cons.mp h with h | h
    · exact h ▸ Value.induct_entries hleaf harray htables htable t
    · exact Value.induct_tables hleaf harray htables htable rest x h
end

/-- The parts of a tree are trees. -/
theorem isTreeEntries_mem (leaf : Value → Bool) :
    ∀ m : List (String × Value), Value.isTreeEntries leaf m = true →
      ∀ e ∈ m, Value.isTree leaf e.2 = true
  | [], _, _, he => by cases he
  | (k, v) :: rest, h, e, he => by
    simp only [Value.isTreeEntries, Bool.and_eq_true] at h
    rcases List.mem_cons.mp he with he | he
    · subst he; exact h.1
    · exact isTreeEntries_mem leaf rest h.2 e he

/-- The elements of a tree are trees. -/
theorem isTreeList_mem (leaf : Value → Bool) :
    ∀ a : List Value, Value.isTreeList leaf a = true → ∀ x ∈ a, Value.isTree leaf x = true
  | [], _, _, he => by cases he
  | v :: rest, h, e, he => by
    simp only [Value.isTreeList, Bool.and_eq_true] at h
    rcases List.mem_cons.mp he with he | he
    · subst he; exact h.1
    · exact isTreeList_mem leaf rest h.2 e he

/-- A property of all tables holds in the values of a table. -/
theorem allTablesEntries_mem (p : List (String × Value) → Bool) :
    ∀ m : List (String × Value), Value.allTablesEntries p m = true →
      ∀ e ∈ m, Value.allTables p e.2 = true
  | [], _, _, he => by cases he
  | (k, v) :: rest, h, e, he => by
    simp only [Value.allTablesEntries, Bool.and_eq_true] at h
    rcases List.mem_cons.mp he with he | he
    · subst he; exact h.1
    · exact allTablesEntries_mem p rest h.2 e he

/-- A property of all tables holds in the elements of an array. -/
theorem allTablesList_mem (p : List (String × Value) → Bool) :
    ∀ a : List Value, Value.allTablesList p a = true → ∀ x ∈ a, Value.allTables p x = true
  | [], _, _, he => by cases he
  | v :: rest, h, e, he => by
    simp only [Value.allTablesList, Bool.and_eq_true] at h
    rcases List.mem_cons.mp he with he | he
    · subst he; exact h.1
    · exact allTablesList_mem p rest h.2 e he

end Go

namespace Go

/-- The code point of a decimal digit. -/
theorem digit_toNat (d : Nat) (h : d < 10) : (digit d).toNat = 48 + d := by
  interval_cases d <;> rfl

/-- One turn of the digit loop of `ParseUint` on a decimal digit that does not
overflow. -/
theorem parseUintLoop_digit (d n : Nat) (cs : List Char) (hd : d < 10)
    (hn : n * 10 + d < 2 ^ 64) :
    parseUintLoop (digit d :: cs) n = parseUintLoop cs (n * 10 + d) := by
  have h48 := digit_toNat d hd
  have h1 : 48 ≤ (digit d).toNat ∧ (digit d).toNat ≤ 57 := by omega
  have h2 : (digit d).toNat - 48 = d := by omega
  have h3 : ¬ (n ≥ (2 ^ 64 - 1) / 10 + 1) := by
    norm_num at hn ⊢
    omega
  have h4 : (n * 10 + d) % 2 ^ 64 = n * 10 + d := Nat.mod_eq_of_lt hn
  have h5 : ¬ (n * 10 + d < n * 10 ∨ n * 10 + d > 2 ^ 64 - 1) := by
    norm_num at hn ⊢
    omega
  have h6 : ¬ (d ≥ 10) := by omega
  rw [parseUintLoop]
  simp only [h1, and_self, if_true, h2, h6, if_false, h3, h4, h5]

/-- Reading back what `fmtDigits` wrote: the loop of `ParseUint` arrives at
`u` and goes on with what followed the digits. -/
theorem parseUintLoop_fmtDigits (fuel : Nat) :
    ∀ (u : Nat) (acc : List Char), u < 10 ^ fuel → u < 2 ^ 64 →
      parseUintLoop (fmtDigits fuel u acc) 0 = parseUintLoop acc u := by
  induction fuel with
  | zero =>
    intro u acc h _
    have : u = 0 := by simpa using h
    subst this
    rfl
  | succ fuel ih =>
    intro u acc h h64
    rw [fmtDigits]
    by_cases h10 : 10 ≤ u
    · rw [if_pos h10]
      have hlt : u / 10 < 10 ^ fuel := by
        rw [pow_succ] at h
        omega
      rw [ih (u / 10) _ hlt (by omega)]
      rw [parseUintLoop_digit (u % 10) (u / 10) acc (by omega) (by omega)]
      congr 1
      omega
    · rw [if_neg h10]
      rw [parseUintLoop_digit u 0 acc (by omega) (by omega)]
      congr 1
      omega

/-- What `fmtDigits` writes starts with a digit. -/
theorem fmtDigits_head (fuel : Nat) :
    ∀ (u : Nat) (acc : List Char),
      (0 < fuel ∨ ∃ d rest, d < 10 ∧ acc = digit d :: rest) →
      ∃ d rest, d < 10 ∧ fmtDigits fuel u acc = digit d :: rest := by
  induction fuel with
  | zero =>
    intro u acc h
    rcases h with h | h
    · omega
    · simpa [fmtDigits] using h
  | succ fuel ih =>
    intro u acc _
    rw [fmtDigits]
    by_cases h10 : 10 ≤ u
    · rw [if_pos h10]
      exact ih _ _ (Or.inr ⟨u % 10, acc, by omega, rfl⟩)
    · rw [if_neg h10]
      exact ⟨u, acc, by omega, rfl⟩

/-- A digit is not a sign. -/
theorem digit_ne_sign (d : Nat) (h : d < 10) : ((digit d == '+') = false) ∧ ((digit d == '-') = false) := by
  interval_cases d <;> decide

/-- `ParseUint` reads back the digits of a `uint64`. -/
theorem ParseUint_fmtDigits (u : Nat) (h : u < 2 ^ 64) :
    ParseUint (fmtDigits 20 u []) = (u, none) := by
  obtain ⟨d, rest, _, hs⟩ := fmtDigits_head 20 u [] (Or.inl (by omega))
  have hne : (fmtDigits 20 u []).isEmpty = false := by rw [hs]; rfl
  unfold ParseUint
  rw [hne]
  simp only [Bool.false_eq_true, if_false]
  rw [parseUintLoop_fmtDigits 20 u [] (by norm_num at h ⊢; omega) h]
  rfl

/-- The conversion to `int64` keeps a number below `2 ^ 63`. -/
theorem toInt64_small (u : Nat) (h : u < 2 ^ 63) : toInt64 u = (u : Int) := by
  unfold toInt64
  have h1 : u % 2 ^ 64 = u := Nat.mod_eq_of_lt (by omega)
  rw [h1, if_pos h]

/-- The conversion to `uint64` keeps a non-negative number. -/
theorem toUint64_nonneg (n : Int) (h0 : 0 ≤ n) (h : n < 2 ^ 64) : toUint64 n = n.toNat := by
  unfold toUint64
  rw [Int.emod_eq_of_lt h0 h]

/-- Negating the `int64` of a magnitude up to `2 ^ 63`: the minimum wraps onto
itself. -/
theorem negInt64_toInt64 (u : Nat) (h0 : 0 < u) (h : u ≤ 2 ^ 63) :
    negInt64 (toInt64 u) = -(u : Int) := by
  by_cases hmin : u = 2 ^ 63
  · subst hmin
    decide
  · have hlt : u < 2 ^ 63 := by omega
    rw [toInt64_small u hlt]
    unfold negInt64
    have h3 : toUint64 (-(u : Int)) = 2 ^ 64 - u := by
      unfold toUint64
      have : (-(u : Int)) % 2 ^ 64 = ((2 ^ 64 - u : Nat) : Int) := by
        omega
      rw [this]
      rfl
    rw [h3]
    unfold toInt64
    have h4 : (2 ^ 64 - u) % 2 ^ 64 = 2 ^ 64 - u := Nat.mod_eq_of_lt (by omega)
    rw [h4]
    have h5 : ¬ (2 ^ 64 - u < 2 ^ 63) := by omega
    rw [if_neg h5]
    omega
/-- `ParseInt` reads back what `%d` wrote, for every `int64`. -/
theorem ParseInt_fmtInt (n : Int) (h : isInt64 n) : ParseInt (fmtInt n) = (n, none) := by
  unfold isInt64 at h
  obtain ⟨hlo, hhi⟩ := h
  by_cases hneg : n < 0
  · have hu : toUint64 (-n) = (-n).toNat := toUint64_nonneg _ (by omega) (by omega)
    have hu64 : (-n).toNat < 2 ^ 64 := by omega
    have hfmt : (fmtInt n).toList = '-' :: fmtDigits 20 (-n).toNat [] := by
      simp only [fmtInt, hneg, decide_True, if_true, hu]
      rfl
    unfold ParseInt
    rw [hfmt]
    simp only [show ('-' == '-') = true from rfl, show ('-' == '+') = false from rfl,
      Bool.false_eq_true, false_or, if_true, ParseUint_fmtDigits _ hu64]
    have hc2 : ¬ (True ∧ (-n).toNat > 2 ^ 63) := by omega
    simp only [Bool.not_true, Bool.false_eq_true, false_and, if_false, if_neg hc2, if_true]
    rw [negInt64_toInt64 _ (by omega) (by omega)]
    congr 1
    omega
  · have hu : toUint64 n = n.toNat := toUint64_nonneg _ (by omega) (by omega)
    have hu64 : n.toNat < 2 ^ 64 := by omega
    obtain ⟨d, rest, hd, hs⟩ := fmtDigits_head 20 n.toNat [] (Or.inl (by omega))
    have hfmt : (fmtInt n).toList = fmtDigits 20 n.toNat [] := by
      simp only [fmtInt, hneg, decide_False, Bool.false_eq_true, if_false, hu]
      rfl
    have hP := ParseUint_fmtDigits _ hu64
    unfold ParseInt
    rw [hfmt]
    rw [hs] at hP ⊢
    obtain ⟨hp, hm⟩ := digit_ne_sign d hd
    simp only [hp, hm, Bool.false_eq_true, or_self, if_false, hP]
    have hc : ¬ (True ∧ n.toNat ≥ 2 ^ 63) := by omega
    simp only [Bool.not_false, if_neg hc, Bool.false_eq_true, false_and, if_false]
    rw [toInt64_small _ (by omega)]
    congr 1
    omega

end Go

namespace tag

open Go

/-- `Remove` on a tagged primitive is `untag`, with the error wrapped. -/
theorem Remove_tag (lib : Stdlib) (typeName : String) (data : Value) :
    Remove lib (.table (tag typeName data)) =
      (untag lib (tag typeName data)).bind (fun ut =>
        match ut.err with
        | some err => pure ⟨ut.val, some ("tag.Remove: " ++ err)⟩
        | none => pure ⟨ut.val, none⟩) := by
  rw [Remove]
  have h : ((tag typeName data).length == 2 && in_ "type" (tag typeName data)
      && in_ "value" (tag typeName data)) = true := by
    simp [tag, in_, Table.get?, List.lookup]
  rw [if_pos h]
  rfl

/-- The two assertions of `untag` on a tagged primitive. -/
theorem untag_tag_get (typeName : String) (data : Value) :
    Table.get (tag typeName data) "type" = .str typeName
      ∧ Table.get (tag typeName data) "value" = data := by
  simp [tag, Table.get, List.lookup]

/-- A string, an `int64` and a bool are tagged without a panic, and `Remove`
gives them back. -/
theorem Remove_Add_scalar (lib : Stdlib) (key : String) (x : Value) (hx : x.isScalar = true) :
    ∃ typed, Add lib key x = .ok typed ∧ Remove lib typed = .ok ⟨x, none⟩ := by
  cases x with
  | str s =>
    refine ⟨.table (tag "string" (.str s)), rfl, ?_⟩
    simp only [pure, Except.pure, Remove_tag, untag, untag_tag_get, assertString,
      bind, Except.bind, if_true]
  | int n =>
    have hp := ParseInt_fmtInt n (by simpa [Value.isScalar] using hx)
    refine ⟨.table (tag "integer" (.str (fmtInt n))), rfl, ?_⟩
    simp only [pure, Except.pure, Remove_tag, untag, untag_tag_get, assertString,
      bind, Except.bind, if_true, hp, show ¬ ("integer" = "string") by decide, if_false]
  | bool b =>
    refine ⟨.table (tag "bool" (.str (fmtBool b))), rfl, ?_⟩
    cases b <;>
      simp only [pure, Except.pure, Remove_tag, untag, untag_tag_get,
        assertString, bind, Except.bind, fmtBool] <;>
      simp
  | null => simp [Value.isScalar] at hx
  | float f => simp [Value.isScalar] at hx
  | float32 f => simp [Value.isScalar] at hx
  | time t => simp [Value.isScalar] at hx
  | array a => simp [Value.isScalar] at hx
  | tableArray ts => simp [Value.isScalar] at hx
  | table m => simp [Value.isScalar] at hx

/-- `RemoveAdd` when `Add` returns. -/
theorem RemoveAdd_of_Add (lib : Stdlib) (key : String) (x typed : Value) (r : Except String Ret)
    (h : Add lib key x = .ok typed) (hr : Remove lib typed = r) : RemoveAdd lib key x = r := by
  simp only [RemoveAdd, h, hr]

/-- C6: tagging then untagging a scalar leaf is the identity. For every
string `s`, every `int64` `n` and every boolean `b`, and every key,
`Remove(Add(key, x))` returns `x` and no error. -/
theorem C6_scalar_roundtrip (lib : Stdlib) (key : String) (s : String) (n : Int) (b : Bool)
    (hn : isInt64 n) :
    RemoveAdd lib key (.str s) = .ok ⟨.str s, none⟩
      ∧ RemoveAdd lib key (.int n) = .ok ⟨.int n, none⟩
      ∧ RemoveAdd lib key (.bool b) = .ok ⟨.bool b, none⟩ := by
  refine ⟨?_, ?_, ?_⟩
  · obtain ⟨typed, h1, h2⟩ := Remove_Add_scalar lib key (.str s) rfl
    exact RemoveAdd_of_Add lib key _ typed _ h1 h2
  · obtain ⟨typed, h1, h2⟩ := Remove_Add_scalar lib key (.int n) (by simpa [Value.isScalar] using hn)
    exact RemoveAdd_of_Add lib key _ typed _ h1 h2
  · obtain ⟨typed, h1, h2⟩ := Remove_Add_scalar lib key (.bool b) rfl
    exact RemoveAdd_of_Add lib key _ typed _ h1 h2

/-- C6 at the minimum and the maximum `int64`, with the empty string and
`true`. -/
theorem C6_scalar_roundtrip_witness :
    (isInt64 (-9223372036854775808)
      ∧ RemoveAdd exampleLib "k" (.int (-9223372036854775808))
          = .ok ⟨.int (-9223372036854775808), none⟩)
    ∧ (isInt64 9223372036854775807
      ∧ RemoveAdd exampleLib "k" (.int 9223372036854775807)
          = .ok ⟨.int 9223372036854775807, none⟩) :=
  ⟨⟨by decide,
      (C6_scalar_roundtrip exampleLib "k" "" (-9223372036854775808) true (by decide)).2.1⟩,
    ⟨by decide,
      (C6_scalar_roundtrip exampleLib "k" "" 9223372036854775807 true (by decide)).2.1⟩⟩

/-- The loop of `Add` over a table keeps the keys and their order, and the
entry at a key is `Add` of the original entry. -/
theorem AddTable_ok (lib : Stdlib) :
    ∀ (m typed : List (String × Value)), AddTable lib m = .ok typed →
      List.Forall₂ (fun e e' => e'.1 = e.1 ∧ Add lib e.1 e.2 = .ok e'.2) m typed
  | [], typed, h => by
    simp only [AddTable, pure, Except.pure, Except.ok.injEq] at h
    subst h
    exact List.Forall₂.nil
  | (k, v) :: rest, typed, h => by
    rw [AddTable] at h
    cases hv : Add lib k v with
    | error e => simp [hv, bind, Except.bind] at h
    | ok tv =>
      cases hr : AddTable lib rest with
      | error e => simp [hv, hr, bind, Except.bind] at h
      | ok typed' =>
        simp only [hv, hr, bind, Except.bind, pure, Except.pure, Except.ok.injEq] at h
        subst h
        exact List.Forall₂.cons ⟨rfl, hv⟩ (AddTable_ok lib rest typed' hr)

/-- The loop of `Add` over an array keeps the length and the order, and the
element at an index is `Add` of the original element. -/
theorem AddArray_ok (lib : Stdlib) :
    ∀ (a typed : List Value), AddArray lib a = .ok typed →
      List.Forall₂ (fun x x' => Add lib "" x = .ok x') a typed
  | [], typed, h => by
    simp only [AddArray, pure, Except.pure, Except.ok.injEq] at h
    subst h
    exact List.Forall₂.nil
  | v :: rest, typed, h => by
    rw [AddArray] at h
    cases hv : Add lib "" v with
    | error e => simp [hv, bind, Except.bind] at h
    | ok tv =>
      cases hr : AddArray lib rest with
      | error e => simp [hv, hr, bind, Except.bind] at h
      | ok typed' =>
        simp only [hv, hr, bind, Except.bind, pure, Except.pure, Except.ok.injEq] at h
        subst h
        exact List.Forall₂.cons hv (AddArray_ok lib rest typed' hr)

/-- The loop of `Add` over an array of tables keeps the length and the order,
and the table at an index is the original table with `Add` on its entries. -/
theorem AddTables_ok (lib : Stdlib) :
    ∀ (ts typed : List (List (String × Value))), AddTables lib ts = .ok typed →
      List.Forall₂ (fun m m' => Add lib "" (.table m) = .ok (.table m')) ts typed
  | [], typed, h => by
    simp only [AddTables, pure, Except.pure, Except.ok.injEq] at h
    subst h
    exact List.Forall₂.nil
  | v :: rest, typed, h => by
    rw [AddTables] at h
    cases hv : AddTable lib v with
    | error e => simp [hv, bind, Except.bind] at h
    | ok tv =>
      cases hr : AddTables lib rest with
      | error e => simp [hv, hr, bind, Except.bind] at h
      | ok typed' =>
        simp only [hv, hr, bind, Except.bind, pure, Except.pure, Except.ok.injEq] at h
        subst h
        refine List.Forall₂.cons ?_ (AddTables_ok lib rest typed' hr)
        simp only [Add, hv, bind, Except.bind, pure, Except.pure]

/-- C8: `Add` wraps a scalar leaf in an object with exactly the two entries
`type` and `value`, the value being a string: a bool is tagged `bool`, a
string `string`, an `int64` `integer` with its decimal text, a `float64`
`float`, a NaN always with the value `nan`. A table and an array (of values
or of tables) get no tag: the result is a table with the same keys, an array
of the same length, whose entries are `Add` of the original entries. -/
theorem C8_Add_tags (lib : Stdlib) (key : String) :
    (∀ b : Bool, Add lib key (.bool b) =
        .ok (.table [("type", .str "bool"), ("value", .str (if b then "true" else "false"))]))
      ∧ (∀ s : String, Add lib key (.str s) =
        .ok (.table [("type", .str "string"), ("value", .str s)]))
      ∧ (∀ n : Int, Add lib key (.int n) =
        .ok (.table [("type", .str "integer"), ("value", .str (fmtInt n))]))
      ∧ fmtInt 0 = "0" ∧ fmtInt 1979 = "1979" ∧ fmtInt (-42) = "-42"
      ∧ fmtInt 9223372036854775807 = "9223372036854775807"
      ∧ fmtInt (-9223372036854775808) = "-9223372036854775808"
      ∧ (∀ f : Float64, f.IsNaN = true → Add lib key (.float f) =
        .ok (.table [("type", .str "float"), ("value", .str "nan")]))
      ∧ (∀ f : Float64, f.IsNaN = false → Add lib key (.float f) =
        .ok (.table [("type", .str "float"), ("value", .str (lib.fmtFloat f))]))
      ∧ (∀ (m : List (String × Value)) (typed : Value), Add lib key (.table m) = .ok typed →
        ∃ m', typed = .table m' ∧ m'.map Prod.fst = m.map Prod.fst
          ∧ List.Forall₂ (fun e e' => e'.1 = e.1 ∧ Add lib e.1 e.2 = .ok e'.2) m m')
      ∧ (∀ (a : List Value) (typed : Value), Add lib key (.array a) = .ok typed →
        ∃ a', typed = .array a' ∧ a'.length = a.length
          ∧ List.Forall₂ (fun x x' => Add lib "" x = .ok x') a a')
      ∧ (∀ (ts : List (List (String × Value))) (typed : Value),
        Add lib key (.tableArray ts) = .ok typed →
        ∃ ts', typed = .tableArray ts' ∧ ts'.length = ts.length
          ∧ List.Forall₂ (fun m m' => Add lib "" (.table m) = .ok (.table m')) ts ts') := by
  refine ⟨?_, fun s => rfl, fun n => rfl, by decide, by decide, by decide, by decide, by decide,
    ?_, ?_, ?_, ?_, ?_⟩
  · intro b
    cases b <;> rfl
  · intro f hf
    simp only [Add, hf, if_true, tag, pure, Except.pure]
  · intro f hf
    simp only [Add, hf, Bool.false_eq_true, if_false, tag, pure, Except.pure]
  · intro m typed h
    rw [Add] at h
    cases hm : AddTable lib m with
    | error e => simp [hm, bind, Except.bind] at h
    | ok m' =>
      simp only [hm, bind, Except.bind, pure, Except.pure, Except.ok.injEq] at h
      have hall := AddTable_ok lib m m' hm
      refine ⟨m', h.symm, ?_, hall⟩
      clear hm h
      induction hall with
      | nil => rfl
      | cons hx _ ih => simp [hx.1, ih]
  · intro a typed h
    rw [Add] at h
    cases ha : AddArray lib a with
    | error e => simp [ha, bind, Except.bind] at h
    | ok a' =>
      simp only [ha, bind, Except.bind, pure, Except.pure, Except.ok.injEq] at h
      have hall := AddArray_ok lib a a' ha
      exact ⟨a', h.symm, hall.length_eq.symm, hall⟩
  · intro ts typed h
    rw [Add] at h
    cases ha : AddTables lib ts with
    | error e => simp [ha, bind, Except.bind] at h
    | ok ts' =>
      simp only [ha, bind, Except.bind, pure, Except.pure, Except.ok.injEq] at h
      have hall := AddTables_ok lib ts ts' ha
      exact ⟨ts', h.symm, hall.length_eq.symm, hall⟩

/-- C9: the datetime subkind survives tagging. For each of the three local
subkinds there is one layout, without a zone element, with which `Add` writes
a time located in the marker of the subkind under the tag name of the
subkind, and with which `untag` parses the value of that tag name: what
`untag` returns is the time that the parse with this layout gives, at the
same instant and located in the same marker, and no error. A time in any
other location is written under `datetime` with a layout that has a zone
element, and `untag` parses `datetime` with that layout and returns the
parsed time as it is, in no marker. When the parse fails, `untag` returns the
zero time and the error of the parse. -/
theorem C9_datetime_subkind (lib : Stdlib) (key : String) :
    (∃ layout : String, layoutHasZone layout = false
        ∧ (∀ t : Time, t.Location = .LocalDatetime → Add lib key (.time t) =
            .ok (.table [("type", .str "datetime-local"), ("value", .str (lib.Format t layout))]))
        ∧ (∀ (v : String) (t : Time), lib.Parse layout v = (t, none) →
            untag lib [("type", .str "datetime-local"), ("value", .str v)] =
              .ok ⟨.time ⟨t.sec, t.nsec, .LocalDatetime⟩, none⟩)
        ∧ (∀ (v : String) (t : Time) (err : String), lib.Parse layout v = (t, some err) →
            untag lib [("type", .str "datetime-local"), ("value", .str v)] =
              .ok ⟨.time ⟨0, 0, .UTC⟩,
                some ("could not parse " ++ lib.Quote v ++ " as a datetime: " ++ err)⟩))
      ∧ (∃ layout : String, layoutHasZone layout = false
        ∧ (∀ t : Time, t.Location = .LocalDate → Add lib key (.time t) =
            .ok (.table [("type", .str "date-local"), ("value", .str (lib.Format t layout))]))
        ∧ (∀ (v : String) (t : Time), lib.Parse layout v = (t, none) →
            untag lib [("type", .str "date-local"), ("value", .str v)] =
              .ok ⟨.time ⟨t.sec, t.nsec, .LocalDate⟩, none⟩)
        ∧ (∀ (v : String) (t : Time) (err : String), lib.Parse layout v = (t, some err) →
            untag lib [("type", .str "date-local"), ("value", .str v)] =
              .ok ⟨.time ⟨0, 0, .UTC⟩,
                some ("could not parse " ++ lib.Quote v ++ " as a datetime: " ++ err)⟩))
      ∧ (∃ layout : String, layoutHasZone layout = false
        ∧ (∀ t : Time, t.Location = .LocalTime → Add lib key (.time t) =
            .ok (.table [("type", .str "time-local"), ("value", .str (lib.Format t layout))]))
        ∧ (∀ (v : String) (t : Time), lib.Parse layout v = (t, none) →
            untag lib [("type", .str "time-local"), ("value", .str v)] =
              .ok ⟨.time ⟨t.sec, t.nsec, .LocalTime⟩, none⟩)
        ∧ (∀ (v : String) (t : Time) (err : String), lib.Parse layout v = (t, some err) →
            untag lib [("type", .str "time-local"), ("value", .str v)] =
              .ok ⟨.time ⟨0, 0, .UTC⟩,
                some ("could not parse " ++ lib.Quote v ++ " as a datetime: " ++ err)⟩))
      ∧ (∃ layout : String, layoutHasZone layout = true
        ∧ (∀ t : Time, t.Location ≠ .LocalDatetime → t.Location ≠ .LocalDate →
            t.Location ≠ .LocalTime → Add lib key (.time t) =
            .ok (.table [("type", .str "datetime"), ("value", .str (lib.Format t layout))]))
        ∧ (∀ (v : String) (t : Time), lib.Parse layout v = (t, none) →
            untag lib [("type", .str "datetime"), ("value", .str v)] = .ok ⟨.time t, none⟩)
        ∧ (∀ (v : String) (t : Time) (err : String), lib.Parse layout v = (t, some err) →
            untag lib [("type", .str "datetime"), ("value", .str v)] =
              .ok ⟨.time ⟨0, 0, .UTC⟩,
                some ("could not parse " ++ lib.Quote v ++ " as a datetime: " ++ err)⟩))
      ∧ (∀ (v format : String) (l : Location) (t : Time), lib.Parse format v = (t, none) →
          parseTime lib v format (some l) = (t.In l, none) ∧ (t.In l).Location = l
            ∧ (t.In l).sec = t.sec ∧ (t.In l).nsec = t.nsec)
      ∧ (∀ (v format : String) (t : Time), lib.Parse format v = (t, none) →
          parseTime lib v format none = (t, none)) := by
  refine ⟨⟨"2006-01-02T15:04:05.999999999", by decide, ?_, ?_, ?_⟩,
    ⟨"2006-01-02", by decide, ?_, ?_, ?_⟩,
    ⟨"15:04:05.999999999", by decide, ?_, ?_, ?_⟩,
    ⟨"2006-01-02T15:04:05.999999999Z07:00", by decide, ?_, ?_, ?_⟩, ?_, ?_⟩
  · intro t ht
    simp only [Add, ht, tag, pure, Except.pure]
  · intro v t h
    simp [untag, Table.get, List.lookup, assertString, bind, Except.bind, pure, Except.pure,
      retTime, parseTime, h, Time.In]
  · intro v t err h
    simp [untag, Table.get, List.lookup, assertString, bind, Except.bind, pure, Except.pure,
      retTime, parseTime, h, Time.zero]
  · intro t ht
    simp only [Add, ht, tag, pure, Except.pure]
  · intro v t h
    simp [untag, Table.get, List.lookup, assertString, bind, Except.bind, pure, Except.pure,
      retTime, parseTime, h, Time.In]
  · intro v t err h
    simp [untag, Table.get, List.lookup, assertString, bind, Except.bind, pure, Except.pure,
      retTime, parseTime, h, Time.zero]
  · intro t ht
    simp only [Add, ht, tag, pure, Except.pure]
  · intro v t h
    simp [untag, Table.get, List.lookup, assertString, bind, Except.bind, pure, Except.pure,
      retTime, parseTime, h, Time.In]
  · intro v t err h
    simp [untag, Table.get, List.lookup, assertString, bind, Except.bind, pure, Except.pure,
      retTime, parseTime, h, Time.zero]
  · intro t h1 h2 h3
    rw [Add]
    split <;> first | contradiction | rfl
  · intro v t h
    simp [untag, Table.get, List.lookup, assertString, bind, Except.bind, pure, Except.pure,
      retTime, parseTime, h]
  · intro v t err h
    simp [untag, Table.get, List.lookup, assertString, bind, Except.bind, pure, Except.pure,
      retTime, parseTime, h, Time.zero]
  · intro v format l t h
    simp only [parseTime, h, Time.In, Time.Location, and_self]
  · intro v format t h
    simp only [parseTime, h]

end tag

namespace tag

open Go

/-- Whether a key is in a table depends on the keys only. -/
theorem in_eq_of_keys (key : String) :
    ∀ (m m' : List (String × Value)), m'.map Prod.fst = m.map Prod.fst → in_ key m' = in_ key m
  | [], [], _ => rfl
  | [], _ :: _, h => by simp at h
  | _ :: _, [], h => by simp at h
  | (k, v) :: m, (k', v') :: m', h => by
    simp only [List.map_cons, List.cons.injEq] at h
    obtain ⟨hk, hm⟩ := h
    have ih := in_eq_of_keys key m m' hm
    simp only [in_, Table.get?] at ih ⊢
    subst hk
    simp only [List.lookup_cons]
    cases key == k' <;> simp [ih]

/-- The test of `Remove` for a primitive with tags depends on the keys
only. -/
theorem isTagged_eq_of_keys (m m' : List (String × Value))
    (h : m'.map Prod.fst = m.map Prod.fst) : isTagged m' = isTagged m := by
  have hl : m'.length = m.length := by simpa using congrArg List.length h
  simp only [isTagged, hl, in_eq_of_keys _ m m' h]

/-- `Remove` on a table that does not pass for a primitive with tags. -/
theorem Remove_table (lib : Stdlib) (v : List (String × Value)) (h : isTagged v = false) :
    Remove lib (.table v) =
      (RemoveTable lib v).bind (fun r =>
        match r with
        | (_, some err) => pure ⟨.null, some err⟩
        | (m, none) => pure ⟨.table m, none⟩) := by
  rw [Remove]
  simp only [isTagged] at h
  rw [h]
  simp only [Bool.false_eq_true, if_false]
  rfl

/-- The round trip of the entries of a table, from the round trips of its
values. -/
theorem RemoveTable_AddTable (lib : Stdlib) :
    ∀ m : List (String × Value),
      (∀ e ∈ m, ∀ key, ∃ typed, Add lib key e.2 = .ok typed ∧ Remove lib typed = .ok ⟨e.2, none⟩) →
      ∃ typed, AddTable lib m = .ok typed ∧ typed.map Prod.fst = m.map Prod.fst
        ∧ RemoveTable lib typed = .ok (m, none)
  | [], _ => ⟨[], rfl, rfl, rfl⟩
  | (k, v) :: rest, h => by
    obtain ⟨tv, h1, h2⟩ := h (k, v) (List.mem_cons_self _ _) k
    obtain ⟨typed, h3, h4, h5⟩ :=
      RemoveTable_AddTable lib rest (fun e he => h e (List.mem_cons_of_mem _ he))
    refine ⟨(k, tv) :: typed, ?_, ?_, ?_⟩
    · simp only [AddTable, h1, h3, bind, Except.bind, pure, Except.pure]
    · simp [h4]
    · simp only [RemoveTable, h2, h5, bind, Except.bind, pure, Except.pure]

/-- The round trip of the elements of an array, from the round trips of the
elements. -/
theorem RemoveArray_AddArray (lib : Stdlib) :
    ∀ a : List Value,
      (∀ x ∈ a, ∀ key, ∃ typed, Add lib key x = .ok typed ∧ Remove lib typed = .ok ⟨x, none⟩) →
      ∃ typed, AddArray lib a = .ok typed ∧ RemoveArray lib typed = .ok (a, none)
  | [], _ => ⟨[], rfl, rfl⟩
  | v :: rest, h => by
    obtain ⟨tv, h1, h2⟩ := h v (List.mem_cons_self _ _) ""
    obtain ⟨typed, h3, h5⟩ :=
      RemoveArray_AddArray lib rest (fun e he => h e (List.mem_cons_of_mem _ he))
    refine ⟨tv :: typed, ?_, ?_⟩
    · simp only [AddArray, h1, h3, bind, Except.bind, pure, Except.pure]
    · simp only [RemoveArray, h2, h5, bind, Except.bind, pure, Except.pure]

/-- Tagging then untagging is the identity on every value built from tables,
arrays and string, `int64` and bool leaves in which no table has exactly the
two keys `type` and `value`. -/
theorem Remove_Add_untagged (lib : Stdlib) (v : Value) :
    v.isTree Value.isScalar = true → v.allTables (fun m => !isTagged m) = true →
      ∀ key, ∃ typed, Add lib key v = .ok typed ∧ Remove lib typed = .ok ⟨v, none⟩ := by
  refine Value.induct
    (P := fun v => v.isTree Value.isScalar = true → v.allTables (fun m => !isTagged m) = true →
      ∀ key, ∃ typed, Add lib key v = .ok typed ∧ Remove lib typed = .ok ⟨v, none⟩)
    ?_ ?_ ?_ ?_ v
  · intro v hleaf ht _ key
    have hs : v.isScalar = true := by
      cases v <;> first | exact ht | simp [Value.isLeaf] at hleaf
    exact Remove_Add_scalar lib key v hs
  · intro a ih ht hp key
    have ht' := isTreeList_mem _ a (by simpa [Value.isTree] using ht)
    have hp' := allTablesList_mem _ a (by simpa [Value.allTables] using hp)
    obtain ⟨typed, h1, h2⟩ :=
      RemoveArray_AddArray lib a (fun x hx => ih x hx (ht' x hx) (hp' x hx))
    refine ⟨.array typed, ?_, ?_⟩
    · simp only [Add, h1, bind, Except.bind, pure, Except.pure]
    · simp only [Remove, h2, bind, Except.bind, pure, Except.pure]
  · intro ts _ ht
    simp [Value.isTree, Value.isScalar] at ht
  · intro m ih ht hp key
    have ht' := isTreeEntries_mem _ m (by simpa [Value.isTree] using ht)
    simp only [Value.allTables, Bool.and_eq_true, Bool.not_eq_true'] at hp
    have hp' := allTablesEntries_mem _ m hp.2
    obtain ⟨typed, h1, hk, h2⟩ :=
      RemoveTable_AddTable lib m (fun e he => ih e he (ht' e he) (hp' e he))
    refine ⟨.table typed, ?_, ?_⟩
    · simp only [Add, h1, bind, Except.bind, pure, Except.pure]
    · rw [Remove_table lib typed (by rw [isTagged_eq_of_keys m typed hk]; exact hp.1)]
      simp only [h2, bind, Except.bind, pure, Except.pure]

/-- C7, at the document `type = "a"`, `value = "b"`: a table of two string
leaves, which `Add` tags leaf by leaf. `Remove` takes the result, an object
with exactly the keys `type` and `value`, for a tagged primitive, and the
type assertion of `untag` panics on the object it finds under `type`: nothing
is returned. -/
theorem C7_type_value_table_panics (lib : Stdlib) :
    (Value.table [("type", .str "a"), ("value", .str "b")]).isTree Value.isScalar = true
      ∧ Add lib "" (.table [("type", .str "a"), ("value", .str "b")]) =
        .ok (.table [("type", .table [("type", .str "string"), ("value", .str "a")]),
          ("value", .table [("type", .str "string"), ("value", .str "b")])])
      ∧ RemoveAdd lib "" (.table [("type", .str "a"), ("value", .str "b")]) =
        .error "interface conversion: interface {} is map[string]interface {}, not string" := by
  refine ⟨rfl, rfl, rfl⟩

end tag

namespace tomltest

open Go

/-- A NaN stays a NaN under the conversion to `float64`. -/
theorem Float32.toFloat64_IsNaN (f : Float32) (h : f.IsNaN = true) :
    f.toFloat64.IsNaN = true := by
  simp only [Float32.IsNaN, Bool.and_eq_true, beq_iff_eq, bne_iff_ne, ne_eq] at h
  obtain ⟨he, hm⟩ := h
  have hs : (f.bits / 2 ^ 31) % 2 < 2 := Nat.mod_lt _ (by decide)
  have hm' : (f.bits % 2 ^ 23 == 0) = false := by simpa using hm
  simp only [Float32.toFloat64, he, beq_self_eq_true, if_true, hm', Bool.false_eq_true, if_false,
    Float64.IsNaN, Bool.and_eq_true, beq_iff_eq, bne_iff_ne, ne_eq]
  have hq : (f.bits % 2 ^ 23 * 2 ^ 29) % 2 ^ 51 < 2 ^ 51 := Nat.mod_lt _ (by decide)
  generalize (f.bits / 2 ^ 31) % 2 = s at hs
  generalize (f.bits % 2 ^ 23 * 2 ^ 29) % 2 ^ 51 = q at hq
  constructor <;> omega

/-- A leaf is deeply equal to itself, in the sense of `deepEqual`. -/
theorem deepEqual_self (v : Value) (h : v.isLeaf = true) : deepEqual v v = true := by
  cases v with
  | null => rfl
  | bool b => simp [deepEqual, DeepEqual, Float64.zero, Float64.IsNaN]
  | str s => simp [deepEqual, DeepEqual, Float64.zero, Float64.IsNaN]
  | int n => simp [deepEqual, DeepEqual, Float64.zero, Float64.IsNaN]
  | time t => simp [deepEqual, DeepEqual, Float64.zero, Float64.IsNaN]
  | float f =>
    by_cases hn : f.IsNaN = true
    · simp [deepEqual, hn]
    · simp [deepEqual, DeepEqual, Float64.eq, hn]
  | float32 f =>
    by_cases hn : f.IsNaN = true
    · simp [deepEqual, Float32.toFloat64_IsNaN f hn]
    · simp [deepEqual, DeepEqual, Float32.eq, hn]
  | array a => simp [Value.isLeaf] at h
  | tableArray ts => simp [Value.isLeaf] at h
  | table m => simp [Value.isLeaf] at h

/-- On two equal leaves `CompareTOML` returns the `Test` unchanged. -/
theorem CompareTOML_leaf_self (r : Test) (v : Value) (h : v.isLeaf = true) :
    CompareTOML r v v = r := by
  have hd := deepEqual_self v h
  cases v with
  | array a => simp [Value.isLeaf] at h
  | table m => simp [Value.isLeaf] at h
  | tableArray ts => simp [Value.isLeaf] at h
  | null => simp [CompareTOML, isTomlValue, hd]
  | bool b => simp [CompareTOML, isTomlValue, hd]
  | str s => simp [CompareTOML, isTomlValue, hd]
  | int n => simp [CompareTOML, isTomlValue, hd]
  | time t => simp [CompareTOML, isTomlValue, hd]
  | float f => simp [CompareTOML, isTomlValue, hd]
  | float32 f => simp [CompareTOML, isTomlValue, hd]

/-- Extending the key leaves the failure as it is. -/
theorem Failed_kjoin (r : Test) (key : String) : (r.kjoin key).Failed = r.Failed := by
  unfold Test.kjoin Test.Failed
  split <;> rfl

/-- In a map, the value at the key of an entry is the value of the entry. -/
theorem get_of_mem :
    ∀ (m : List (String × Value)), (m.map Prod.fst).Nodup → ∀ e ∈ m, Table.get m e.1 = e.2
  | [], _, _, he => by cases he
  | (k, v) :: rest, hnd, e, he => by
    simp only [List.map_cons, List.nodup_cons] at hnd
    rcases List.mem_cons.mp he with he | he
    · subst he
      simp [Table.get, List.lookup_cons]
    · have hne : (e.1 == k) = false := by
        rw [beq_eq_false_iff_ne]
        intro heq
        exact hnd.1 (heq ▸ List.mem_map_of_mem Prod.fst he)
      have ih := get_of_mem rest hnd.2 e he
      simp only [Table.get, List.lookup_cons, hne] at ih ⊢
      exact ih

/-- No key of a map is missing from the map itself. -/
theorem missingKey_self (m : List (String × Value)) : missingKey m m = none := by
  unfold missingKey
  rw [List.find?_eq_none]
  intro k hk
  simp only [Table.keys, List.mem_map] at hk
  obtain ⟨e, he, rfl⟩ := hk
  simp only [Table.get?, Option.isNone_iff_eq_none, ← ne_eq]
  intro hnone
  have := List.lookup_eq_none_iff.mp hnone e he
  simp at this

/-- The value loop of `cmpTOMLMap` finds no failure when every value of
`want` compares as equal with the value of `haveMap` at its key. -/
theorem cmpTOMLMapValues_none (haveMap : List (String × Value)) :
    ∀ (want : List (String × Value)) (r : Test), r.Failed = false →
      (∀ e ∈ want, ∀ r' : Test, r'.Failed = false →
        CompareTOML r' e.2 (Table.get haveMap e.1) = r') →
      cmpTOMLMapValues r want haveMap = none
  | [], _, _, _ => rfl
  | (k, v) :: rest, r, hr, h => by
    have hk : (r.kjoin k).Failed = false := by rw [Failed_kjoin]; exact hr
    have h1 := h (k, v) (List.mem_cons_self _ _) (r.kjoin k) hk
    simp only at h1
    rw [cmpTOMLMapValues]
    simp only [h1, hk, Bool.false_eq_true, if_false]
    exact cmpTOMLMapValues_none haveMap rest r hr (fun e he => h e (List.mem_cons_of_mem _ he))

/-- The loop of `cmpTOMLArrays` finds no failure on two equal slices whose
elements compare as equal with themselves. -/
theorem cmpTOMLArrayValues_self :
    ∀ (a : List Value) (r : Test), r.Failed = false →
      (∀ x ∈ a, ∀ r' : Test, r'.Failed = false → CompareTOML r' x x = r') →
      cmpTOMLArrayValues r a a = none
  | [], _, _, _ => rfl
  | v :: rest, r, hr, h => by
    have h1 := h v (List.mem_cons_self _ _) r hr
    rw [cmpTOMLArrayValues]
    simp only [List.headD_cons, h1, hr, Bool.false_eq_true, if_false, List.tail_cons]
    exact cmpTOMLArrayValues_self rest r hr (fun e he => h e (List.mem_cons_of_mem _ he))

/-- C10: if both arguments are equal, `CompareTOML` returns the `Test`
unchanged. For every value `v` built from tables, arrays and scalar leaves,
NaN floats among them, and every `Test` `r` that has not failed,
`r.CompareTOML(v, v)` is `r`. -/
theorem C10_CompareTOML_self (v : Value) (r : Test)
    (htree : v.isTree Value.isLeaf = true)
    (hkeys : v.allTables Table.distinctKeys = true)
    (hr : r.Failed = false) :
    CompareTOML r v v = r := by
  revert r
  revert htree hkeys
  refine Value.induct
    (P := fun v => v.isTree Value.isLeaf = true → v.allTables Table.distinctKeys = true →
      ∀ r : Test, r.Failed = false → CompareTOML r v v = r)
    ?_ ?_ ?_ ?_ v
  · intro v hleaf _ _ r _
    exact CompareTOML_leaf_self r v hleaf
  · intro a ih ht hp r hr
    have ht' := isTreeList_mem _ a (by simpa [Value.isTree] using ht)
    have hp' := allTablesList_mem _ a (by simpa [Value.allTables] using hp)
    have hloop := cmpTOMLArrayValues_self a r hr (fun x hx => ih x hx (ht' x hx) (hp' x hx))
    rw [CompareTOML]
    simp [hloop]
  · intro ts _ ht
    simp [Value.isTree, Value.isLeaf] at ht
  · intro m ih ht hp r hr
    have ht' := isTreeEntries_mem _ m (by simpa [Value.isTree] using ht)
    simp only [Value.allTables, Bool.and_eq_true] at hp
    have hp' := allTablesEntries_mem _ m hp.2
    have hnd : (m.map Prod.fst).Nodup := by simpa [Table.distinctKeys] using hp.1
    have hloop := cmpTOMLMapValues_none m m r hr (fun e he r' hr' => by
      rw [get_of_mem m hnd e he]
      exact ih e he (ht' e he) (hp' e he) r' hr')
    rw [CompareTOML]
    simp only [missingKey_self, hloop]

/-- C10 at a document with a nested table, an array and a NaN leaf. -/
theorem C10_CompareTOML_self_witness :
    CompareTOML ⟨"", ""⟩
        (.table [("a", .int 5), ("t", .table [("x", .array [.bool true, .float ⟨0x7ff8000000000000⟩])])])
        (.table [("a", .int 5), ("t", .table [("x", .array [.bool true, .float ⟨0x7ff8000000000000⟩])])])
      = ⟨"", ""⟩ :=
  C10_CompareTOML_self _ _ (by decide) (by decide) (by decide)

end tomltest

namespace toml

/-- C18, as stated, fails at a raw string item: its type is none of
`itemString`, `itemBool`, `itemInteger`, `itemFloat` and `itemDatetime`, and
`typeOfPrimitive` returns `String` for it. -/
theorem C18_raw_string_returns :
    itemType.itemRawString ∉
        [itemType.itemString, .itemBool, .itemInteger, .itemFloat, .itemDatetime]
      ∧ typeOfPrimitive ⟨.itemRawString, "a", 1⟩ = .ok (some tomlString) :=
  ⟨by decide, rfl⟩

/-- C18, amended: for every item whose type is none of the eight that
`typeOfPrimitive` names (the four string items, `itemBool`, `itemInteger`,
`itemFloat` and `itemDatetime`), `typeOfPrimitive` does not return: it
reports a BUG, whose message names the item. -/
theorem C18_typeOfPrimitive_bug (lexItem : item)
    (h : lexItem.typ ∉ [itemType.itemString, .itemMultilineString, .itemRawString,
      .itemRawMultilineString, .itemBool, .itemInteger, .itemFloat, .itemDatetime]) :
    typeOfPrimitive lexItem =
      .error ("BUG: Cannot infer primitive type of lex item '" ++ lexItem.val ++ "'.") := by
  obtain ⟨typ, val, line⟩ := lexItem
  cases typ <;> first | rfl | (exfalso; simp at h)

/-- C18, amended, at the end-of-input item. -/
theorem C18_typeOfPrimitive_bug_witness :
    itemType.itemEOF ∉ [itemType.itemString, .itemMultilineString, .itemRawString,
        .itemRawMultilineString, .itemBool, .itemInteger, .itemFloat, .itemDatetime]
      ∧ typeOfPrimitive ⟨.itemEOF, "", 1⟩ =
        .error "BUG: Cannot infer primitive type of lex item ''." :=
  ⟨by decide, C18_typeOfPrimitive_bug ⟨.itemEOF, "", 1⟩ (by decide)⟩

end toml

namespace tag

open Go

/-- Whether a key is in a table, by its list of keys. -/
theorem in_iff_mem_keys (key : String) :
    ∀ m : List (String × Value), in_ key m = true ↔ key ∈ m.map Prod.fst
  | [] => by simp [in_, Table.get?]
  | (k, v) :: rest => by
    have ih := in_iff_mem_keys key rest
    simp only [in_, Table.get?] at ih ⊢
    simp only [List.lookup_cons, List.map_cons, List.mem_cons]
    by_cases hk : key = k
    · subst hk
      simp
    · have : (key == k) = false := by simpa using hk
      rw [this]
      simp only [ih, hk, false_or]

/-- The test of `Remove` for a primitive with tags holds exactly of the
objects whose keys are `type` and `value` and no others. -/
theorem isTagged_iff_keys (v : List (String × Value)) :
    isTagged v = true ↔ (v.map Prod.fst).Perm ["type", "value"] := by
  constructor
  · intro h
    simp only [isTagged, Bool.and_eq_true, beq_iff_eq, in_iff_mem_keys] at h
    obtain ⟨⟨hlen, ht⟩, hv⟩ := h
    match v, hlen with
    | [(k1, x1), (k2, x2)], _ =>
      simp only [List.map_cons, List.map_nil, List.mem_cons, List.mem_nil_iff, or_false,
        List.mem_singleton] at ht hv ⊢
      rcases ht with ht | ht <;> rcases hv with hv | hv
      · rw [← ht] at hv; exact absurd hv (by decide)
      · rw [← ht, ← hv]
      · rw [← ht, ← hv]; exact List.Perm.swap _ _ _
      · rw [← ht] at hv; exact absurd hv (by decide)
  · intro h
    have hlen : v.length = 2 := by simpa using h.length_eq
    have ht : "type" ∈ v.map Prod.fst := h.symm.subset (by simp)
    have hv : "value" ∈ v.map Prod.fst := h.symm.subset (by simp)
    simp only [isTagged, Bool.and_eq_true, beq_iff_eq, in_iff_mem_keys]
    exact ⟨⟨hlen, ht⟩, hv⟩

/-- `Remove` on an object that passes for a primitive with tags is `untag`,
with the error wrapped. -/
theorem Remove_tagged (lib : Stdlib) (v : List (String × Value)) (h : isTagged v = true) :
    Remove lib (.table v) =
      (untag lib v).bind (fun ut =>
        match ut.err with
        | some err => pure ⟨ut.val, some ("tag.Remove: " ++ err)⟩
        | none => pure ⟨ut.val, none⟩) := by
  rw [Remove]
  simp only [isTagged] at h
  rw [if_pos h]
  rfl

/-- The table loop of `Remove` when no entry has an error: the entries of
the result are `Remove` of the original entries, under the same keys and in
the same order. -/
theorem RemoveTable_ok (lib : Stdlib) :
    ∀ (v m : List (String × Value)), RemoveTable lib v = .ok (m, none) →
      List.Forall₂ (fun e e' => e'.1 = e.1 ∧ Remove lib e.2 = .ok ⟨e'.2, none⟩) v m
  | [], m, h => by
    simp only [RemoveTable, pure, Except.pure, Except.ok.injEq, Prod.mk.injEq, and_true] at h
    subst h
    exact List.Forall₂.nil
  | (k, x) :: rest, m, h => by
    rw [RemoveTable] at h
    cases hx : Remove lib x with
    | error e => simp [hx, bind, Except.bind] at h
    | ok r =>
      obtain ⟨val, err⟩ := r
      cases err with
      | some e => simp [hx, bind, Except.bind, pure, Except.pure] at h
      | none =>
        cases hr : RemoveTable lib rest with
        | error e => simp [hx, hr, bind, Except.bind] at h
        | ok p =>
          obtain ⟨m', err'⟩ := p
          simp only [hx, hr, bind, Except.bind, pure, Except.pure, Except.ok.injEq,
            Prod.mk.injEq] at h
          obtain ⟨hm, he⟩ := h
          subst hm he
          exact List.Forall₂.cons ⟨rfl, hx⟩ (RemoveTable_ok lib rest m' hr)

/-- The table loop of `Remove` runs to its end when `Remove` returns a value
and no error for every entry. -/
theorem RemoveTable_total (lib : Stdlib) :
    ∀ v : List (String × Value),
      (∀ e ∈ v, ∃ x, Remove lib e.2 = .ok ⟨x, none⟩) →
      ∃ m, RemoveTable lib v = .ok (m, none)
  | [], _ => ⟨[], rfl⟩
  | (k, x) :: rest, h => by
    obtain ⟨x', hx⟩ := h (k, x) (List.mem_cons_self _ _)
    obtain ⟨m, hm⟩ := RemoveTable_total lib rest (fun e he => h e (List.mem_cons_of_mem _ he))
    exact ⟨(k, x') :: m, by
      simp only [RemoveTable, hx, hm, bind, Except.bind, pure, Except.pure]⟩

/-- Two lists related entry by entry with equal keys have the same keys. -/
theorem keys_eq_of_forall₂ {R : String × Value → String × Value → Prop} :
    ∀ (v m : List (String × Value)),
      List.Forall₂ (fun e e' => e'.1 = e.1 ∧ R e e') v m → m.map Prod.fst = v.map Prod.fst
  | _, _, .nil => rfl
  | _, _, .cons h t => by
    simp only [List.map_cons, h.1, keys_eq_of_forall₂ _ _ t]

/-- C19, as stated, fails at the object with the one entry `a`, a bare
string: it is not a tagged primitive, and `Remove` yields no table but a nil
value and an error. -/
theorem C19_table_with_bad_entry :
    isTagged [("a", .str "x")] = false
      ∧ Remove exampleLib (.table [("a", .str "x")]) =
        .ok ⟨.null, some "tag.Remove: unrecognized JSON format 'string'"⟩ :=
  ⟨rfl, rfl⟩

/-- C19, amended: `Remove` treats an object as a tagged primitive, handing
it to `untag`, if and only if it has exactly two entries whose keys are
`type` and `value`. Every other object (empty, one entry, two other keys,
three or more entries even with `type` and `value` among them) is treated as
a table: when `Remove` returns a value and no error for every entry, it
yields a table with the same keys whose entries are `Remove` of the original
entries, and no error; and whenever it yields a value without an error, this
is such a table. -/
theorem C19_Remove_dispatch (lib : Stdlib) (v : List (String × Value)) :
    (isTagged v = true ↔ (v.map Prod.fst).Perm ["type", "value"])
      ∧ (isTagged v = true → Remove lib (.table v) =
          (untag lib v).bind (fun ut =>
            match ut.err with
            | some err => pure ⟨ut.val, some ("tag.Remove: " ++ err)⟩
            | none => pure ⟨ut.val, none⟩))
      ∧ (isTagged v = false → Remove lib (.table v) =
          (RemoveTable lib v).bind (fun r =>
            match r with
            | (_, some err) => pure ⟨.null, some err⟩
            | (m, none) => pure ⟨.table m, none⟩))
      ∧ (isTagged v = false → (∀ e ∈ v, ∃ x, Remove lib e.2 = .ok ⟨x, none⟩) →
          ∃ m, Remove lib (.table v) = .ok ⟨.table m, none⟩
            ∧ m.map Prod.fst = v.map Prod.fst
            ∧ List.Forall₂ (fun e e' => e'.1 = e.1 ∧ Remove lib e.2 = .ok ⟨e'.2, none⟩) v m)
      ∧ (isTagged v = false → ∀ x, Remove lib (.table v) = .ok ⟨x, none⟩ →
          ∃ m, x = .table m ∧ m.map Prod.fst = v.map Prod.fst
            ∧ List.Forall₂ (fun e e' => e'.1 = e.1 ∧ Remove lib e.2 = .ok ⟨e'.2, none⟩) v m)
      ∧ isTagged [] = false
      ∧ (∀ x : Value, isTagged [("type", x)] = false)
      ∧ (∀ x y : Value, isTagged [("a", x), ("b", y)] = false)
      ∧ (∀ x y : Value, isTagged [("type", x), ("b", y)] = false)
      ∧ (∀ x y z : Value, isTagged [("type", x), ("value", y), ("a", z)] = false) := by
  refine ⟨isTagged_iff_keys v, Remove_tagged lib v, Remove_table lib v, ?_, ?_,
    rfl, fun _ => rfl, fun _ _ => rfl, fun _ _ => rfl, fun _ _ _ => rfl⟩
  · intro ht hall
    obtain ⟨m, hm⟩ := RemoveTable_total lib v hall
    have hf := RemoveTable_ok lib v m hm
    refine ⟨m, ?_, keys_eq_of_forall₂ (R := fun e e' => Remove lib e.2 = .ok ⟨e'.2, none⟩) v m hf, hf⟩
    rw [Remove_table lib v ht, hm]
    rfl
  · intro ht x hx
    rw [Remove_table lib v ht] at hx
    cases hr : RemoveTable lib v with
    | error e => simp [hr, Except.bind] at hx
    | ok p =>
      obtain ⟨m, err⟩ := p
      cases err with
      | some e => simp [hr, Except.bind, pure, Except.pure] at hx
      | none =>
        simp only [hr, Except.bind, pure, Except.pure, Except.ok.injEq, Ret.mk.injEq,
          and_true] at hx
        have hf := RemoveTable_ok lib v m hr
        exact ⟨m, hx.symm, keys_eq_of_forall₂ (R := fun e e' => Remove lib e.2 = .ok ⟨e'.2, none⟩) v m hf, hf⟩

end tag

namespace tag

open Go

/-- `Remove` on a value that is neither an object nor an array. -/
theorem Remove_unrecognized (lib : Stdlib) (x : Value)
    (hobj : ∀ m, x ≠ .table m) (harr : ∀ a, x ≠ .array a) :
    Remove lib x =
      .ok ⟨.null, some ("tag.Remove: unrecognized JSON format '" ++ x.goType ++ "'")⟩ := by
  cases x with
  | table m => exact absurd rfl (hobj m)
  | array a => exact absurd rfl (harr a)
  | null => rfl
  | bool b => rfl
  | str s => rfl
  | int n => rfl
  | float f => rfl
  | float32 f => rfl
  | time t => rfl
  | tableArray ts => rfl

/-- The array loop of `Remove` stops with the error of the first element
that has one. -/
theorem RemoveArray_first_error (lib : Stdlib) (x val : Value) (err : String)
    (post : List Value) (hx : Remove lib x = .ok ⟨val, some err⟩) :
    ∀ pre : List Value, (∀ y ∈ pre, ∃ y', Remove lib y = .ok ⟨y', none⟩) →
      ∃ a, RemoveArray lib (pre ++ x :: post) = .ok (a, some err)
  | [], _ => ⟨[val], by
      simp only [List.nil_append, RemoveArray, hx, bind, Except.bind, pure, Except.pure]⟩
  | y :: pre, h => by
    obtain ⟨y', hy⟩ := h y (List.mem_cons_self _ _)
    obtain ⟨a, ha⟩ :=
      RemoveArray_first_error lib x val err post hx pre
        (fun z hz => h z (List.mem_cons_of_mem _ hz))
    exact ⟨y' :: a, by
      simp only [List.cons_append, RemoveArray, hy, bind, Except.bind, pure, Except.pure,
        List.append_eq, ha]⟩

/-- The table loop of `Remove` stops with the error of the first entry that
has one. -/
theorem RemoveTable_first_error (lib : Stdlib) (k : String) (x val : Value) (err : String)
    (post : List (String × Value)) (hx : Remove lib x = .ok ⟨val, some err⟩) :
    ∀ pre : List (String × Value), (∀ e ∈ pre, ∃ y', Remove lib e.2 = .ok ⟨y', none⟩) →
      ∃ m, RemoveTable lib (pre ++ (k, x) :: post) = .ok (m, some err)
  | [], _ => ⟨[(k, val)], by
      simp only [List.nil_append, RemoveTable, hx, bind, Except.bind, pure, Except.pure]⟩
  | (k', y) :: pre, h => by
    obtain ⟨y', hy⟩ := h (k', y) (List.mem_cons_self _ _)
    obtain ⟨m, hm⟩ :=
      RemoveTable_first_error lib k x val err post hx pre
        (fun z hz => h z (List.mem_cons_of_mem _ hz))
    exact ⟨(k', y') :: m, by
      simp only [List.cons_append, RemoveTable, hy, bind, Except.bind, pure, Except.pure,
        List.append_eq, hm]⟩

/-- `Remove` on an array returns nil and the error of the first element that
has one. -/
theorem Remove_array_first_error (lib : Stdlib) (x val : Value) (err : String)
    (pre post : List Value) (hx : Remove lib x = .ok ⟨val, some err⟩)
    (hpre : ∀ y ∈ pre, ∃ y', Remove lib y = .ok ⟨y', none⟩) :
    Remove lib (.array (pre ++ x :: post)) = .ok ⟨.null, some err⟩ := by
  obtain ⟨a, ha⟩ := RemoveArray_first_error lib x val err post hx pre hpre
  simp only [Remove, ha, bind, Except.bind, pure, Except.pure]

/-- `Remove` on a table returns nil and the error of the first entry that has
one. -/
theorem Remove_table_first_error (lib : Stdlib) (k : String) (x val : Value) (err : String)
    (pre post : List (String × Value)) (hx : Remove lib x = .ok ⟨val, some err⟩)
    (ht : isTagged (pre ++ (k, x) :: post) = false)
    (hpre : ∀ e ∈ pre, ∃ y', Remove lib e.2 = .ok ⟨y', none⟩) :
    Remove lib (.table (pre ++ (k, x) :: post)) = .ok ⟨.null, some err⟩ := by
  obtain ⟨m, hm⟩ := RemoveTable_first_error lib k x val err post hx pre hpre
  rw [Remove_table lib _ ht, hm]
  rfl

/-- C17, as stated, fails at the array of a tagged bool with the value
`maybe` followed by a bare string: the bare string is nested as a child of an
array, and what `Remove` returns is the error of the element before it. -/
theorem C17_earlier_error_wins :
    Remove exampleLib (.array [.table [("type", .str "bool"), ("value", .str "maybe")],
        .str "bare"]) =
      .ok ⟨.null, some "tag.Remove: untag: could not parse \"maybe\" as a boolean"⟩ := by
  rfl

/-- C17, amended: for every input `x` that is neither an object nor an
array, `Remove` returns a nil value and the error `unrecognized JSON format`
with the type of `x`; and so does `Remove` on an array or on a table (an
object that is not a tagged primitive) that has `x` as a child, when `Remove`
returns a value and no error for the children visited before it. -/
theorem C17_Remove_unrecognized (lib : Stdlib) (x : Value)
    (hobj : ∀ m, x ≠ .table m) (harr : ∀ a, x ≠ .array a) :
    Remove lib x =
        .ok ⟨.null, some ("tag.Remove: unrecognized JSON format '" ++ x.goType ++ "'")⟩
      ∧ (∀ pre post : List Value, (∀ y ∈ pre, ∃ y', Remove lib y = .ok ⟨y', none⟩) →
          Remove lib (.array (pre ++ x :: post)) =
            .ok ⟨.null, some ("tag.Remove: unrecognized JSON format '" ++ x.goType ++ "'")⟩)
      ∧ (∀ (k : String) (pre post : List (String × Value)),
          isTagged (pre ++ (k, x) :: post) = false →
          (∀ e ∈ pre, ∃ y', Remove lib e.2 = .ok ⟨y', none⟩) →
          Remove lib (.table (pre ++ (k, x) :: post)) =
            .ok ⟨.null, some ("tag.Remove: unrecognized JSON format '" ++ x.goType ++ "'")⟩) := by
  have hx := Remove_unrecognized lib x hobj harr
  exact ⟨hx, fun pre post hpre => Remove_array_first_error lib x _ _ pre post hx hpre,
    fun k pre post ht hpre => Remove_table_first_error lib k x _ _ pre post hx ht hpre⟩

/-- C17, amended, at a bare string: alone, after a tagged integer in an
array, and after a tagged integer in a table. -/
theorem C17_Remove_unrecognized_witness :
    Remove exampleLib (.str "bare") =
        .ok ⟨.null, some "tag.Remove: unrecognized JSON format 'string'"⟩
      ∧ Remove exampleLib (.array [.table [("type", .str "integer"), ("value", .str "1")],
          .str "bare"]) =
        .ok ⟨.null, some "tag.Remove: unrecognized JSON format 'string'"⟩
      ∧ Remove exampleLib (.table [("a", .table [("type", .str "integer"), ("value", .str "1")]),
          ("b", .str "bare")]) =
        .ok ⟨.null, some "tag.Remove: unrecognized JSON format 'string'"⟩ := by
  have h := C17_Remove_unrecognized exampleLib (.str "bare") (fun _ => Value.noConfusion)
    (fun _ => Value.noConfusion)
  refine ⟨h.1, ?_, ?_⟩
  · exact h.2.1 [.table [("type", .str "integer"), ("value", .str "1")]] []
      (fun y hy => by
        simp only [List.mem_singleton] at hy
        subst hy
        exact ⟨.int 1, rfl⟩)
  · exact h.2.2 "b" [("a", .table [("type", .str "integer"), ("value", .str "1")])] [] rfl
      (fun e he => by
        simp only [List.mem_singleton] at he
        subst he
        exact ⟨.int 1, rfl⟩)

end tag

namespace tomltest

open Go

/-- A message that starts with a non-empty text is not empty. -/
theorem append_ne_empty (a b : String) (h : a ≠ "") : a ++ b ≠ "" := by
  intro hab
  apply h
  have := congrArg String.data hab
  simp only [String.data_append, List.append_eq_nil] at this
  exact String.ext this.1

/-- A `Test` with a message set has failed. -/
theorem Failed_fail (r : Test) (msg : String) (h : msg ≠ "") : (r.fail msg).Failed = true := by
  simp [Test.fail, Test.Failed, h]

/-- A NaN, and nothing else, becomes a NaN under the conversion to
`float64`. -/
theorem Float32.toFloat64_IsNaN_eq (f : Float32) : f.toFloat64.IsNaN = f.IsNaN := by
  by_cases hn : f.IsNaN = true
  · rw [hn, Float32.toFloat64_IsNaN f hn]
  · have hn' : f.IsNaN = false := by simpa using hn
    rw [hn']
    have hs : (f.bits / 2 ^ 31) % 2 < 2 := Nat.mod_lt _ (by decide)
    have he : (f.bits / 2 ^ 23) % 2 ^ 8 < 2 ^ 8 := Nat.mod_lt _ (by decide)
    have hm : f.bits % 2 ^ 23 < 2 ^ 23 := Nat.mod_lt _ (by decide)
    simp only [Float32.IsNaN, Bool.and_eq_false_iff, beq_eq_false_iff_ne, ne_eq,
      bne_eq_false_iff_eq] at hn'
    unfold Float32.toFloat64
    generalize (f.bits / 2 ^ 31) % 2 = s at hs
    generalize (f.bits / 2 ^ 23) % 2 ^ 8 = e at he hn'
    generalize f.bits % 2 ^ 23 = m at hm hn'
    simp only
    by_cases h255 : e = 255
    · have hm0 : m = 0 := by
        rcases hn' with h | h
        · exact absurd h255 h
        · exact h
      subst h255 hm0
      simp only [beq_self_eq_true, if_true, Float64.IsNaN, Bool.and_eq_false_iff,
        bne_eq_false_iff_eq]
      right
      omega
    · have h255' : (e == 255) = false := by simpa using h255
      simp only [h255', Bool.false_eq_true, if_false]
      by_cases h0 : e = 0
      · subst h0
        simp only [beq_self_eq_true, if_true]
        by_cases hm0 : m = 0
        · subst hm0
          simp only [beq_self_eq_true, if_true, Float64.IsNaN, Bool.and_eq_false_iff,
            beq_eq_false_iff_ne, ne_eq]
          left
          omega
        · have hm0' : (m == 0) = false := by simpa using hm0
          simp only [hm0', Bool.false_eq_true, if_false, Float64.IsNaN, Bool.and_eq_false_iff,
            beq_eq_false_iff_ne, ne_eq]
          left
          have hk : Nat.log2 m < 23 := (Nat.log2_lt hm0).mpr hm
          have hlo : 2 ^ Nat.log2 m ≤ m := Nat.log2_self_le hm0
          have hhi : m < 2 ^ (Nat.log2 m + 1) := Nat.lt_log2_self
          generalize Nat.log2 m = k at hk hlo hhi
          have hfrac : (m - 2 ^ k) * 2 ^ (52 - k) < 2 ^ 52 := by
            have h1 : m - 2 ^ k < 2 ^ k := by
              rw [pow_succ] at hhi
              omega
            calc (m - 2 ^ k) * 2 ^ (52 - k) < 2 ^ k * 2 ^ (52 - k) :=
                  Nat.mul_lt_mul_of_pos_right h1 (Nat.two_pow_pos _)
              _ = 2 ^ 52 := by rw [← pow_add]; congr 1; omega
          generalize (m - 2 ^ k) * 2 ^ (52 - k) = frac at hfrac
          omega
      · have h0' : (e == 0) = false := by simpa using h0
        simp only [h0', Bool.false_eq_true, if_false, Float64.IsNaN, Bool.and_eq_false_iff,
          beq_eq_false_iff_ne, ne_eq]
        left
        omega

/-- Zero is not a NaN. -/
theorem Float64.zero_IsNaN : Float64.zero.IsNaN = false := rfl

/-- On two leaves `deepEqual` is structural equality. -/
theorem deepEqual_leaf (w h : Value) (hw : w.isLeaf = true) (hh : h.isLeaf = true) :
    deepEqual w h = tomlEqual w h := by
  cases w <;> simp only [Value.isLeaf, Bool.false_eq_true] at hw <;>
    cases h <;> simp only [Value.isLeaf, Bool.false_eq_true] at hh <;>
    simp only [deepEqual, DeepEqual, tomlEqual, sameLeaf, isNaNLeaf, Value.isLeaf,
      Float64.zero_IsNaN, Float32.toFloat64_IsNaN_eq, Bool.and_false, Bool.false_and,
      Bool.true_and, Bool.false_eq_true, if_false, Bool.or_false, Bool.and_true, Bool.or_self]
  case float.float a b =>
    cases a.IsNaN <;> cases b.IsNaN <;> simp
  case float32.float32 a b =>
    cases a.IsNaN <;> cases b.IsNaN <;> simp
  case float.float32 a b =>
    cases a.IsNaN <;> cases b.IsNaN <;> simp
  case float32.float a b =>
    cases a.IsNaN <;> cases b.IsNaN <;> simp

/-- On a leaf `CompareTOML` fails exactly when the other value is not an
equal leaf. -/
theorem CompareTOML_leaf (r : Test) (w h : Value) (hr : r.Failed = false)
    (hw : w.isLeaf = true) (hh : h.isTree Value.isLeaf = true) :
    (CompareTOML r w h).Failed = !tomlEqual w h := by
  by_cases hl : h.isLeaf = true
  · have hd := deepEqual_leaf w h hw hl
    have ht : isTomlValue h = true := by
      cases h with
      | array a => simp [Value.isLeaf] at hl
      | table m => simp [Value.isLeaf] at hl
      | _ => rfl
    have hc : CompareTOML r w h =
        if !deepEqual w h then
          r.fail ("Values for key '" ++ r.Key ++ "' differ:\n" ++
            "  Expected:     (" ++ w.goType ++ ")\n" ++
            "  Your encoder: (" ++ h.goType ++ ")")
        else r := by
      cases w with
      | array a => simp [Value.isLeaf] at hw
      | table m => simp [Value.isLeaf] at hw
      | tableArray ts => simp [Value.isLeaf] at hw
      | _ => simp only [CompareTOML, ht, Bool.not_true, Bool.false_eq_true, if_false]
    rw [hc, hd]
    cases tomlEqual w h
    · simp only [Bool.not_false, if_true]
      exact Failed_fail _ _ (by
        repeat first
          | exact append_ne_empty _ _ (by decide)
          | apply append_ne_empty)
    · simpa using hr
  · have hl' : h.isLeaf = false := by simpa using hl
    have ht : isTomlValue h = false := by
      cases h with
      | array a => rfl
      | table m => rfl
      | tableArray ts => simp [Value.isTree, Value.isLeaf] at hh
      | _ => simp [Value.isLeaf] at hl'
    have hc : CompareTOML r w h =
        r.fail ("Type for key '" ++ r.Key ++ "' differs:\n" ++
          "  Expected:     (" ++ w.goType ++ ")\n" ++
          "  Your encoder: (" ++ h.goType ++ ")") := by
      cases w with
      | array a => simp [Value.isLeaf] at hw
      | table m => simp [Value.isLeaf] at hw
      | tableArray ts => simp [Value.isLeaf] at hw
      | _ => simp only [CompareTOML, ht, Bool.not_false, if_true]
    have he : tomlEqual w h = false := by
      cases w with
      | array a => simp [Value.isLeaf] at hw
      | table m => simp [Value.isLeaf] at hw
      | tableArray ts => simp [Value.isLeaf] at hw
      | _ => simp [tomlEqual, hl']
    rw [hc, he]
    exact Failed_fail _ _ (by
      repeat first
        | exact append_ne_empty _ _ (by decide)
        | apply append_ne_empty)

/-- A key is missing from a map exactly when not every key is in it. -/
theorem missingKey_eq_none (a b : List (String × Value)) :
    missingKey a b = none ↔ keysIn a b = true := by
  unfold missingKey keysIn
  rw [List.find?_eq_none, List.all_eq_true]
  constructor
  · intro h k hk
    have := h k hk
    simp only [Table.get?, Option.isNone_iff_eq_none, ← ne_eq, Option.ne_none_iff_isSome] at this
    have hin : tag.in_ k b = true := this
    simpa [Table.keys] using (tag.in_iff_mem_keys k b).mp hin
  · intro h k hk
    have := h k hk
    have hin : tag.in_ k b = true :=
      (tag.in_iff_mem_keys k b).mpr (by simpa [Table.keys] using this)
    simp only [tag.in_] at hin
    simp only [Option.isNone_iff_eq_none, decide_eq_true_eq]
    intro hn
    rw [hn] at hin
    simp at hin

/-- The value of a map of trees at any key is a tree: the value of an entry,
or nil. -/
theorem isTree_get (b : List (String × Value)) (k : String)
    (hb : Value.isTreeEntries Value.isLeaf b = true) :
    (Table.get b k).isTree Value.isLeaf = true := by
  induction b with
  | nil => rfl
  | cons e rest ih =>
    obtain ⟨k', x⟩ := e
    simp only [Value.isTreeEntries, Bool.and_eq_true] at hb
    simp only [Table.get, List.lookup_cons]
    cases hk : k == k'
    · exact ih hb.2
    · exact hb.1

/-- The value loop of `cmpTOMLMap` finds a failure exactly when the values
of `want` are not all equal to the values of `haveMap` at their keys, and
what it finds has failed. -/
theorem cmpTOMLMapValues_spec (haveMap : List (String × Value))
    (hh : Value.isTreeEntries Value.isLeaf haveMap = true) :
    ∀ (want : List (String × Value)) (r : Test), r.Failed = false →
      (∀ e ∈ want, ∀ (h : Value) (r' : Test), r'.Failed = false →
        h.isTree Value.isLeaf = true → (CompareTOML r' e.2 h).Failed = !tomlEqual e.2 h) →
      (match cmpTOMLMapValues r want haveMap with
        | some sub => sub
        | none => r).Failed = !tomlEqualAt want haveMap
  | [], r, hr, _ => by simpa [cmpTOMLMapValues, tomlEqualAt] using hr
  | (k, x) :: rest, r, hr, h => by
    have hk : (r.kjoin k).Failed = false := by rw [Failed_kjoin]; exact hr
    have h1 := h (k, x) (List.mem_cons_self _ _) (Table.get haveMap k) (r.kjoin k) hk
      (isTree_get haveMap k hh)
    simp only at h1
    have ih := cmpTOMLMapValues_spec haveMap hh rest r hr
      (fun e he => h e (List.mem_cons_of_mem _ he))
    rw [cmpTOMLMapValues, tomlEqualAt]
    simp only [h1]
    cases hx : tomlEqual x (Table.get haveMap k)
    · simp only [Bool.not_false, if_true, Bool.false_and]
      rw [h1, hx]
      rfl
    · simp only [Bool.not_true, Bool.false_eq_true, if_false, Bool.true_and]
      exact ih

/-- The loop of `cmpTOMLArrays` over two slices of the same length finds a
failure exactly when the elements are not all equal, and what it finds has
failed. -/
theorem cmpTOMLArrayValues_spec :
    ∀ (want haveSlice : List Value) (r : Test), r.Failed = false →
      want.length = haveSlice.length →
      Value.isTreeList Value.isLeaf haveSlice = true →
      (∀ x ∈ want, ∀ (h : Value) (r' : Test), r'.Failed = false →
        h.isTree Value.isLeaf = true → (CompareTOML r' x h).Failed = !tomlEqual x h) →
      (match cmpTOMLArrayValues r want haveSlice with
        | some sub => sub
        | none => r).Failed = !tomlEqualEach want haveSlice
  | [], _, r, hr, _, _, _ => by simpa [cmpTOMLArrayValues, tomlEqualEach] using hr
  | x :: rest, [], r, hr, hlen, _, _ => by simp at hlen
  | x :: rest, y :: ys, r, hr, hlen, hh, h => by
    simp only [Value.isTreeList, Bool.and_eq_true] at hh
    have h1 := h x (List.mem_cons_self _ _) y r hr hh.1
    have ih := cmpTOMLArrayValues_spec rest ys r hr (by simpa using hlen) hh.2
      (fun e he => h e (List.mem_cons_of_mem _ he))
    rw [cmpTOMLArrayValues, tomlEqualEach]
    simp only [List.headD_cons, List.tail_cons, h1]
    cases hx : tomlEqual x y
    · simp only [Bool.not_false, if_true, Bool.false_and]
      rw [h1, hx]
      rfl
    · simp only [Bool.not_true, Bool.false_eq_true, if_false, Bool.true_and]
      exact ih

/-- A mismatch is a failure. -/
theorem Failed_mismatch (r : Test) (wantType : String) (w h : Value) :
    (r.mismatch wantType w h).Failed = true := by
  unfold Test.mismatch
  exact Failed_fail _ _ (by
    repeat first
      | exact append_ne_empty _ _ (by decide)
      | apply append_ne_empty)

/-- An array against a value that is no array: a mismatch, and not equal. -/
theorem CompareTOML_array_other (r : Test) (a : List Value) (h : Value)
    (hh : h.isTree Value.isLeaf = true) (hne : ∀ b, h ≠ .array b) :
    (CompareTOML r (.array a) h).Failed = true ∧ tomlEqual (.array a) h = false := by
  cases h with
  | array b => exact absurd rfl (hne b)
  | tableArray ts => simp [Value.isTree, Value.isLeaf] at hh
  | _ => exact ⟨by simp only [CompareTOML]; exact Failed_mismatch _ _ _ _, rfl⟩

/-- A table against a value that is no table: a mismatch, and not equal. -/
theorem CompareTOML_table_other (r : Test) (m : List (String × Value)) (h : Value)
    (hne : ∀ n, h ≠ .table n) :
    (CompareTOML r (.table m) h).Failed = true ∧ tomlEqual (.table m) h = false := by
  cases h with
  | table n => exact absurd rfl (hne n)
  | _ => exact ⟨by simp only [CompareTOML]; exact Failed_mismatch _ _ _ _, rfl⟩

/-- C11: `CompareTOML` reports a failure exactly when the two structures
differ. For every `Test` that has not failed and all values `want` and
`have` built from tables, arrays and scalar leaves, the returned `Test` has
failed if and only if `want` and `have` are not structurally equal. -/
theorem C11_CompareTOML_failed_iff (r : Test) (want have_ : Value)
    (hr : r.Failed = false)
    (hw : want.isTree Value.isLeaf = true)
    (hh : have_.isTree Value.isLeaf = true) :
    (CompareTOML r want have_).Failed = !tomlEqual want have_ := by
  revert r have_
  revert hw
  refine Value.induct
    (P := fun want => want.isTree Value.isLeaf = true →
      ∀ (r : Test) (have_ : Value), r.Failed = false → have_.isTree Value.isLeaf = true →
        (CompareTOML r want have_).Failed = !tomlEqual want have_)
    ?_ ?_ ?_ ?_ want
  · intro w hleaf _ r h hr hh
    exact CompareTOML_leaf r w h hr hleaf hh
  · intro a ih hw r h hr hh
    have hw' := isTreeList_mem _ a (by simpa [Value.isTree] using hw)
    by_cases harr : ∃ b, h = .array b
    · obtain ⟨b, rfl⟩ := harr
      have hb : Value.isTreeList Value.isLeaf b = true := by simpa [Value.isTree] using hh
      simp only [CompareTOML, tomlEqual]
      by_cases hlen : a.length = b.length
      · have hspec := cmpTOMLArrayValues_spec a b r hr hlen hb
          (fun x hx h' r' hr' hh' => ih x hx (hw' x hx) r' h' hr' hh')
        simp only [hlen, bne_self_eq_false, Bool.false_eq_true, if_false, beq_self_eq_true,
          Bool.true_and]
        exact hspec
      · have hne : (a.length != b.length) = true := by simpa using hlen
        have hbeq : (a.length == b.length) = false := by simpa using hlen
        simp only [hne, if_true, hbeq, Bool.false_and, Bool.not_false]
        exact Failed_fail _ _ (by
          repeat first
            | exact append_ne_empty _ _ (by decide)
            | apply append_ne_empty)
    · obtain ⟨h1, h2⟩ := CompareTOML_array_other r a h hh (fun b hb => harr ⟨b, hb⟩)
      rw [h1, h2]
      rfl
  · intro ts _ hw
    simp [Value.isTree, Value.isLeaf] at hw
  · intro m ih hw r h hr hh
    have hw' := isTreeEntries_mem _ m (by simpa [Value.isTree] using hw)
    by_cases htab : ∃ n, h = .table n
    · obtain ⟨n, rfl⟩ := htab
      have hn : Value.isTreeEntries Value.isLeaf n = true := by simpa [Value.isTree] using hh
      simp only [CompareTOML, tomlEqual]
      cases h1 : missingKey m n with
      | some k =>
        have : keysIn m n = false := by
          cases hk : keysIn m n with
          | false => rfl
          | true => rw [(missingKey_eq_none m n).mpr hk] at h1; cases h1
        simp only [this, Bool.false_and, Bool.not_false]
        exact Failed_fail _ _ (by
          repeat first
            | exact append_ne_empty _ _ (by decide)
            | apply append_ne_empty)
      | none =>
        have hk1 := (missingKey_eq_none m n).mp h1
        cases h2 : missingKey n m with
        | some k =>
          have : keysIn n m = false := by
            cases hk : keysIn n m with
            | false => rfl
            | true => rw [(missingKey_eq_none n m).mpr hk] at h2; cases h2
          simp only [this, Bool.and_false, Bool.false_and, Bool.not_false]
          exact Failed_fail _ _ (by
            repeat first
              | exact append_ne_empty _ _ (by decide)
              | apply append_ne_empty)
        | none =>
          have hk2 := (missingKey_eq_none n m).mp h2
          simp only [hk1, hk2, Bool.true_and]
          exact cmpTOMLMapValues_spec n hn m r hr
            (fun e he h' r' hr' hh' => ih e he (hw' e he) r' h' hr' hh')
    · obtain ⟨h1, h2⟩ := CompareTOML_table_other r m h (fun n hn => htab ⟨n, hn⟩)
      rw [h1, h2]
      rfl

/-- C11 at two tables that differ in one nested leaf, which are not equal, and
at two tables that are equal up to the order of their keys and hold a NaN
each. -/
theorem C11_CompareTOML_failed_iff_witness :
    ((CompareTOML ⟨"", ""⟩
        (.table [("a", .int 1), ("b", .array [.str "x"])])
        (.table [("a", .int 1), ("b", .array [.str "y"])])).Failed
      = !tomlEqual
        (.table [("a", .int 1), ("b", .array [.str "x"])])
        (.table [("a", .int 1), ("b", .array [.str "y"])])
      ∧ tomlEqual
        (.table [("a", .int 1), ("b", .array [.str "x"])])
        (.table [("a", .int 1), ("b", .array [.str "y"])]) = false)
    ∧ ((CompareTOML ⟨"", ""⟩
        (.table [("a", .int 1), ("b", .float ⟨0x7ff8000000000000⟩)])
        (.table [("b", .float ⟨0x7ff8000000000001⟩), ("a", .int 1)])).Failed
      = !tomlEqual
        (.table [("a", .int 1), ("b", .float ⟨0x7ff8000000000000⟩)])
        (.table [("b", .float ⟨0x7ff8000000000001⟩), ("a", .int 1)])
      ∧ tomlEqual
        (.table [("a", .int 1), ("b", .float ⟨0x7ff8000000000000⟩)])
        (.table [("b", .float ⟨0x7ff8000000000001⟩), ("a", .int 1)]) = true) :=
  ⟨⟨C11_CompareTOML_failed_iff _ _ _ (by decide) (by decide) (by decide), by decide⟩,
    ⟨C11_CompareTOML_failed_iff _ _ _ (by decide) (by decide) (by decide), by decide⟩⟩

end tomltest

namespace toml

open Go

/-- C12: `DecodeFS` is just like `Decode` on the contents of the file. For
every file system, path and destination and for every decoder: if the path
opens, `DecodeFS` returns exactly the metadata and the error, and leaves the
destination, that decoding the contents of that file into the destination
does; if the path cannot be opened it returns empty metadata and the error of
the open and leaves the destination unchanged. With the decoder of the
specification, a file holding `a = 42` decoded into a record with the field
`A` gives `A = 42`, `Keys() = [a]` and `Type("a") = Integer`, and no
error. -/
theorem C12_DecodeFS (Decode : String → Shape → Dest → Decoded) (fsys : FS) (path : String)
    (sh : Shape) (v : Dest) :
    (∀ contents : String, fsys.Open path = .ok contents →
        DecodeFS Decode fsys path sh v = Decode contents sh v)
      ∧ (∀ err : DecodeError, fsys.Open path = .error err →
        DecodeFS Decode fsys path sh v = ⟨MetaData.empty, some err, v⟩
          ∧ (DecodeFS Decode fsys path sh v).dest = v
          ∧ (DecodeFS Decode fsys path sh v).md.Keys = [])
      ∧ ((MapFS [("test.toml", "a = 42")]).Open "test.toml" = .ok "a = 42"
        ∧ (DecodeFS toml.Decode (MapFS [("test.toml", "a = 42")]) "test.toml" structA
            structA.zero).dest = .record [.int 42]
        ∧ (DecodeFS toml.Decode (MapFS [("test.toml", "a = 42")]) "test.toml" structA
            structA.zero).md.Keys = [["a"]]
        ∧ (DecodeFS toml.Decode (MapFS [("test.toml", "a = 42")]) "test.toml" structA
            structA.zero).md.Type ["a"] = some tomlInteger
        ∧ (DecodeFS toml.Decode (MapFS [("test.toml", "a = 42")]) "test.toml" structA
            structA.zero).err = none
        ∧ DecodeFS toml.Decode (MapFS [("test.toml", "a = 42")]) "missing.toml" structA
            structA.zero =
          ⟨MetaData.empty, some (.PathError "missing.toml" "file does not exist"),
            structA.zero⟩) := by
  refine ⟨?_, ?_, rfl, rfl, rfl, rfl, rfl, rfl⟩
  · intro contents h
    simp only [DecodeFS, h]
  · intro err h
    simp only [DecodeFS, h, MetaData.Keys, MetaData.empty, List.map_nil, and_self]

end toml

namespace toml

open Go

mutual
/-- Induction on shapes. -/
theorem Shape.shape_induct {P : Shape → Prop}
    (hprim : ∀ p, P (.primitive p))
    (hseq : ∀ elem, P elem → P (.sequence elem))
    (hrec : ∀ fields : List (Field × Shape), (∀ p ∈ fields, P p.2) → P (.record fields)) :
    ∀ sh : Shape, P sh
  | .primitive p => hprim p
  | .sequence elem => hseq elem (Shape.shape_induct hprim hseq hrec elem)
  | .record fields => hrec fields (Shape.shape_induct_fields hprim hseq hrec fields)
/-- Induction on shapes, for the fields of a record. -/
theorem Shape.shape_induct_fields {P : Shape → Prop}
    (hprim : ∀ p, P (.primitive p))
    (hseq : ∀ elem, P elem → P (.sequence elem))
    (hrec : ∀ fields : List (Field × Shape), (∀ p ∈ fields, P p.2) → P (.record fields)) :
    ∀ fields : List (Field × Shape), ∀ p ∈ fields, P p.2
  | [] => fun _ h => by cases h
  | (f, sh) :: rest => fun p h => by
    rcases List.mem_cons.mp h with h | h
    · exact h ▸ Shape.shape_induct hprim hseq hrec sh
    · exact Shape.shape_induct_fields hprim hseq hrec rest p h
end

/-- A key path into a record resolves when its first key is matched by a
field and the rest resolves in the shape of that field. -/
theorem resolves_record (fields : List (Field × Shape)) (key : String) (rest : List String) :
    (Shape.record fields).resolves (key :: rest) =
      match findField fields key with
      | some i => (shapeAt fields i).resolves rest
      | none => false := by
  rw [Shape.resolves]
  rfl

/-- A key path resolves in a sequence as it does in its elements. -/
theorem resolves_sequence (elem : Shape) (p : List String) :
    (Shape.sequence elem).resolves p = elem.resolves p := by
  cases p with
  | nil => rfl
  | cons k rest =>
    rw [Shape.resolves, Shape.resolves]
    rfl

/-- The coercion of a scalar consumes no key. -/
theorem keysOf_leaf (v : Value) (h : v.isLeaf = true) : keysOf v = [] := by
  cases v <;> first | rfl | simp [Value.isLeaf] at h

/-- Filtering key paths below a key is filtering the paths under it. -/
theorem filter_map_cons (k : String) (q p : List String → Bool)
    (h : ∀ x, q (k :: x) = p x) :
    ∀ l : List (List String), (l.map (k :: ·)).filter q = (l.filter p).map (k :: ·)
  | [] => rfl
  | x :: l => by
    simp only [List.map_cons, List.filter_cons, h x]
    cases p x
    · simpa using filter_map_cons k q p h l
    · simpa using filter_map_cons k q p h l

/-- A key that no field matches is passed over. -/
theorem decodeFields_cons_none (path : List String) (fields : List (Field × Shape))
    (ds : List Dest) (k : String) (v : Value) (rest : List (String × Value))
    (hf : findField fields k = none) :
    decodeFields path fields ds ((k, v) :: rest) = decodeFields path fields ds rest := by
  rw [decodeFields]
  simp only [hf]

/-- A key that a field matches is decoded into that field. -/
theorem decodeFields_cons_some (path : List String) (fields : List (Field × Shape))
    (ds : List Dest) (k : String) (v : Value) (rest : List (String × Value)) (i : Nat)
    (hf : findField fields k = some i) :
    decodeFields path fields ds ((k, v) :: rest) =
      (decodeNode (path ++ [k]) (shapeAt fields i) (ds.getD i (.record [])) v).bind (fun r =>
        (decodeFields path fields (ds.set i r.1) rest).bind (fun r' =>
          .ok (r'.1, ([k] :: r.2.map (k :: ·)) ++ r'.2))) := by
  rw [decodeFields]
  simp only [hf]
  rfl

/-- The fields of a record consume exactly the keys that they match. -/
theorem decodeFields_consumed (fields : List (Field × Shape)) :
    ∀ (es : List (String × Value)),
      (∀ e ∈ es, ∀ (path : List String) (sh : Shape) (d d' : Dest) (consumed : List (List String)),
        decodeNode path sh d e.2 = .ok (d', consumed) →
        consumed = ((keysOf e.2).map Prod.fst).filter sh.resolves) →
      ∀ (path : List String) (ds ds' : List Dest) (consumed : List (List String)),
        decodeFields path fields ds es = .ok (ds', consumed) →
        consumed = ((keysOfEntries es).map Prod.fst).filter (Shape.record fields).resolves
  | [], _, path, ds, ds', consumed, h => by
    simp only [decodeFields, pure, Except.pure, Except.ok.injEq, Prod.mk.injEq] at h
    simp [keysOfEntries, h.2.symm]
  | (k, v) :: rest, ih, path, ds, ds', consumed, h => by
    have ihrest := decodeFields_consumed fields rest
      (fun e he => ih e (List.mem_cons_of_mem _ he))
    have hmap : (keysOfEntries ((k, v) :: rest)).map Prod.fst =
        ([k] :: ((keysOf v).map Prod.fst).map (k :: ·)) ++ (keysOfEntries rest).map Prod.fst := by
      simp [keysOfEntries, List.map_map, Function.comp]
    rw [hmap, List.filter_append]
    cases hf : findField fields k with
    | none =>
      rw [decodeFields_cons_none path fields ds k v rest hf] at h
      have hrest := ihrest path ds ds' consumed h
      have hnone : ∀ p, (Shape.record fields).resolves (k :: p) = false := by
        intro p
        rw [resolves_record, hf]
      have : List.filter (Shape.record fields).resolves
          ([k] :: ((keysOf v).map Prod.fst).map (k :: ·)) = [] := by
        rw [List.filter_eq_nil_iff]
        intro p hp
        rcases List.mem_cons.mp hp with hp | hp
        · subst hp; simp [hnone]
        · obtain ⟨q, _, rfl⟩ := List.mem_map.mp hp
          simp [hnone]
      rw [this, List.nil_append]
      exact hrest
    | some i =>
      rw [decodeFields_cons_some path fields ds k v rest i hf] at h
      cases hv : decodeNode (path ++ [k]) (shapeAt fields i) (ds.getD i (.record [])) v with
      | error e =>
        rw [hv] at h
        cases h
      | ok r =>
        obtain ⟨d, below⟩ := r
        rw [hv] at h
        cases hr : decodeFields path fields (ds.set i d) rest with
        | error e =>
          simp only [Except.bind, hr] at h
          cases h
        | ok r' =>
          obtain ⟨ds'', cons'⟩ := r'
          simp only [Except.bind, hr, Except.ok.injEq, Prod.mk.injEq] at h
          have hbelow := ih (k, v) (List.mem_cons_self _ _) _ _ _ _ _ hv
          have hrest := ihrest path _ _ _ hr
          simp only at hbelow
          rw [← h.2, hrest, hbelow]
          congr 1
          have hsome : ∀ p, (Shape.record fields).resolves (k :: p)
              = (shapeAt fields i).resolves p := by
            intro p
            rw [resolves_record, hf]
          rw [List.filter_cons]
          have h1 : (Shape.record fields).resolves [k] = true := by
            rw [hsome]; rfl
          rw [if_pos h1]
          rw [filter_map_cons k _ _ hsome]

/-- The tables of an array of tables consume exactly the keys that the
fields of the element records match. -/
theorem decodeTables_consumed (elem : Shape) :
    ∀ (ts : List (List (String × Value))),
      (∀ t ∈ ts, ∀ e ∈ t, ∀ (path : List String) (sh : Shape) (d d' : Dest)
          (consumed : List (List String)),
        decodeNode path sh d e.2 = .ok (d', consumed) →
        consumed = ((keysOf e.2).map Prod.fst).filter sh.resolves) →
      ∀ (path : List String) (olds ds' : List Dest) (consumed : List (List String)),
        decodeTables path elem olds ts = .ok (ds', consumed) →
        consumed = ((keysOfTables ts).map Prod.fst).filter (Shape.sequence elem).resolves
  | [], _, path, olds, ds', consumed, h => by
    simp only [decodeTables, pure, Except.pure, Except.ok.injEq, Prod.mk.injEq] at h
    simp [keysOfTables, h.2.symm]
  | t :: rest, ih, path, olds, ds', consumed, h => by
    have ihrest := decodeTables_consumed elem rest
      (fun t' ht' => ih t' (List.mem_cons_of_mem _ ht'))
    have hseq : (Shape.sequence elem).resolves = elem.resolves :=
      funext (resolves_sequence elem)
    rw [hseq] at ihrest ⊢
    cases elem with
    | primitive p =>
      simp only [decodeTables, throw, throwThe, MonadExceptOf.throw] at h
      cases h
    | sequence inner =>
      simp only [decodeTables, throw, throwThe, MonadExceptOf.throw] at h
      cases h
    | record fields =>
      rw [decodeTables] at h
      simp only [bind, Except.bind] at h
      cases ht : decodeFields path fields
          (Dest.fieldsOr (olds.headD (Shape.record fields).zero) fields) t with
      | error e =>
        rw [ht] at h
        cases h
      | ok r =>
        obtain ⟨ds, below⟩ := r
        rw [ht] at h
        cases hr : decodeTables path (Shape.record fields) olds.tail rest with
        | error e =>
          simp only [hr] at h
          cases h
        | ok r' =>
          obtain ⟨more, cons'⟩ := r'
          simp only [hr, pure, Except.pure, Except.ok.injEq, Prod.mk.injEq] at h
          have hbelow := decodeFields_consumed fields t (ih t (List.mem_cons_self _ _)) _ _ _ _ ht
          have hrest := ihrest path _ _ _ hr
          rw [← h.2, hbelow, hrest]
          simp [keysOfTables]

/-- The elements of an array consume exactly the keys that the fields of the
element shape match. -/
theorem decodeElems_consumed (elem : Shape) :
    ∀ (xs : List Value),
      (∀ x ∈ xs, ∀ (path : List String) (sh : Shape) (d d' : Dest)
          (consumed : List (List String)),
        decodeNode path sh d x = .ok (d', consumed) →
        consumed = ((keysOf x).map Prod.fst).filter sh.resolves) →
      ∀ (path : List String) (olds ds' : List Dest) (consumed : List (List String)),
        decodeElems path elem olds xs = .ok (ds', consumed) →
        consumed = ((keysOfList xs).map Prod.fst).filter (Shape.sequence elem).resolves
  | [], _, path, olds, ds', consumed, h => by
    simp only [decodeElems, pure, Except.pure, Except.ok.injEq, Prod.mk.injEq] at h
    simp [keysOfList, h.2.symm]
  | x :: rest, ih, path, olds, ds', consumed, h => by
    have ihrest := decodeElems_consumed elem rest
      (fun x' hx' => ih x' (List.mem_cons_of_mem _ hx'))
    have hseq : (Shape.sequence elem).resolves = elem.resolves :=
      funext (resolves_sequence elem)
    rw [hseq] at ihrest ⊢
    rw [decodeElems] at h
    simp only [bind, Except.bind] at h
    cases hx : decodeNode path elem (olds.headD elem.zero) x with
    | error e =>
      rw [hx] at h
      cases h
    | ok r =>
      obtain ⟨d, below⟩ := r
      rw [hx] at h
      cases hr : decodeElems path elem olds.tail rest with
      | error e =>
        simp only [hr] at h
        cases h
      | ok r' =>
        obtain ⟨more, cons'⟩ := r'
        simp only [hr, pure, Except.pure, Except.ok.injEq, Prod.mk.injEq] at h
        have hbelow := ih x (List.mem_cons_self _ _) _ _ _ _ _ hx
        have hrest := ihrest path _ _ _ hr
        rw [← h.2, hbelow, hrest]
        simp [keysOfList]

/-- A decode consumes exactly the keys of the tree that the fields of the
destination match. -/
theorem decodeNode_consumed (tree : Value) :
    ∀ (path : List String) (sh : Shape) (d d' : Dest) (consumed : List (List String)),
      decodeNode path sh d tree = .ok (d', consumed) →
      consumed = ((keysOf tree).map Prod.fst).filter sh.resolves := by
  induction tree using Value.induct with
  | hleaf v hv =>
    intro path sh d d' consumed h
    rw [keysOf_leaf v hv]
    cases v with
    | array a => simp [Value.isLeaf] at hv
    | table t => simp [Value.isLeaf] at hv
    | tableArray t => simp [Value.isLeaf] at hv
    | _ =>
      simp only [decodeNode, bind, Except.bind, pure, Except.pure] at h
      split at h
      · cases h
      · simp only [Except.ok.injEq, Prod.mk.injEq] at h
        simp [h.2.symm]
  | harray xs ih =>
    intro path sh d d' consumed h
    cases sh with
    | primitive p => simp only [decodeNode, throw, throwThe, MonadExceptOf.throw] at h; cases h
    | record fields => simp only [decodeNode, throw, throwThe, MonadExceptOf.throw] at h; cases h
    | sequence elem =>
      simp only [decodeNode, bind, Except.bind, pure, Except.pure] at h
      split at h
      · cases h
      · rename_i r hr
        simp only [Except.ok.injEq, Prod.mk.injEq] at h
        rw [← h.2]
        simpa only [keysOf] using decodeElems_consumed elem xs ih _ _ _ _ hr
  | htables ts ih =>
    intro path sh d d' consumed h
    cases sh with
    | primitive p => simp only [decodeNode, throw, throwThe, MonadExceptOf.throw] at h; cases h
    | record fields => simp only [decodeNode, throw, throwThe, MonadExceptOf.throw] at h; cases h
    | sequence elem =>
      simp only [decodeNode, bind, Except.bind, pure, Except.pure] at h
      split at h
      · cases h
      · rename_i r hr
        simp only [Except.ok.injEq, Prod.mk.injEq] at h
        rw [← h.2]
        simpa only [keysOf] using decodeTables_consumed elem ts ih _ _ _ _ hr
  | htable es ih =>
    intro path sh d d' consumed h
    cases sh with
    | primitive p => simp only [decodeNode, throw, throwThe, MonadExceptOf.throw] at h; cases h
    | sequence elem => simp only [decodeNode, throw, throwThe, MonadExceptOf.throw] at h; cases h
    | record fields =>
      simp only [decodeNode, bind, Except.bind, pure, Except.pure] at h
      split at h
      · cases h
      · rename_i r hr
        simp only [Except.ok.injEq, Prod.mk.injEq] at h
        rw [← h.2]
        simpa only [keysOf] using decodeFields_consumed fields es ih _ _ _ _ hr

/-- Filtering a list by not being among the members that pass a test is
filtering by the failure of the test. -/
theorem filter_not_contains (l : List (List String)) (p : List String → Bool) :
    l.filter (fun x => !(l.filter p).contains x) = l.filter (fun x => !p x) := by
  apply List.filter_congr
  intro x hx
  cases hp : p x
  · simp [List.mem_filter, hp]
  · simp [List.mem_filter, hp, hx]

/-- The keys that a successful decode reports as undecoded are the keys of the
tree that no field of the destination matches. -/
theorem decodeTree_undecoded (tree : Value) (sh : Shape) (d : Dest)
    (h : (decodeTree tree sh d).err = none) :
    (decodeTree tree sh d).md.Undecoded = unmatchedKeys sh tree := by
  unfold decodeTree at h ⊢
  cases hd : decodeNode [] sh d tree with
  | error e => simp [hd] at h
  | ok r =>
    obtain ⟨d', consumed⟩ := r
    have hc := decodeNode_consumed tree _ _ _ _ _ hd
    simp only [MetaData.Undecoded, unmatchedKeys, hc]
    exact filter_not_contains _ _

end toml

namespace toml

open Go

end toml

namespace markup

open Go toml

end markup

namespace markup

open Go toml

/-- The value of a field in a fresh record is the zero value of its shape. -/
theorem zeros_append (f : Field) (sh : Shape) (after : List (Field × Shape)) :
    ∀ before : List (Field × Shape),
      Shape.zeros (before ++ (f, sh) :: after)
        = Shape.zeros before ++ sh.zero :: Shape.zeros after
  | [] => by simp [Shape.zeros]
  | (_, _) :: rest => by simp [Shape.zeros, zeros_append f sh after rest]

end markup

namespace toml

open Go

end toml

namespace toml

open Go

end toml

namespace toml

open Go

end toml

namespace markup

open Go toml

end markup

namespace markup

open Go toml

/-- A file whose name has the extension of its format, or none of the
extensions, is decoded as a file of its format. -/
theorem processFile_named (sh : Shape) (config : Dest) (file : File) (strict : Bool)
    (h : file.named = true) :
    processFile sh config file strict = unmarshal file.format file.tree sh config strict := by
  unfold File.named at h
  unfold processFile
  cases hext : extensionFormat file.name with
  | none => rfl
  | some format =>
    rw [hext] at h
    simp only [decide_eq_true_eq] at h
    simp only [h, if_true]

/-- The load of one file whose name fits its format: the decode of the file,
then the directives. -/
theorem load_single (configure : Configure) (overlay : Overlay) (sh : Shape) (config : Dest)
    (file : File) (h : file.named = true) :
    configure.load overlay sh config [file] =
      match unmarshal file.format file.tree sh config configure.GetErrorOnUnmatchedKeys with
      | (config', some err) => (config', some err)
      | (config', none) =>
        match processTags overlay sh [] config' with
        | .ok config'' => (config'', none)
        | .error err => (config', some err) := by
  simp only [Configure.load, processFiles, processFile_named sh config file _ h]
  cases unmarshal file.format file.tree sh config configure.GetErrorOnUnmatchedKeys with
  | mk config' e =>
    cases e with
    | some err => rfl
    | none => rfl

/-- The strict load of a TOML file whose keys are all matched returns no
error, and a TOML file with an unmatched key whose matched key has the wrong
kind fails with the type error of the decode, not with the unmatched keys. -/
theorem C13_strict_load_other_outcomes :
    unmatchedKeys configStruct (.table [("Name", .str "test")]) = []
      ∧ (Configure.Load (newConfigure true) noOverlay configStruct (.pointer configStruct.zero)
        [⟨"bhojpur.toml", .toml, .table [("Name", .str "test")]⟩]).2 = none
      ∧ unmatchedKeys configStruct (.table [("Name", .int 1), ("Test", .str "ATest")]) = [["Test"]]
      ∧ (Configure.Load (newConfigure true) noOverlay configStruct (.pointer configStruct.zero)
        [⟨"bhojpur.toml", .toml, .table [("Name", .int 1), ("Test", .str "ATest")]⟩]).2
          = some (.decode (.TypeMismatchError ["Name"] "String" "Integer")) :=
  ⟨rfl, rfl, rfl, rfl⟩

/-- C13: strict-mode exhaustiveness. The strict decode of the text with the
keys a, b and c into a destination that declares only the field A fails with
an unmatched-keys error that lists b and c, in this order. Through the
loader: when ErrorOnUnmatchedKeys is set, the file is a TOML file under a
name with the extension `.toml` or without extension, it decodes into the
destination and some key of it is matched by no destination field, Load
fails with an UnmatchedTomlKeysError whose keys are exactly the keys of the
file that no destination field matches, at every depth of tables, of arrays
of tables and of tables in arrays, in discovery order. For the file with the
keys Name and Test and the destination with the one field Name these are the
one key Test, under either name; for a file with an array that holds a table
with an unmatched key and with an unmatched key at the top, these are the
key in the array, under the key of the array, and the key at the top. -/
theorem C13_strict_unmatched_keys (configure : Configure) (overlay : Overlay) (sh : Shape)
    (config : Dest) (file : File)
    (hstrict : configure.GetErrorOnUnmatchedKeys = true)
    (htoml : file.format = .toml)
    (hname : file.named = true)
    (hdecodes : (decodeTree file.tree sh config).err = none)
    (hunmatched : unmatchedKeys sh file.tree ≠ []) :
    (Configure.Load configure overlay sh (.pointer config) [file]).2
        = some (.UnmatchedTomlKeysError (unmatchedKeys sh file.tree))
      ∧ (parse "a = 1\nb = 2\nc = 3"
          = some (.table [("a", .int 1), ("b", .int 2), ("c", .int 3)])
        ∧ (decodeStrict (.table [("a", .int 1), ("b", .int 2), ("c", .int 3)]) structA
            structA.zero).err = some (.UnmatchedKeysError [["b"], ["c"]]))
      ∧ ((Configure.Load (newConfigure true) noOverlay configStruct (.pointer configStruct.zero)
          [⟨"/tmp/bhojpur", .toml, configFile⟩]).2 = some (.UnmatchedTomlKeysError [["Test"]])
        ∧ (Configure.Load (newConfigure true) noOverlay configStruct
            (.pointer configStruct.zero)
            [⟨"/tmp/bhojpur.toml", .toml, configFile⟩]).2
          = some (.UnmatchedTomlKeysError [["Test"]]))
      ∧ ((Configure.Load (newConfigure true) noOverlay itemsStruct (.pointer itemsStruct.zero)
          [⟨"items.toml", .toml,
            .table [("items", .array [.table [("name", .str "x"), ("extra", .int 1)]]),
              ("top", .int 3)]⟩]).2
          = some (.UnmatchedTomlKeysError [["items", "extra"], ["top"]])
        ∧ (Configure.Load (newConfigure true) noOverlay itemsStruct (.pointer itemsStruct.zero)
          [⟨"items.toml", .toml,
            .table [("items", .tableArray [[("name", .str "x"), ("extra", .int 1)]]),
              ("top", .int 3)]⟩]).2
          = some (.UnmatchedTomlKeysError [["items", "extra"], ["top"]])) := by
  refine ⟨?_, ⟨rfl, rfl⟩, ⟨rfl, rfl⟩, ⟨rfl, rfl⟩⟩
  have hun := decodeTree_undecoded file.tree sh config hdecodes
  have hne : (unmatchedKeys sh file.tree).isEmpty = false := by
    cases h : unmatchedKeys sh file.tree with
    | nil => exact absurd h hunmatched
    | cons a l => rfl
  simp only [Configure.Load, load_single configure overlay sh config file hname, htoml,
    unmarshal, unmarshalToml, hdecodes, hun, hne, hstrict, Bool.not_false, Bool.and_self,
    if_true]

/-- The hypotheses of `C13_strict_unmatched_keys` hold for the file and the
destination of the tests. -/
theorem C13_strict_unmatched_keys_witness :
    (newConfigure true).GetErrorOnUnmatchedKeys = true
      ∧ (⟨"/tmp/bhojpur", .toml, configFile⟩ : File).format = .toml
      ∧ (⟨"/tmp/bhojpur", .toml, configFile⟩ : File).named = true
      ∧ (decodeTree configFile configStruct configStruct.zero).err = none
      ∧ unmatchedKeys configStruct configFile = [["Test"]]
      ∧ (Configure.Load (newConfigure true) noOverlay configStruct (.pointer configStruct.zero)
        [⟨"/tmp/bhojpur", .toml, configFile⟩]).2
          = some (.UnmatchedTomlKeysError (unmatchedKeys configStruct configFile)) :=
  ⟨rfl, rfl, rfl, rfl, rfl,
    (C13_strict_unmatched_keys (newConfigure true) noOverlay configStruct configStruct.zero
      ⟨"/tmp/bhojpur", .toml, configFile⟩ rfl rfl rfl rfl (by decide)).1⟩

/-- The strict load of the file of the tests on unmatched keys when it is
written in JSON and in YAML, under a name without and with the extension of
the format: the error names the unknown field
(`TestUnmatchedKeyInJsonConfigFile`), or is a type error
(`TestUnmatchedKeyInYamltestConfigFile`). -/
theorem strict_json_yaml :
    (Configure.Load (newConfigure true) noOverlay configStruct (.pointer configStruct.zero)
        [⟨"/tmp/bhojpur", .json, configFile⟩]).2 = some (.unknownField "Test")
      ∧ (Configure.Load (newConfigure true) noOverlay configStruct (.pointer configStruct.zero)
        [⟨"/tmp/bhojpur.json", .json, configFile⟩]).2 = some (.unknownField "Test")
      ∧ (Configure.Load (newConfigure true) noOverlay configStruct (.pointer configStruct.zero)
        [⟨"/tmp/bhojpur", .yaml, configFile⟩]).2 = some (.yamlTypeError [["Test"]])
      ∧ (Configure.Load (newConfigure true) noOverlay configStruct (.pointer configStruct.zero)
        [⟨"/tmp/bhojpur.yaml", .yaml, configFile⟩]).2 = some (.yamlTypeError [["Test"]]) :=
  ⟨rfl, rfl, rfl, rfl⟩

end markup

namespace markup

open Go toml

/-- The fields of a blank record are blank. -/
theorem allBlank_get : ∀ (ds : List Dest) (i : Nat) (d : Dest),
    allBlank ds = true → ds[i]? = some d → isBlank d = true
  | [], i, d, _, h => by simp at h
  | x :: ds, 0, d, hb, h => by
    simp only [allBlank, Bool.and_eq_true] at hb
    simp only [List.getElem?_cons_zero, Option.some.injEq] at h
    rw [← h]
    exact hb.1
  | x :: ds, i + 1, d, hb, h => by
    simp only [allBlank, Bool.and_eq_true] at hb
    simp only [List.getElem?_cons_succ] at h
    exact allBlank_get ds i d hb.2 h

end markup

namespace markup

open Go toml

end markup

namespace markup

open Go toml

end markup

namespace markup

open Go toml

end markup

namespace markup

open Go toml

end markup

namespace markup

open Go toml

end markup

namespace markup

open Go toml

end markup

namespace markup

open Go toml

/-- Where the round trip through the encoder and Load ends otherwise, in the
model: the default configuration of the tests with an empty password of the
database loads with the error of the required field (as
`TestMissingRequiredValue` has it for the file that `json.Marshal` writes);
an unsigned integer above the 64 bits of an Integer node has no node, and
the load of what the encoder emits fails; the default configuration with an
empty name of the application loads with the default of the field in place
of the empty name (as `TestDefaultValue` has it for a file that omits the
name). -/
theorem load_encoding_otherwise :
    (Configure.Load (newConfigure false) noOverlay testConfig (.pointer testConfig.zero)
        [⟨"/tmp/bhojpur.toml", .toml, encodeNode testConfig (generateConfig "bhojpur" "")⟩]).2
        = some (.required "Password")
      ∧ encodeNode (.record [(Field.plain "Count", Shape.uint)])
          (.record [.int 9223372036854775808]) = .table [("Count", .null)]
      ∧ (Configure.Load (newConfigure false) noOverlay
          (.record [(Field.plain "Count", Shape.uint)])
          (.pointer (.record [.int 0]))
          [⟨"/tmp/bhojpur.toml", .toml, encodeNode (.record [(Field.plain "Count", Shape.uint)])
            (.record [.int 9223372036854775808])⟩]).2 ≠ none
      ∧ Configure.Load (newConfigure false) noOverlay testConfig (.pointer testConfig.zero)
          [⟨"/tmp/bhojpur.toml", .toml, encodeNode testConfig (generateConfig "" "bhojpur")⟩]
        = (generateConfig "bhojpur" "bhojpur", none) :=
  ⟨rfl, rfl, by decide, rfl⟩

end markup

namespace tag

open Go

/-- The loop of `Add` over a table returns when `Add` returns on every
entry. -/
theorem AddTable_total (lib : Stdlib) :
    ∀ m : List (String × Value), (∀ e ∈ m, ∀ key, ∃ typed, Add lib key e.2 = .ok typed) →
      ∃ typed, AddTable lib m = .ok typed
  | [], _ => ⟨[], rfl⟩
  | (k, v) :: rest, h => by
    obtain ⟨tv, hv⟩ := h (k, v) (List.mem_cons_self _ _) k
    obtain ⟨typed, hr⟩ := AddTable_total lib rest (fun e he => h e (List.mem_cons_of_mem _ he))
    exact ⟨(k, tv) :: typed, by
      rw [AddTable]
      simp only [hv, hr, bind, Except.bind, pure, Except.pure]⟩

/-- The loop of `Add` over an array returns when `Add` returns on every
element. -/
theorem AddArray_total (lib : Stdlib) :
    ∀ a : List Value, (∀ x ∈ a, ∀ key, ∃ typed, Add lib key x = .ok typed) →
      ∃ typed, AddArray lib a = .ok typed
  | [], _ => ⟨[], rfl⟩
  | v :: rest, h => by
    obtain ⟨tv, hv⟩ := h v (List.mem_cons_self _ _) ""
    obtain ⟨typed, hr⟩ := AddArray_total lib rest (fun e he => h e (List.mem_cons_of_mem _ he))
    exact ⟨tv :: typed, by
      rw [AddArray]
      simp only [hv, hr, bind, Except.bind, pure, Except.pure]⟩

/-- The loop of `Add` over an array of tables returns when `Add` returns on
every entry of every table. -/
theorem AddTables_total (lib : Stdlib) :
    ∀ ts : List (List (String × Value)),
      (∀ m ∈ ts, ∀ e ∈ m, ∀ key, ∃ typed, Add lib key e.2 = .ok typed) →
      ∃ typed, AddTables lib ts = .ok typed
  | [], _ => ⟨[], rfl⟩
  | m :: rest, h => by
    obtain ⟨tv, hv⟩ := AddTable_total lib m (h m (List.mem_cons_self _ _))
    obtain ⟨typed, hr⟩ := AddTables_total lib rest (fun e he => h e (List.mem_cons_of_mem _ he))
    exact ⟨tv :: typed, by
      rw [AddTables]
      simp only [hv, hr, bind, Except.bind, pure, Except.pure]⟩

/-- The values of a table that is a document are documents. -/
theorem isDocumentEntries_mem :
    ∀ m : List (String × Value), isDocumentEntries m = true → ∀ e ∈ m, isDocument e.2 = true
  | [], _, _, he => by cases he
  | (_, v) :: rest, h, e, he => by
    simp only [isDocumentEntries, Bool.and_eq_true] at h
    rcases List.mem_cons.mp he with he | he
    · rw [he]; exact h.1
    · exact isDocumentEntries_mem rest h.2 e he

/-- The elements of an array that is a document are documents. -/
theorem isDocumentList_mem :
    ∀ a : List Value, isDocumentList a = true → ∀ x ∈ a, isDocument x = true
  | [], _, _, he => by cases he
  | v :: rest, h, e, he => by
    simp only [isDocumentList, Bool.and_eq_true] at h
    rcases List.mem_cons.mp he with he | he
    · rw [he]; exact h.1
    · exact isDocumentList_mem rest h.2 e he

/-- The tables of an array of tables that is a document hold documents. -/
theorem isDocumentTables_mem :
    ∀ ts : List (List (String × Value)), isDocumentTables ts = true →
      ∀ m ∈ ts, ∀ e ∈ m, isDocument e.2 = true
  | [], _, _, hm => by cases hm
  | t :: rest, h, m, hm => by
    simp only [isDocumentTables, Bool.and_eq_true] at h
    rcases List.mem_cons.mp hm with hm | hm
    · rw [hm]; exact isDocumentEntries_mem t h.1
    · exact isDocumentTables_mem rest h.2 m hm

/-- `Add` returns on every document. -/
theorem Add_total (lib : Stdlib) (v : Value) :
    isDocument v = true → ∀ key, ∃ typed, Add lib key v = .ok typed := by
  induction v using Value.induct with
  | hleaf v hv =>
    intro hd key
    cases v with
    | null => simp [isDocument] at hd
    | float32 f => simp [isDocument] at hd
    | array a => simp [Value.isLeaf] at hv
    | table t => simp [Value.isLeaf] at hv
    | tableArray t => simp [Value.isLeaf] at hv
    | bool b => exact ⟨_, rfl⟩
    | str s => exact ⟨_, rfl⟩
    | int n => exact ⟨_, rfl⟩
    | float f =>
      cases hf : f.IsNaN
      · exact ⟨_, by simp only [Add, hf, Bool.false_eq_true, if_false]; rfl⟩
      · exact ⟨_, by simp only [Add, hf, if_true]; rfl⟩
    | time t =>
      simp only [Add]
      split <;> exact ⟨_, rfl⟩
  | harray a ih =>
    intro hd key
    rw [isDocument] at hd
    obtain ⟨typed, h⟩ := AddArray_total lib a
      (fun x hx => ih x hx (isDocumentList_mem a hd x hx))
    exact ⟨.array typed, by simp only [Add, h, bind, Except.bind, pure, Except.pure]⟩
  | htables ts ih =>
    intro hd key
    rw [isDocument] at hd
    obtain ⟨typed, h⟩ := AddTables_total lib ts
      (fun m hm e he => ih m hm e he (isDocumentTables_mem ts hd m hm e he))
    exact ⟨.tableArray typed, by simp only [Add, h, bind, Except.bind, pure, Except.pure]⟩
  | htable m ih =>
    intro hd key
    rw [isDocument] at hd
    obtain ⟨typed, h⟩ := AddTable_total lib m
      (fun e he => ih e he (isDocumentEntries_mem m hd e he))
    exact ⟨.table typed, by simp only [Add, h, bind, Except.bind, pure, Except.pure]⟩

/-- The entry at a key of a table that `Add` has gone through is `Add` of
the entry at that key of the original. -/
theorem lookup_of_forall₂ (lib : Stdlib) (k : String) :
    ∀ (m m' : List (String × Value)),
      List.Forall₂ (fun e e' => e'.1 = e.1 ∧ Add lib e.1 e.2 = .ok e'.2) m m' →
      (m.lookup k = none ∧ m'.lookup k = none)
        ∨ (∃ v v', m.lookup k = some v ∧ m'.lookup k = some v' ∧ Add lib k v = .ok v')
  | [], [], _ => Or.inl ⟨rfl, rfl⟩
  | [], _ :: _, h => by cases h
  | _ :: _, [], h => by cases h
  | (k0, v) :: m, (k0', v') :: m', h => by
    cases h with
    | cons hx hrest =>
      simp only at hx
      obtain ⟨hk, hv⟩ := hx
      subst hk
      by_cases hkk : k = k0'
      · subst hkk
        exact Or.inr ⟨v, v', by simp [List.lookup], by simp [List.lookup], hv⟩
      · have hne : (k == k0') = false := by simpa using hkk
        simp only [List.lookup, hne]
        exact lookup_of_forall₂ lib k m m' hrest

end tag

namespace tag

open Go

/-- A heap keeps its own objects. -/
theorem Heap.keeps_refl (h : Heap) : h.keeps h := ⟨Nat.le_refl _, fun _ _ => rfl⟩

/-- Keeping the objects of an earlier heap is transitive. -/
theorem Heap.keeps_trans {h₁ h₂ h₃ : Heap} (h₃₂ : h₃.keeps h₂) (h₂₁ : h₂.keeps h₁) :
    h₃.keeps h₁ :=
  ⟨Nat.le_trans h₂₁.1 h₃₂.1, fun a ha =>
    (h₃₂.2 a (Nat.lt_of_lt_of_le ha h₂₁.1)).trans (h₂₁.2 a ha)⟩

/-- An allocation keeps the objects of the heap. -/
theorem Heap.keeps_append (h : Heap) (o : Obj) : Heap.keeps (h ++ [o]) h :=
  ⟨by simp, fun a ha => List.getElem?_append_left ha⟩

/-- A write to an object leaves the length of the heap as it is. -/
theorem Heap.length_update (h : Heap) (a : Nat) (f : Obj → Obj) :
    (h.update a f).length = h.length := by
  unfold Heap.update
  split <;> simp

/-- A write to an object leaves the other objects as they are. -/
theorem Heap.getElem?_update_ne (h : Heap) (a b : Nat) (f : Obj → Obj) (hab : a ≠ b) :
    (h.update a f)[b]? = h[b]? := by
  unfold Heap.update
  split
  · exact List.getElem?_set_ne hab
  · rfl

/-- A write to an object allocated later keeps the objects of an earlier
heap. -/
theorem Heap.keeps_update {h h₀ : Heap} (hk : h.keeps h₀) (a : Nat) (f : Obj → Obj)
    (ha : h₀.length ≤ a) : Heap.keeps (h.update a f) h₀ :=
  ⟨by rw [Heap.length_update]; exact hk.1, fun b hb => by
    rw [Heap.getElem?_update_ne h a b f (by omega)]
    exact hk.2 b hb⟩

/-- What holds before a loop and is kept by every round that ends holds after
the loop when it ends. -/
theorem foldlM_invariant {σ α ε : Type} (P : σ → Prop) (f : σ → α → Except ε σ)
    (hstep : ∀ s a s', P s → f s a = .ok s' → P s') :
    ∀ (l : List α) (s s' : σ), P s → l.foldlM f s = .ok s' → P s'
  | [], s, s', hs, h => by
    simp only [List.foldlM, pure, Except.pure, Except.ok.injEq] at h
    exact h ▸ hs
  | a :: l, s, s', hs, h => by
    simp only [List.foldlM, bind, Except.bind] at h
    split at h
    · cases h
    · rename_i s₁ hs₁
      exact foldlM_invariant P f hstep l s₁ s' (hstep s a s₁ hs hs₁) h

/-- `Add` leaves every object of the heap that it is handed as it is: what it
writes to, it has allocated. -/
theorem AddH_keeps (lib : Stdlib) :
    ∀ (n : Nat) (h : Heap) (key : String) (v : Ref) (h' : Heap) (v' : Ref),
      AddH lib n h key v = .ok (h', v') → h'.keeps h
  | 0, h, key, v, h', v', hr => by cases hr
  | n + 1, h, key, v, h', v', hr => by
    have ih := AddH_keeps lib n
    have hstepTag : ∀ (typeName : String) (data : Ref), (tagH h typeName data).1.keeps h :=
      fun _ _ => Heap.keeps_append h _
    cases v with
    | map a =>
      simp only [AddH] at hr
      split at hr
      · rename_i orig _
        simp only [bind, Except.bind, pure, Except.pure] at hr
        split at hr
        · cases hr
        · rename_i s hs
          simp only [Except.ok.injEq, Prod.mk.injEq] at hr
          rw [← hr.1]
          refine foldlM_invariant (fun s => Heap.keeps s h) _ ?_ orig _ s
            (Heap.keeps_append h _) hs
          intro s e s' hP hstep
          split at hstep
          · cases hstep
          · rename_i r hr'
            simp only [Except.ok.injEq] at hstep
            rw [← hstep]
            exact Heap.keeps_update (Heap.keeps_trans (ih _ _ _ r.1 r.2 hr') hP) _ _
              (Nat.le_refl _)
      · cases hr
    | maps a =>
      simp only [AddH] at hr
      split at hr
      · rename_i orig _
        simp only [bind, Except.bind, pure, Except.pure] at hr
        split at hr
        · cases hr
        · rename_i s hs
          simp only [Except.ok.injEq, Prod.mk.injEq] at hr
          rw [← hr.1]
          refine foldlM_invariant (fun (s : Heap × Nat) => Heap.keeps s.1 h) _ ?_ orig _ s
            (Heap.keeps_append h _) hs
          intro s e s' hP hstep
          split at hstep
          · cases hstep
          · rename_i r hr'
            split at hstep
            · simp only [Except.ok.injEq] at hstep
              rw [← hstep]
              exact Heap.keeps_update (Heap.keeps_trans (ih _ _ _ r.1 r.2 hr') hP) _ _
                (Nat.le_refl _)
            · cases hstep
      · cases hr
    | slice a =>
      simp only [AddH] at hr
      split at hr
      · rename_i orig _
        simp only [bind, Except.bind, pure, Except.pure] at hr
        split at hr
        · cases hr
        · rename_i s hs
          simp only [Except.ok.injEq, Prod.mk.injEq] at hr
          rw [← hr.1]
          refine foldlM_invariant (fun (s : Heap × Nat) => Heap.keeps s.1 h) _ ?_ orig _ s
            (Heap.keeps_append h _) hs
          intro s e s' hP hstep
          split at hstep
          · cases hstep
          · rename_i r hr'
            simp only [Except.ok.injEq] at hstep
            rw [← hstep]
            exact Heap.keeps_update (Heap.keeps_trans (ih _ _ _ r.1 r.2 hr') hP) _ _
              (Nat.le_refl _)
      · cases hr
    | null => simp only [AddH] at hr; cases hr
    | float32 f => simp only [AddH] at hr; cases hr
    | bool b =>
      simp only [AddH, pure, Except.pure, Except.ok.injEq] at hr
      have e := congrArg Prod.fst hr
      simp only at e
      rw [← e]
      exact hstepTag _ _
    | str b =>
      simp only [AddH, pure, Except.pure, Except.ok.injEq] at hr
      have e := congrArg Prod.fst hr
      simp only at e
      rw [← e]
      exact hstepTag _ _
    | int b =>
      simp only [AddH, pure, Except.pure, Except.ok.injEq] at hr
      have e := congrArg Prod.fst hr
      simp only at e
      rw [← e]
      exact hstepTag _ _
    | float f =>
      simp only [AddH, pure, Except.pure] at hr
      split at hr <;>
        (simp only [Except.ok.injEq] at hr
         have e := congrArg Prod.fst hr
         simp only at e
         rw [← e]
         exact hstepTag _ _)
    | time t =>
      simp only [AddH, pure, Except.pure] at hr
      split at hr <;>
        (simp only [Except.ok.injEq] at hr
         have e := congrArg Prod.fst hr
         simp only at e
         rw [← e]
         exact hstepTag _ _)

end tag

namespace tag

open Go

/-- A traversal with a partial function gives a list exactly when the
function gives its elements one by one. -/
theorem mapM_some_iff {α β : Type} (f : α → Option β) :
    ∀ (l : List α) (m : List β), l.mapM f = some m ↔ List.Forall₂ (fun a b => f a = some b) l m
  | [], m => by
    simp only [List.mapM_nil, pure, Option.some.injEq]
    constructor
    · intro h; rw [← h]; exact List.Forall₂.nil
    · intro h; cases h; rfl
  | a :: l, m => by
    simp only [List.mapM_cons, bind, Option.bind, pure]
    constructor
    · intro h
      cases ha : f a with
      | none => rw [ha] at h; cases h
      | some b =>
        cases hl : l.mapM f with
        | none => rw [ha, hl] at h; cases h
        | some bs =>
          rw [ha, hl] at h
          simp only [Option.some.injEq] at h
          rw [← h]
          exact List.Forall₂.cons ha ((mapM_some_iff f l bs).mp hl)
    · intro h
      cases h with
      | cons ha hl =>
        simp only [ha, (mapM_some_iff f l _).mpr hl]

/-- The reading of a map: the map is on the heap and its entries read as the
entries of a table. -/
theorem readRef_map (n : Nat) (h : Heap) (a : Nat) (d : Value) :
    readRef (n + 1) h (.map a) = some d ↔
      ∃ es m, h[a]? = some (.map es) ∧ d = .table m
        ∧ List.Forall₂ (fun e r => r.1 = e.1 ∧ readRef n h e.2 = some r.2) es m := by
  simp only [readRef]
  constructor
  · intro hr
    split at hr
    · rename_i es hes
      cases hm : es.mapM (fun e => (readRef n h e.2).map (fun x => (e.1, x))) with
      | none => rw [hm] at hr; cases hr
      | some m =>
        rw [hm] at hr
        simp only [Option.map_some', Option.some.injEq] at hr
        refine ⟨es, m, hes, hr.symm, ?_⟩
        have := (mapM_some_iff _ es m).mp hm
        refine this.imp ?_
        intro e r he
        cases hx : readRef n h e.2 with
        | none => simp [hx] at he
        | some x =>
          simp only [hx, Option.map_some', Option.some.injEq] at he
          rw [← he]
          exact ⟨rfl, rfl⟩
    · cases hr
  · rintro ⟨es, m, hes, rfl, hall⟩
    have : es.mapM (fun e => (readRef n h e.2).map (fun x => (e.1, x))) = some m := by
      rw [mapM_some_iff]
      refine hall.imp ?_
      intro e r he
      obtain ⟨r1, r2⟩ := r
      simp only at he
      simp only [he.2, Option.map_some', he.1]
    simp only [hes, this, Option.map_some']

/-- The reading of a slice: the array is on the heap and its elements read as
the elements of an array. -/
theorem readRef_slice (n : Nat) (h : Heap) (a : Nat) (d : Value) :
    readRef (n + 1) h (.slice a) = some d ↔
      ∃ xs ys, h[a]? = some (.array xs) ∧ d = .array ys
        ∧ List.Forall₂ (fun x y => readRef n h x = some y) xs ys := by
  simp only [readRef]
  constructor
  · intro hr
    split at hr
    · rename_i xs hxs
      cases hm : xs.mapM (fun x => readRef n h x) with
      | none => rw [hm] at hr; cases hr
      | some ys =>
        rw [hm] at hr
        simp only [Option.map_some', Option.some.injEq] at hr
        exact ⟨xs, ys, hxs, hr.symm, (mapM_some_iff _ xs ys).mp hm⟩
    · cases hr
  · rintro ⟨xs, ys, hxs, rfl, hall⟩
    simp only [hxs, (mapM_some_iff _ xs ys).mpr hall, Option.map_some']

/-- The reading of a slice of maps: the array is on the heap and its elements
read as tables. -/
theorem readRef_maps (n : Nat) (h : Heap) (a : Nat) (d : Value) :
    readRef (n + 1) h (.maps a) = some d ↔
      ∃ xs ts, h[a]? = some (.array xs) ∧ d = .tableArray ts
        ∧ List.Forall₂ (fun x t => readRef n h x = some (.table t)) xs ts := by
  simp only [readRef]
  constructor
  · intro hr
    split at hr
    · rename_i xs hxs
      cases hm : xs.mapM (fun x =>
          match readRef n h x with
          | some (.table m) => some m
          | _ => none) with
      | none => rw [hm] at hr; cases hr
      | some ts =>
        rw [hm] at hr
        simp only [Option.map_some', Option.some.injEq] at hr
        refine ⟨xs, ts, hxs, hr.symm, ?_⟩
        refine ((mapM_some_iff _ xs ts).mp hm).imp ?_
        intro x t hx
        split at hx
        · rename_i m hm'
          simp only [Option.some.injEq] at hx
          rw [← hx]; exact hm'
        · cases hx
    · cases hr
  · rintro ⟨xs, ts, hxs, rfl, hall⟩
    have : xs.mapM (fun x =>
        match readRef n h x with
        | some (.table m) => some m
        | _ => none) = some ts := by
      rw [mapM_some_iff]
      refine hall.imp ?_
      intro x t hx
      simp only [hx]
    simp only [hxs, this, Option.map_some']

/-- What a value reads as depends only on the objects that the heap holds:
a heap that holds the same objects at the same addresses reads the same. -/
theorem readRef_agree (h s : Heap) (hs : ∀ a, a < h.length → s[a]? = h[a]?) :
    ∀ (n : Nat) (v : Ref) (d : Value), readRef n h v = some d → readRef n s v = some d
  | 0, v, d, hr => by cases hr
  | n + 1, v, d, hr => by
    have ih := readRef_agree h s hs n
    have hlt : ∀ (a : Nat) (o : Obj), h[a]? = some o → s[a]? = some o := by
      intro a o ho
      have : a < h.length := by
        rcases Nat.lt_or_ge a h.length with hl | hg
        · exact hl
        · rw [List.getElem?_eq_none hg] at ho; cases ho
      rw [hs a this, ho]
    cases v with
    | map a =>
      rw [readRef_map] at hr ⊢
      obtain ⟨es, m, hes, hd, hall⟩ := hr
      exact ⟨es, m, hlt a _ hes, hd, hall.imp (fun e r he => ⟨he.1, ih _ _ he.2⟩)⟩
    | slice a =>
      rw [readRef_slice] at hr ⊢
      obtain ⟨xs, ys, hxs, hd, hall⟩ := hr
      exact ⟨xs, ys, hlt a _ hxs, hd, hall.imp (fun x y hx => ih _ _ hx)⟩
    | maps a =>
      rw [readRef_maps] at hr ⊢
      obtain ⟨xs, ts, hxs, hd, hall⟩ := hr
      exact ⟨xs, ts, hlt a _ hxs, hd, hall.imp (fun x y hx => ih _ _ hx)⟩
    | _ => simpa only [readRef] using hr

end tag

namespace tag

open Go

/-- A write to an object puts the new object at its address. -/
theorem Heap.getElem?_update_self (h : Heap) (a : Nat) (f : Obj → Obj) (o : Obj)
    (ho : h[a]? = some o) : (h.update a f)[a]? = some (f o) := by
  have hlt : a < h.length := by
    rcases Nat.lt_or_ge a h.length with hl | hg
    · exact hl
    · rw [List.getElem?_eq_none hg] at ho; cases ho
  unfold Heap.update
  rw [ho]
  simp [List.getElem?_set_self hlt]

/-- The assignment `m[k] = v` of a key that the map does not have adds the
entry. -/
theorem setKey_new (es : List (String × Ref)) (k : String) (v : Ref)
    (hk : k ∉ es.map Prod.fst) : (Obj.map es).setKey k v = .map (es ++ [(k, v)]) := by
  have : es.any (fun e => e.1 == k) = false := by
    rw [List.any_eq_false]
    intro e he heq
    exact hk (List.mem_map.mpr ⟨e, he, by simpa using heq⟩)
  simp only [Obj.setKey, this, Bool.false_eq_true, if_false]

/-- An address that holds an object is an address of the heap. -/
theorem Heap.lt_of_getElem? {h : Heap} {a : Nat} {o : Obj} (ho : h[a]? = some o) :
    a < h.length := by
  rcases Nat.lt_or_ge a h.length with hl | hg
  · exact hl
  · rw [List.getElem?_eq_none hg] at ho; cases ho

/-- What reads through the objects after an address still does after a call
of `Add` and a write to that address. -/
theorem readsFrom_step {t n : Nat} {s s₁ : Heap} (f : Obj → Obj) (hs : s₁.keeps s)
    (ht : t < s.length) {v : Ref} {d : Value} (hr : readsFrom (t + 1) s n v d) :
    readsFrom (t + 1) (s₁.update t f) n v d := by
  intro s' hs'
  apply hr
  intro a hta has
  have h1 := hs' a hta (by rw [Heap.length_update]; exact Nat.lt_of_lt_of_le has hs.1)
  rw [h1, Heap.getElem?_update_ne _ _ _ _ (by omega)]
  exact hs.2 a has

/-- What a call of `Add` returns, reading through the objects that the call
allocated, still reads so after a write to an earlier address. -/
theorem readsFrom_new {t n : Nat} {s s₁ : Heap} (f : Obj → Obj)
    (ht : t < s.length) {v : Ref} {d : Value} (hr : readsFrom s.length s₁ n v d) :
    readsFrom (t + 1) (s₁.update t f) n v d := by
  intro s' hs'
  apply hr
  intro a hsa has
  have h1 := hs' a (by omega) (by rw [Heap.length_update]; exact has)
  rw [h1, Heap.getElem?_update_ne _ _ _ _ (by omega)]

/-- The loop of `Add` over the entries of a map: it ends, the map that was
allocated holds one entry per key, each reading as `Add` of the original
entry, and the objects of the heap that `Add` was handed are as they
were. -/
theorem AddH_map_loop (lib : Stdlib) (n : Nat) (h : Heap)
    (step : Heap → String × Ref → Except String Heap)
    (hstep : ∀ s e, step s e = (AddH lib n s e.1 e.2 >>= fun r =>
      pure (r.1.update h.length (fun o => o.setKey e.1 r.2))))
    (ih : ∀ (s : Heap) (key : String) (v : Ref) (d : Value), readRef n s v = some d →
      isDocument d = true → d.allTables Table.distinctKeys = true →
      ∃ s' v' d', AddH lib n s key v = .ok (s', v') ∧ Add lib key d = .ok d'
        ∧ readsFrom s.length s' (n + 1) v' d') :
    ∀ (rest : List (String × Ref)) (mrest : List (String × Value)) (s : Heap)
      (done : List (String × Ref)) (doneDocs : List (String × Value)),
      List.Forall₂ (fun e r => r.1 = e.1 ∧ readRef n h e.2 = some r.2) rest mrest →
      isDocumentEntries mrest = true →
      Value.allTablesEntries Table.distinctKeys mrest = true →
      s.keeps h → s[h.length]? = some (.map done) →
      (done.map Prod.fst ++ rest.map Prod.fst).Nodup →
      List.Forall₂ (fun e r => r.1 = e.1 ∧ readsFrom (h.length + 1) s (n + 1) e.2 r.2)
        done doneDocs →
      ∃ s' done' docs', rest.foldlM step s = .ok s' ∧ s'.keeps h
        ∧ s'[h.length]? = some (.map done') ∧ AddTable lib mrest = .ok docs'
        ∧ List.Forall₂ (fun e r => r.1 = e.1 ∧ readsFrom (h.length + 1) s' (n + 1) e.2 r.2)
          done' (doneDocs ++ docs')
  | [], mrest, s, done, doneDocs, hall, _, _, hk, ht, _, hdone => by
    cases hall
    exact ⟨s, done, [], rfl, hk, ht, rfl, by simpa using hdone⟩
  | (k, v) :: rest, mrest, s, done, doneDocs, hall, hdoc, hdist, hk, ht, hnd, hdone => by
    cases hall with
    | @cons _ r _ mrest' hr hrest =>
      obtain ⟨k', dv⟩ := r
      obtain ⟨hk', hv⟩ := hr
      simp only at hk' hv
      subst hk'
      simp only [isDocumentEntries, Bool.and_eq_true] at hdoc
      simp only [Value.allTablesEntries, Bool.and_eq_true] at hdist
      have hvs := readRef_agree h s hk.2 n v dv hv
      obtain ⟨s₁, tv, d₁, hadd, hpure, hreads⟩ := ih s k' v dv hvs hdoc.1 hdist.1
      have hk₁ := AddH_keeps lib n s k' v s₁ tv hadd
      have htlt := Heap.lt_of_getElem? ht
      have hnotin : k' ∉ done.map Prod.fst := by
        intro hmem
        have := List.nodup_append.mp hnd
        exact this.2.2 hmem (by simp)
      have ht₁ : s₁[h.length]? = some (.map done) := by rw [hk₁.2 _ htlt]; exact ht
      have ht₂ : (s₁.update h.length (fun o => o.setKey k' tv))[h.length]?
          = some (.map (done ++ [(k', tv)])) := by
        rw [Heap.getElem?_update_self _ _ _ _ ht₁, setKey_new done k' tv hnotin]
      obtain ⟨s', done', docs', hfold, hk', ht', htable, hfinal⟩ :=
        AddH_map_loop lib n h step hstep ih rest mrest'
          (s₁.update h.length (fun o => o.setKey k' tv)) (done ++ [(k', tv)])
          (doneDocs ++ [(k', d₁)]) hrest hdoc.2 hdist.2
          (Heap.keeps_update (Heap.keeps_trans hk₁ hk) _ _ (Nat.le_refl _)) ht₂
          (by simpa using hnd)
          (List.rel_append
            (hdone.imp (fun e r he => ⟨he.1, readsFrom_step _ hk₁ htlt he.2⟩))
            (List.Forall₂.cons ⟨rfl, readsFrom_new _ htlt hreads⟩ List.Forall₂.nil))
      refine ⟨s', done', (k', d₁) :: docs', ?_, hk', ht', ?_, by simpa using hfinal⟩
      · simp only [List.foldlM, hstep, hadd, bind, Except.bind, pure, Except.pure]
        exact hfold
      · rw [AddTable]
        simp only [hpure, htable, bind, Except.bind, pure, Except.pure]

end tag

namespace tag

open Go

/-- The assignment `a[i] = v` at the first index that is still nil. -/
theorem setIndex_next (done : List Ref) (k : Nat) (v : Ref) :
    (Obj.array (done ++ List.replicate (k + 1) Ref.null)).setIndex done.length v
      = .array ((done ++ [v]) ++ List.replicate k Ref.null) := by
  simp only [Obj.setIndex, List.replicate_succ]
  rw [List.set_append_right _ _ (Nat.le_refl _)]
  simp

/-- The loop of `Add` over the elements of an array: it ends, the array that
was allocated holds one element per element, each reading as what `Add`
gives for the original element, and the objects of the heap that `Add` was
handed are as they were. -/
theorem AddH_array_loop {β : Type} (lib : Stdlib) (n : Nat) (h : Heap)
    (step : Heap × Nat → Ref → Except String (Heap × Nat)) (good : Ref → Prop)
    (hstep : ∀ (s : Heap × Nat) (x : Ref) (r : Heap × Ref), AddH lib n s.1 "" x = .ok r →
      good r.2 →
      step s x = .ok (r.1.update h.length (fun o => o.setIndex s.2 r.2), s.2 + 1))
    (In : Ref → β → Prop) (Out : β → Value → Prop)
    (ih : ∀ (s : Heap) (x : Ref) (y : β), s.keeps h → In x y →
      ∃ s' v' d', AddH lib n s "" x = .ok (s', v') ∧ good v' ∧ Out y d'
        ∧ readsFrom s.length s' (n + 1) v' d') :
    ∀ (rest : List Ref) (yrest : List β) (s : Heap) (done : List Ref) (doneDocs : List Value),
      List.Forall₂ In rest yrest →
      s.keeps h →
      s[h.length]? = some (.array (done ++ List.replicate rest.length Ref.null)) →
      List.Forall₂ (fun x d => readsFrom (h.length + 1) s (n + 1) x d) done doneDocs →
      ∃ s' i' done' docs', rest.foldlM step (s, done.length) = .ok (s', i') ∧ s'.keeps h
        ∧ s'[h.length]? = some (.array done') ∧ List.Forall₂ Out yrest docs'
        ∧ List.Forall₂ (fun x d => readsFrom (h.length + 1) s' (n + 1) x d)
          done' (doneDocs ++ docs')
  | [], yrest, s, done, doneDocs, hall, hk, ht, hdone => by
    cases hall
    exact ⟨s, done.length, done, [], rfl, hk, by simpa using ht, List.Forall₂.nil,
      by simpa using hdone⟩
  | x :: rest, yrest, s, done, doneDocs, hall, hk, ht, hdone => by
    cases hall with
    | @cons _ y _ yrest' hxy hrest =>
      obtain ⟨s₁, tv, d₁, hadd, hgood, hout, hreads⟩ := ih s x y hk hxy
      have hk₁ := AddH_keeps lib n s "" x s₁ tv hadd
      have htlt := Heap.lt_of_getElem? ht
      have ht₁ : s₁[h.length]?
          = some (.array (done ++ List.replicate (rest.length + 1) Ref.null)) := by
        rw [hk₁.2 _ htlt]; exact ht
      have ht₂ : (s₁.update h.length (fun o => o.setIndex done.length tv))[h.length]?
          = some (.array ((done ++ [tv]) ++ List.replicate rest.length Ref.null)) := by
        rw [Heap.getElem?_update_self _ _ _ _ ht₁, setIndex_next]
      obtain ⟨s', i', done', docs', hfold, hk', ht', houts, hfinal⟩ :=
        AddH_array_loop lib n h step good hstep In Out ih rest yrest'
          (s₁.update h.length (fun o => o.setIndex done.length tv)) (done ++ [tv])
          (doneDocs ++ [d₁]) hrest
          (Heap.keeps_update (Heap.keeps_trans hk₁ hk) _ _ (Nat.le_refl _)) ht₂
          (List.rel_append
            (hdone.imp (fun e r he => readsFrom_step _ hk₁ htlt he))
            (List.Forall₂.cons (readsFrom_new _ htlt hreads) List.Forall₂.nil))
      refine ⟨s', i', done', d₁ :: docs', ?_, hk', ht', List.Forall₂.cons hout houts,
        by simpa using hfinal⟩
      have hs := hstep (s, done.length) x (s₁, tv) hadd hgood
      simp only at hs
      simp only [List.foldlM, hs, bind, Except.bind]
      simpa using hfold

/-- The loop of `Add` over an array returns the elements that `Add` returns
one by one. -/
theorem AddArray_of_forall₂ (lib : Stdlib) :
    ∀ (a typed : List Value), List.Forall₂ (fun x x' => Add lib "" x = .ok x') a typed →
      AddArray lib a = .ok typed
  | [], _, h => by cases h; rfl
  | x :: a, _, h => by
    cases h with
    | cons hx hrest =>
      rw [AddArray]
      simp only [hx, AddArray_of_forall₂ lib a _ hrest, bind, Except.bind, pure, Except.pure]

/-- The loop of `Add` over an array of tables returns the tables that the
loop over the entries returns one by one. -/
theorem AddTables_of_forall₂ (lib : Stdlib) :
    ∀ (ts : List (List (String × Value))) (docs : List Value),
      List.Forall₂ (fun t d => ∃ m', d = Value.table m' ∧ AddTable lib t = .ok m') ts docs →
      ∃ ms, docs = ms.map Value.table ∧ AddTables lib ts = .ok ms
  | [], _, h => by cases h; exact ⟨[], rfl, rfl⟩
  | t :: ts, _, h => by
    cases h with
    | cons ht hrest =>
      obtain ⟨m', rfl, hm'⟩ := ht
      obtain ⟨ms, rfl, hms⟩ := AddTables_of_forall₂ lib ts _ hrest
      refine ⟨m' :: ms, rfl, ?_⟩
      rw [AddTables]
      simp only [hm', hms, bind, Except.bind, pure, Except.pure]

end tag

namespace tag

open Go

/-- The tables of an array of tables that is a document are documents. -/
theorem isDocumentTables_mem_table :
    ∀ ts : List (List (String × Value)), isDocumentTables ts = true →
      ∀ m ∈ ts, isDocument (.table m) = true
  | [], _, _, hm => by cases hm
  | t :: rest, h, m, hm => by
    simp only [isDocumentTables, Bool.and_eq_true] at h
    rcases List.mem_cons.mp hm with hm | hm
    · rw [hm, isDocument]; exact h.1
    · exact isDocumentTables_mem_table rest h.2 m hm

/-- What holds of every table inside an array of tables holds of every table
inside each of its tables. -/
theorem allTablesTables_mem (p : List (String × Value) → Bool) :
    ∀ ts : List (List (String × Value)), Value.allTablesTables p ts = true →
      ∀ m ∈ ts, Value.allTables p (.table m) = true
  | [], _, _, hm => by cases hm
  | t :: rest, h, m, hm => by
    simp only [Value.allTablesTables, Bool.and_eq_true] at h
    rcases List.mem_cons.mp hm with hm | hm
    · rw [hm]
      simp only [Value.allTables, Bool.and_eq_true]
      exact h.1
    · exact allTablesTables_mem p rest h.2 m hm

/-- A relation between two lists, with what holds of every element of the
second. -/
theorem forall₂_and_right {α β : Type} {R : α → β → Prop} {Q : β → Prop} :
    ∀ {l₁ : List α} {l₂ : List β}, List.Forall₂ R l₁ l₂ → (∀ y ∈ l₂, Q y) →
      List.Forall₂ (fun x y => R x y ∧ Q y) l₁ l₂
  | _, _, .nil, _ => .nil
  | _, _, .cons h t, hq =>
    .cons ⟨h, hq _ (List.mem_cons_self _ _)⟩
      (forall₂_and_right t (fun y hy => hq y (List.mem_cons_of_mem _ hy)))

/-- The map that `tag` allocates reads as the object with the two entries
`type` and `value`, through that map only. -/
theorem tagH_reads (h : Heap) (n : Nat) (typeName s : String) :
    readsFrom h.length (tagH h typeName (.str s)).1 (n + 2) (tagH h typeName (.str s)).2
      (.table (tag typeName (.str s))) := by
  intro s' hs'
  have h0 : s'[h.length]? = some (.map [("type", .str typeName), ("value", .str s)]) := by
    rw [hs' h.length (Nat.le_refl _) (by simp [tagH])]
    simp [tagH]
  rw [tagH, readRef_map]
  exact ⟨_, _, h0, rfl,
    List.Forall₂.cons ⟨rfl, rfl⟩ (List.Forall₂.cons ⟨rfl, rfl⟩ List.Forall₂.nil)⟩

/-- `Add` on the heap does what `Add` does: on a value that reads as a
document it returns, and what it returns reads as `Add` of the document,
through the objects that the call allocated only. -/
theorem AddH_refines (lib : Stdlib) :
    ∀ (n : Nat) (h : Heap) (key : String) (v : Ref) (d : Value),
      readRef n h v = some d → isDocument d = true →
      d.allTables Table.distinctKeys = true →
      ∃ h' v' d', AddH lib n h key v = .ok (h', v') ∧ Add lib key d = .ok d'
        ∧ readsFrom h.length h' (n + 1) v' d' ∧ (∀ m, d = .table m → ∃ b, v' = .map b)
  | 0, h, key, v, d, hr, _, _ => by cases hr
  | n + 1, h, key, v, d, hr, hdoc, hdist => by
    have ih := AddH_refines lib n
    have ih' : ∀ (s : Heap) (key : String) (v : Ref) (d : Value), readRef n s v = some d →
        isDocument d = true → d.allTables Table.distinctKeys = true →
        ∃ s' v' d', AddH lib n s key v = .ok (s', v') ∧ Add lib key d = .ok d'
          ∧ readsFrom s.length s' (n + 1) v' d' := by
      intro s key v d h1 h2 h3
      obtain ⟨s', v', d', ha, hb, hc, _⟩ := ih s key v d h1 h2 h3
      exact ⟨s', v', d', ha, hb, hc⟩
    cases v with
    | null =>
      simp only [readRef, Option.some.injEq] at hr
      rw [← hr] at hdoc; simp [isDocument] at hdoc
    | float32 f =>
      simp only [readRef, Option.some.injEq] at hr
      rw [← hr] at hdoc; simp [isDocument] at hdoc
    | bool b =>
      simp only [readRef, Option.some.injEq] at hr
      subst hr
      exact ⟨_, _, _, rfl, rfl, tagH_reads h n _ _, fun m hm => by cases hm⟩
    | str s =>
      simp only [readRef, Option.some.injEq] at hr
      subst hr
      exact ⟨_, _, _, rfl, rfl, tagH_reads h n _ _, fun m hm => by cases hm⟩
    | int i =>
      simp only [readRef, Option.some.injEq] at hr
      subst hr
      exact ⟨_, _, _, rfl, rfl, tagH_reads h n _ _, fun m hm => by cases hm⟩
    | float f =>
      simp only [readRef, Option.some.injEq] at hr
      subst hr
      cases hf : f.IsNaN with
      | true =>
        exact ⟨_, _, _, by simp only [AddH, hf, if_true]; rfl,
          by simp only [Add, hf, if_true]; rfl, tagH_reads h n _ _, fun m hm => by cases hm⟩
      | false =>
        exact ⟨_, _, _, by simp only [AddH, hf, Bool.false_eq_true, if_false]; rfl,
          by simp only [Add, hf, Bool.false_eq_true, if_false]; rfl, tagH_reads h n _ _,
          fun m hm => by cases hm⟩
    | time t =>
      simp only [readRef, Option.some.injEq] at hr
      subst hr
      simp only [AddH, Add]
      split <;> exact ⟨_, _, _, rfl, rfl, tagH_reads h n _ _, fun m hm => by cases hm⟩
    | map a =>
      rw [readRef_map] at hr
      obtain ⟨es, m, hes, rfl, hall⟩ := hr
      rw [isDocument] at hdoc
      simp only [Value.allTables, Bool.and_eq_true, Table.distinctKeys, decide_eq_true_eq]
        at hdist
      have hkeys : es.map Prod.fst = m.map Prod.fst := by
        clear hes hdoc hdist
        induction hall with
        | nil => rfl
        | cons hx _ ihx => simp [hx.1, ihx]
      obtain ⟨s', done', docs', hfold, hk', ht', htable, hfinal⟩ :=
        AddH_map_loop lib n h
          (fun s e => AddH lib n s e.1 e.2 >>= fun r =>
            pure (r.1.update h.length (fun o => o.setKey e.1 r.2)))
          (fun _ _ => rfl) ih' es m (h ++ [Obj.map []]) [] [] hall hdoc hdist.2
          (Heap.keeps_append h _) (by simp) (by simpa [hkeys] using hdist.1) List.Forall₂.nil
      refine ⟨s', .map h.length, .table docs', ?_, ?_, ?_, fun _ _ => ⟨_, rfl⟩⟩
      · simp only [AddH, hes]
        simp only [bind, Except.bind, pure, Except.pure] at hfold ⊢
        rw [hfold]
      · simp only [Add, htable, bind, Except.bind, pure, Except.pure]
      · intro s'' hs''
        have hlt := Heap.lt_of_getElem? ht'
        rw [readRef_map]
        refine ⟨done', docs', by rw [hs'' _ (Nat.le_refl _) hlt]; exact ht', rfl, ?_⟩
        simp only [List.nil_append] at hfinal
        exact hfinal.imp (fun e r he => ⟨he.1, he.2 s'' (fun a ha hal => hs'' a (by omega) hal)⟩)
    | slice a =>
      rw [readRef_slice] at hr
      obtain ⟨xs, ys, hxs, rfl, hall⟩ := hr
      rw [isDocument] at hdoc
      simp only [Value.allTables] at hdist
      have hall' := forall₂_and_right hall (fun y hy =>
        (⟨isDocumentList_mem ys hdoc y hy, allTablesList_mem _ ys hdist y hy⟩ :
          isDocument y = true ∧ y.allTables Table.distinctKeys = true))
      obtain ⟨s', i', done', docs', hfold, hk', ht', houts, hfinal⟩ :=
        AddH_array_loop lib n h
          (fun (s : Heap × Nat) v => AddH lib n s.1 "" v >>= fun r =>
            pure (r.1.update h.length (fun o => o.setIndex s.2 r.2), s.2 + 1))
          (fun _ => True)
          (fun s x r hr _ => by simp only [hr, bind, Except.bind, pure, Except.pure])
          (fun x y => readRef n h x = some y ∧ isDocument y = true
            ∧ y.allTables Table.distinctKeys = true)
          (fun y d' => Add lib "" y = .ok d')
          (fun s x y hk hin => by
            obtain ⟨s', v', d', ha, hb, hc⟩ :=
              ih' s "" x y (readRef_agree h s hk.2 n x y hin.1) hin.2.1 hin.2.2
            exact ⟨s', v', d', ha, trivial, hb, hc⟩)
          xs ys (h ++ [Obj.array (List.replicate xs.length Ref.null)]) [] [] hall'
          (Heap.keeps_append h _) (by simp) List.Forall₂.nil
      refine ⟨s', .slice h.length, .array docs', ?_, ?_, ?_, fun m hm => by cases hm⟩
      · simp only [AddH, hxs]
        simp only [bind, Except.bind, pure, Except.pure, List.length_nil] at hfold ⊢
        rw [hfold]
      · simp only [Add, AddArray_of_forall₂ lib ys docs' houts, bind, Except.bind, pure,
          Except.pure]
      · intro s'' hs''
        have hlt := Heap.lt_of_getElem? ht'
        rw [readRef_slice]
        refine ⟨done', docs', by rw [hs'' _ (Nat.le_refl _) hlt]; exact ht', rfl, ?_⟩
        simp only [List.nil_append] at hfinal
        exact hfinal.imp (fun e r he => he s'' (fun a ha hal => hs'' a (by omega) hal))
    | maps a =>
      rw [readRef_maps] at hr
      obtain ⟨xs, ts, hxs, rfl, hall⟩ := hr
      rw [isDocument] at hdoc
      simp only [Value.allTables] at hdist
      have hall' := forall₂_and_right hall (fun t ht =>
        (⟨isDocumentTables_mem_table ts hdoc t ht, allTablesTables_mem _ ts hdist t ht⟩ :
          isDocument (.table t) = true ∧ (Value.table t).allTables Table.distinctKeys = true))
      obtain ⟨s', i', done', docs', hfold, hk', ht', houts, hfinal⟩ :=
        AddH_array_loop lib n h
          (fun (s : Heap × Nat) v => AddH lib n s.1 "" v >>= fun r =>
            match r.2 with
            | .map _ => pure (r.1.update h.length (fun o => o.setIndex s.2 r.2), s.2 + 1)
            | _ => throw "interface conversion: interface {} is not map[string]interface {}")
          (fun v' => ∃ b, v' = Ref.map b)
          (fun s x r hr hg => by
            obtain ⟨b, hb⟩ := hg
            simp only [hr, hb, bind, Except.bind, pure, Except.pure])
          (fun x t => readRef n h x = some (.table t) ∧ isDocument (.table t) = true
            ∧ (Value.table t).allTables Table.distinctKeys = true)
          (fun t d' => ∃ m', d' = Value.table m' ∧ AddTable lib t = .ok m')
          (fun s x t hk hin => by
            obtain ⟨s', v', d', ha, hb, hc, hd⟩ :=
              ih s "" x (.table t) (readRef_agree h s hk.2 n x _ hin.1) hin.2.1 hin.2.2
            refine ⟨s', v', d', ha, hd t rfl, ?_, hc⟩
            simp only [Add, bind, Except.bind, pure, Except.pure] at hb
            split at hb
            · cases hb
            · rename_i m' hm'
              simp only [Except.ok.injEq] at hb
              exact ⟨m', hb.symm, hm'⟩)
          xs ts (h ++ [Obj.array (List.replicate xs.length Ref.null)]) [] [] hall'
          (Heap.keeps_append h _) (by simp) List.Forall₂.nil
      obtain ⟨ms, rfl, hms⟩ := AddTables_of_forall₂ lib ts docs' houts
      refine ⟨s', .maps h.length, .tableArray ms, ?_, ?_, ?_, fun m hm => by cases hm⟩
      · simp only [AddH, hxs]
        simp only [bind, Except.bind, pure, Except.pure, List.length_nil] at hfold ⊢
        rw [hfold]
      · simp only [Add, hms, bind, Except.bind, pure, Except.pure]
      · intro s'' hs''
        have hlt := Heap.lt_of_getElem? ht'
        rw [readRef_maps]
        refine ⟨done', ms, by rw [hs'' _ (Nat.le_refl _) hlt]; exact ht', rfl, ?_⟩
        simp only [List.nil_append] at hfinal
        rw [List.forall₂_map_right_iff] at hfinal
        exact hfinal.imp (fun e r he => he s'' (fun a ha hal => hs'' a (by omega) hal))

end tag

namespace tag

open Go

/-- C20: `Add` preserves the shape of the document. On a table that is a
document it returns a table with the same keys in which the entry at a key
is `Add` of the original entry at that key; on an array of values and on an
array of tables it returns an array of the same type and length whose
elements are `Add` of the original elements, in the same order. The input is
not modified: run on the heap, where maps and slices are held by reference,
`Add` leaves every object of the heap that it is handed as it is, so that
the input reads after the call as it did before, and on a value that reads
as a document it returns a value that reads as `Add` of the document. -/
theorem C20_Add_preserves_shape (lib : Stdlib) (key : String) :
    (∀ m : List (String × Value), isDocument (.table m) = true →
        ∃ m', Add lib key (.table m) = .ok (.table m') ∧ m'.map Prod.fst = m.map Prod.fst
          ∧ List.Forall₂ (fun e e' => e'.1 = e.1 ∧ Add lib e.1 e.2 = .ok e'.2) m m'
          ∧ ∀ k, (m.lookup k = none ∧ m'.lookup k = none)
            ∨ (∃ v v', m.lookup k = some v ∧ m'.lookup k = some v' ∧ Add lib k v = .ok v'))
      ∧ (∀ a : List Value, isDocument (.array a) = true →
        ∃ a', Add lib key (.array a) = .ok (.array a') ∧ a'.length = a.length
          ∧ List.Forall₂ (fun x x' => Add lib "" x = .ok x') a a')
      ∧ (∀ ts : List (List (String × Value)), isDocument (.tableArray ts) = true →
        ∃ ts', Add lib key (.tableArray ts) = .ok (.tableArray ts') ∧ ts'.length = ts.length
          ∧ List.Forall₂ (fun m m' => Add lib "" (.table m) = .ok (.table m')) ts ts')
      ∧ (∀ (n : Nat) (h : Heap) (v : Ref) (h' : Heap) (v' : Ref),
        AddH lib n h key v = .ok (h', v') →
        h'.keeps h ∧ ∀ d, readRef n h v = some d → readRef n h' v = some d)
      ∧ (∀ (n : Nat) (h : Heap) (v : Ref) (d : Value), readRef n h v = some d →
        isDocument d = true → d.allTables Table.distinctKeys = true →
        ∃ h' v' d', AddH lib n h key v = .ok (h', v') ∧ Add lib key d = .ok d'
          ∧ readRef (n + 1) h' v' = some d' ∧ h'.keeps h ∧ readRef n h' v = some d)
      ∧ (readRef 4 exampleHeap (.map 3) = some exampleDoc
        ∧ isDocument exampleDoc = true
        ∧ ∃ h', AddH exampleLib 4 exampleHeap "" (.map 3) = .ok (h', .map 4)
          ∧ h'.take 4 = exampleHeap
          ∧ (readRef 5 h' (.map 4)).map Except.ok = some (Add exampleLib "" exampleDoc)) := by
  refine ⟨?_, ?_, ?_, ?_, ?_, rfl, rfl, ⟨_, rfl, rfl, rfl⟩⟩
  · intro m hm
    obtain ⟨typed, h⟩ := Add_total lib (.table m) hm key
    rw [Add] at h
    cases hm' : AddTable lib m with
    | error e => simp [hm', bind, Except.bind] at h
    | ok m' =>
      have hall := AddTable_ok lib m m' hm'
      refine ⟨m', by simp only [Add, hm', bind, Except.bind, pure, Except.pure], ?_, hall,
        fun k => lookup_of_forall₂ lib k m m' hall⟩
      clear hm' h hm
      induction hall with
      | nil => rfl
      | cons hx _ ih => simp [hx.1, ih]
  · intro a ha
    obtain ⟨typed, h⟩ := Add_total lib (.array a) ha key
    rw [Add] at h
    cases ha' : AddArray lib a with
    | error e => simp [ha', bind, Except.bind] at h
    | ok a' =>
      have hall := AddArray_ok lib a a' ha'
      exact ⟨a', by simp only [Add, ha', bind, Except.bind, pure, Except.pure],
        hall.length_eq.symm, hall⟩
  · intro ts hts
    obtain ⟨typed, h⟩ := Add_total lib (.tableArray ts) hts key
    rw [Add] at h
    cases hts' : AddTables lib ts with
    | error e => simp [hts', bind, Except.bind] at h
    | ok ts' =>
      have hall := AddTables_ok lib ts ts' hts'
      exact ⟨ts', by simp only [Add, hts', bind, Except.bind, pure, Except.pure],
        hall.length_eq.symm, hall⟩
  · intro n h v h' v' hadd
    have hk := AddH_keeps lib n h key v h' v' hadd
    exact ⟨hk, fun d hd => readRef_agree h h' hk.2 n v d hd⟩
  · intro n h v d hd hdoc hdist
    obtain ⟨h', v', d', hadd, hpure, hreads, _⟩ := AddH_refines lib n h key v d hd hdoc hdist
    have hk := AddH_keeps lib n h key v h' v' hadd
    exact ⟨h', v', d', hadd, hpure, hreads h' (fun _ _ _ => rfl), hk,
      readRef_agree h h' hk.2 n v d hd⟩

end tag

namespace tomltest

open Go

/-- C21: an array of tables may be handed to the comparer in either
representation. For every `Test`, every `want` of type `[]interface{}` and
every list of tables, `cmpTOMLArrays` and `CompareTOML` return the same
`Test` for `have` the tables typed as `[]map[string]interface{}` as for
`have` the same tables held in a `[]interface{}`; `CompareTOML` on such a
`want` is `cmpTOMLArrays`; and a `have` that is neither kind of slice is a
mismatch, which is a failure. For the want of one table with the key `a`, the
two representations of an equal table both give the `Test` unchanged, and the
two representations of a table with another value both give the same
failure. -/
theorem C21_array_of_tables_either_type (r : Test) (want : List Value) :
    (∀ ts : List (List (String × Value)),
        cmpTOMLArrays r want (.tableArray ts) = cmpTOMLArrays r want (.array (ts.map Value.table))
          ∧ CompareTOML r (.array want) (.tableArray ts)
            = CompareTOML r (.array want) (.array (ts.map Value.table)))
      ∧ (∀ have_ : Value, CompareTOML r (.array want) have_ = cmpTOMLArrays r want have_)
      ∧ (∀ have_ : Value, (∀ a, have_ ≠ .array a) → (∀ ts, have_ ≠ .tableArray ts) →
        cmpTOMLArrays r want have_ = r.mismatch "array" (.array want) have_
          ∧ (cmpTOMLArrays r want have_).Failed = true)
      ∧ (cmpTOMLArrays ⟨"k", ""⟩ [.table [("a", .int 1)]] (.tableArray [[("a", .int 1)]])
          = ⟨"k", ""⟩
        ∧ cmpTOMLArrays ⟨"k", ""⟩ [.table [("a", .int 1)]] (.array [.table [("a", .int 1)]])
          = ⟨"k", ""⟩
        ∧ cmpTOMLArrays ⟨"k", ""⟩ [.table [("a", .int 1)]] (.tableArray [[("a", .int 2)]])
          = cmpTOMLArrays ⟨"k", ""⟩ [.table [("a", .int 1)]] (.array [.table [("a", .int 2)]])
        ∧ (cmpTOMLArrays ⟨"k", ""⟩ [.table [("a", .int 1)]]
            (.tableArray [[("a", .int 2)]])).Failed = true
        ∧ (cmpTOMLArrays ⟨"k", ""⟩ [.table [("a", .int 1)]] (.table [("a", .int 1)])).Failed
          = true) := by
  refine ⟨fun ts => ⟨?_, ?_⟩, fun _ => rfl, ?_, rfl, rfl, rfl, rfl, rfl⟩
  · simp only [cmpTOMLArrays, CompareTOML]
  · simp only [CompareTOML]
  · intro have_ harr htbl
    have h : cmpTOMLArrays r want have_ = r.mismatch "array" (.array want) have_ := by
      cases have_ with
      | array a => exact absurd rfl (harr a)
      | tableArray ts => exact absurd rfl (htbl ts)
      | _ => simp only [cmpTOMLArrays, CompareTOML]
    exact ⟨h, by rw [h]; exact Failed_mismatch _ _ _ _⟩

end tomltest

namespace tag

open Go

/-- The array loop of `Remove` ends with an error when `Remove` returns an
error on an element and returns on the elements before it. -/
theorem RemoveArray_some_error (lib : Stdlib) (x val : Value) (err : String)
    (post : List Value) (hx : Remove lib x = .ok ⟨val, some err⟩) :
    ∀ pre : List Value, (∀ y ∈ pre, ∃ r, Remove lib y = .ok r) →
      ∃ a err', RemoveArray lib (pre ++ x :: post) = .ok (a, some err')
  | [], _ => ⟨[val], err, by
      simp only [List.nil_append, RemoveArray, hx, bind, Except.bind, pure, Except.pure]⟩
  | y :: pre, h => by
    obtain ⟨r, hy⟩ := h y (List.mem_cons_self _ _)
    obtain ⟨a, err', ha⟩ :=
      RemoveArray_some_error lib x val err post hx pre
        (fun z hz => h z (List.mem_cons_of_mem _ hz))
    obtain ⟨yv, ye⟩ := r
    cases ye with
    | some e =>
      exact ⟨[yv], e, by
        simp only [List.cons_append, RemoveArray, hy, bind, Except.bind, pure, Except.pure]⟩
    | none =>
      exact ⟨yv :: a, err', by
        simp only [List.cons_append, RemoveArray, hy, bind, Except.bind, pure, Except.pure,
          List.append_eq, ha]⟩

/-- The table loop of `Remove` ends with an error when `Remove` returns an
error on an entry and returns on the entries before it. -/
theorem RemoveTable_some_error (lib : Stdlib) (k : String) (x val : Value) (err : String)
    (post : List (String × Value)) (hx : Remove lib x = .ok ⟨val, some err⟩) :
    ∀ pre : List (String × Value), (∀ e ∈ pre, ∃ r, Remove lib e.2 = .ok r) →
      ∃ m err', RemoveTable lib (pre ++ (k, x) :: post) = .ok (m, some err')
  | [], _ => ⟨[(k, val)], err, by
      simp only [List.nil_append, RemoveTable, hx, bind, Except.bind, pure, Except.pure]⟩
  | (k', y) :: pre, h => by
    obtain ⟨r, hy⟩ := h (k', y) (List.mem_cons_self _ _)
    obtain ⟨m, err', hm⟩ :=
      RemoveTable_some_error lib k x val err post hx pre
        (fun z hz => h z (List.mem_cons_of_mem _ hz))
    obtain ⟨yv, ye⟩ := r
    cases ye with
    | some e =>
      exact ⟨[(k', yv)], e, by
        simp only [List.cons_append, RemoveTable, hy, bind, Except.bind, pure, Except.pure]⟩
    | none =>
      exact ⟨(k', yv) :: m, err', by
        simp only [List.cons_append, RemoveTable, hy, bind, Except.bind, pure, Except.pure,
          List.append_eq, hm]⟩

/-- The array loop of `Remove` when no element has an error: the elements of
the result are `Remove` of the original elements, in the same order. -/
theorem RemoveArray_ok (lib : Stdlib) :
    ∀ (v a : List Value), RemoveArray lib v = .ok (a, none) →
      List.Forall₂ (fun x x' => Remove lib x = .ok ⟨x', none⟩) v a
  | [], a, h => by
    simp only [RemoveArray, pure, Except.pure, Except.ok.injEq, Prod.mk.injEq, and_true] at h
    subst h
    exact List.Forall₂.nil
  | x :: rest, a, h => by
    rw [RemoveArray] at h
    cases hx : Remove lib x with
    | error e => simp [hx, bind, Except.bind] at h
    | ok r =>
      obtain ⟨val, err⟩ := r
      cases err with
      | some e => simp [hx, bind, Except.bind, pure, Except.pure] at h
      | none =>
        cases hr : RemoveArray lib rest with
        | error e => simp [hx, hr, bind, Except.bind] at h
        | ok p =>
          obtain ⟨a', err'⟩ := p
          simp only [hx, hr, bind, Except.bind, pure, Except.pure, Except.ok.injEq,
            Prod.mk.injEq] at h
          obtain ⟨ha, he⟩ := h
          subst ha he
          exact List.Forall₂.cons hx (RemoveArray_ok lib rest a' hr)

/-- C22, amended: `Remove` fails as a whole. When `Remove` returns an error
on a child of an array, or of a table (an object that is not a tagged
primitive), and returns, with or without an error, on the children visited
before it, `Remove` of the array or table returns a nil value together with
an error. Whatever `Remove` returns for an array or a table is either a nil
value with an error, or, without an error, the array or table of what
`Remove` returns without an error for each child: never a part of it, and
when it succeeds the error is nil. For the array of a tagged integer, a
tagged bool with the value `maybe` and a bare string, `Remove` returns nil
and the error of the bool. -/
theorem C22_Remove_fails_as_a_whole (lib : Stdlib) :
    (∀ (pre post : List Value) (x val : Value) (err : String),
        (∀ y ∈ pre, ∃ r, Remove lib y = .ok r) → Remove lib x = .ok ⟨val, some err⟩ →
        ∃ err', Remove lib (.array (pre ++ x :: post)) = .ok ⟨.null, some err'⟩)
      ∧ (∀ (pre post : List (String × Value)) (k : String) (x val : Value) (err : String),
        isTagged (pre ++ (k, x) :: post) = false →
        (∀ e ∈ pre, ∃ r, Remove lib e.2 = .ok r) → Remove lib x = .ok ⟨val, some err⟩ →
        ∃ err', Remove lib (.table (pre ++ (k, x) :: post)) = .ok ⟨.null, some err'⟩)
      ∧ (∀ (a : List Value) (r : Ret), Remove lib (.array a) = .ok r →
        (r.val = .null ∧ r.err ≠ none)
          ∨ (r.err = none ∧ ∃ a', r.val = .array a'
            ∧ List.Forall₂ (fun x x' => Remove lib x = .ok ⟨x', none⟩) a a'))
      ∧ (∀ (m : List (String × Value)) (r : Ret), isTagged m = false →
        Remove lib (.table m) = .ok r →
        (r.val = .null ∧ r.err ≠ none)
          ∨ (r.err = none ∧ ∃ m', r.val = .table m'
            ∧ List.Forall₂ (fun e e' => e'.1 = e.1 ∧ Remove lib e.2 = .ok ⟨e'.2, none⟩)
              m m'))
      ∧ Remove exampleLib
          (.array [.table [("type", .str "integer"), ("value", .str "1")],
            .table [("type", .str "bool"), ("value", .str "maybe")], .str "bare"])
        = .ok ⟨.null, some "tag.Remove: untag: could not parse \"maybe\" as a boolean"⟩ := by
  refine ⟨?_, ?_, ?_, ?_, rfl⟩
  · intro pre post x val err hpre hx
    obtain ⟨a, err', ha⟩ := RemoveArray_some_error lib x val err post hx pre hpre
    exact ⟨err', by simp only [Remove, ha, bind, Except.bind, pure, Except.pure]⟩
  · intro pre post k x val err ht hpre hx
    obtain ⟨m, err', hm⟩ := RemoveTable_some_error lib k x val err post hx pre hpre
    exact ⟨err', by rw [Remove_table lib _ ht, hm]; rfl⟩
  · intro a r h
    simp only [Remove, bind, Except.bind, pure, Except.pure] at h
    cases hr : RemoveArray lib a with
    | error e => rw [hr] at h; cases h
    | ok p =>
      obtain ⟨a', err⟩ := p
      rw [hr] at h
      cases err with
      | some e =>
        simp only [Except.ok.injEq] at h
        rw [← h]
        exact Or.inl ⟨rfl, by simp⟩
      | none =>
        simp only [Except.ok.injEq] at h
        rw [← h]
        exact Or.inr ⟨rfl, a', rfl, RemoveArray_ok lib a a' hr⟩
  · intro m r ht h
    rw [Remove_table lib m ht] at h
    cases hr : RemoveTable lib m with
    | error e => rw [hr] at h; cases h
    | ok p =>
      obtain ⟨m', err⟩ := p
      rw [hr] at h
      cases err with
      | some e =>
        simp only [Except.bind, pure, Except.pure, Except.ok.injEq] at h
        rw [← h]
        exact Or.inl ⟨rfl, by simp⟩
      | none =>
        simp only [Except.bind, pure, Except.pure, Except.ok.injEq] at h
        rw [← h]
        exact Or.inr ⟨rfl, m', rfl, RemoveTable_ok lib m m' hr⟩

/-- C22, as stated, fails at the array of a tagged bool whose value is the
boolean `true`, not a string, followed by a bare string: `Remove` returns an
error on the second child, and `Remove` of the array returns nothing,
neither a nil value with an error nor anything else, because `untag` panics
on the first child in its type assertion. With the two children in the
other order `Remove` returns nil and the error of the bare string. -/
theorem C22_panic_before_the_error :
    Remove exampleLib (.str "bare")
        = .ok ⟨.null, some "tag.Remove: unrecognized JSON format 'string'"⟩
      ∧ Remove exampleLib
          (.array [.table [("type", .str "bool"), ("value", .bool true)], .str "bare"])
        = .error "interface conversion: interface {} is bool, not string"
      ∧ Remove exampleLib
          (.array [.str "bare", .table [("type", .str "bool"), ("value", .bool true)]])
        = .ok ⟨.null, some "tag.Remove: unrecognized JSON format 'string'"⟩ :=
  ⟨rfl, rfl, rfl⟩

end tag

namespace Go

/-- Reading further digits does not make the number smaller. -/
theorem le_digitsNat : ∀ (cs : List Char) (n : Nat), n ≤ digitsNat cs n
  | [], n => Nat.le_refl n
  | c :: cs, n => by
    rw [digitsNat]
    exact Nat.le_trans (by omega) (le_digitsNat cs _)

/-- The digit loop of `ParseUint` on decimal digits: the number they denote,
or a range error when it does not fit 64 bits. -/
theorem parseUintLoop_digits :
    ∀ (cs : List Char) (n : Nat), cs.all isDecimalDigit = true → n < 2 ^ 64 →
      parseUintLoop cs n =
        if digitsNat cs n < 2 ^ 64 then (digitsNat cs n, none)
        else (2 ^ 64 - 1, some .ErrRange)
  | [], n, _, hn => by
    rw [parseUintLoop, digitsNat, if_pos hn]
  | c :: cs, n, hall, hn => by
    simp only [List.all_cons, Bool.and_eq_true, isDecimalDigit, decide_eq_true_eq] at hall
    obtain ⟨hc, hcs⟩ := hall
    have hd : ¬ (c.toNat - 48 ≥ 10) := by omega
    have hge := le_digitsNat cs (n * 10 + (c.toNat - 48))
    rw [parseUintLoop, digitsNat]
    simp only [hc, and_self, if_true, hd, if_false]
    by_cases h1 : n ≥ (2 ^ 64 - 1) / 10 + 1
    · rw [if_pos h1]
      have : ¬ (digitsNat cs (n * 10 + (c.toNat - 48)) < 2 ^ 64) := by
        norm_num at h1 ⊢
        omega
      rw [if_neg this]
    · rw [if_neg h1]
      by_cases h2 : n * 10 + (c.toNat - 48) < 2 ^ 64
      · have hmod : (n * 10 + (c.toNat - 48)) % 2 ^ 64 = n * 10 + (c.toNat - 48) :=
          Nat.mod_eq_of_lt h2
        have h3 : ¬ (n * 10 + (c.toNat - 48) < n * 10 ∨ n * 10 + (c.toNat - 48) > 2 ^ 64 - 1) := by
          norm_num at h2 ⊢
          omega
        rw [hmod, if_neg h3]
        exact parseUintLoop_digits cs _ hcs h2
      · have h3 : (n * 10 + (c.toNat - 48)) % 2 ^ 64 < n * 10
            ∨ (n * 10 + (c.toNat - 48)) % 2 ^ 64 > 2 ^ 64 - 1 := by
          left
          norm_num at h1 h2 ⊢
          omega
        rw [if_pos h3]
        have : ¬ (digitsNat cs (n * 10 + (c.toNat - 48)) < 2 ^ 64) := by omega
        rw [if_neg this]

/-- The digit loop of `ParseUint` on a text with a character that is no
decimal digit: a syntax error, or a range error before the character is
reached. -/
theorem parseUintLoop_nondigit :
    ∀ (cs : List Char) (n : Nat), cs.all isDecimalDigit = false →
      (parseUintLoop cs n).2 = some .ErrSyntax
        ∨ parseUintLoop cs n = (2 ^ 64 - 1, some .ErrRange)
  | [], n, h => by simp at h
  | c :: cs, n, h => by
    rw [parseUintLoop]
    by_cases hc : 48 ≤ c.toNat ∧ c.toNat ≤ 57
    · have hcs : cs.all isDecimalDigit = false := by
        simpa [List.all_cons, isDecimalDigit, hc] using h
      have hd : ¬ (c.toNat - 48 ≥ 10) := by omega
      simp only [hc, and_self, if_true, hd, if_false]
      split
      · exact Or.inr rfl
      · split
        · exact Or.inr rfl
        · exact parseUintLoop_nondigit cs _ hcs
    · by_cases hl : 97 ≤ lower c.toNat ∧ lower c.toNat ≤ 122
      · have : lower c.toNat - 97 + 10 ≥ 10 := by omega
        simp only [hc, if_false, hl, and_self, if_true, this]
        exact Or.inl trivial
      · simp only [hc, if_false, hl]
        exact Or.inl trivial

end Go

namespace Go

/-- `ParseInt` after its sign, by what `ParseUint` returns for the rest. -/
theorem ParseInt_cons (s0 : String) (c : Char) (rest : List Char)
    (hs : s0.toList = c :: rest) :
    ParseInt s0 =
      match ParseUint (if c == '+' ∨ c == '-' then rest else c :: rest) with
      | (_, some .ErrSyntax) => (0, some ⟨"ParseInt", s0, .ErrSyntax⟩)
      | (un, _) =>
        if !(c == '-') ∧ un ≥ 2 ^ 63 then (2 ^ 63 - 1, some ⟨"ParseInt", s0, .ErrRange⟩)
        else if (c == '-') ∧ un > 2 ^ 63 then (-2 ^ 63, some ⟨"ParseInt", s0, .ErrRange⟩)
        else (if c == '-' then negInt64 (toInt64 un) else toInt64 un, none) := by
  unfold ParseInt
  rw [hs]
  rfl

/-- `ParseInt` fails when `ParseUint` reports a syntax error. -/
theorem ParseInt_of_syntax (s0 : String) (c : Char) (rest : List Char)
    (hs : s0.toList = c :: rest)
    (h : (ParseUint (if c == '+' ∨ c == '-' then rest else c :: rest)).2 = some .ErrSyntax) :
    ParseInt s0 = (0, some ⟨"ParseInt", s0, .ErrSyntax⟩) := by
  rw [ParseInt_cons s0 c rest hs]
  cases hp : ParseUint (if c == '+' ∨ c == '-' then rest else c :: rest) with
  | mk un e =>
    rw [hp] at h
    simp only at h
    subst h
    rfl

/-- `ParseInt` fails when `ParseUint` reports a range error. -/
theorem ParseInt_of_range (s0 : String) (c : Char) (rest : List Char)
    (hs : s0.toList = c :: rest)
    (h : ParseUint (if c == '+' ∨ c == '-' then rest else c :: rest)
      = (2 ^ 64 - 1, some .ErrRange)) :
    ∃ n, ParseInt s0 = (n, some ⟨"ParseInt", s0, .ErrRange⟩) := by
  rw [ParseInt_cons s0 c rest hs, h]
  cases hc : c == '-'
  · exact ⟨2 ^ 63 - 1, by simp⟩
  · exact ⟨-2 ^ 63, by simp⟩

/-- `ParseInt` on a text, by what `ParseUint` reads without an error. -/
theorem ParseInt_of_value (s0 : String) (c : Char) (rest : List Char)
    (hs : s0.toList = c :: rest) (un : Nat)
    (h : ParseUint (if c == '+' ∨ c == '-' then rest else c :: rest) = (un, none)) :
    ParseInt s0 =
      if !(c == '-') ∧ un ≥ 2 ^ 63 then (2 ^ 63 - 1, some ⟨"ParseInt", s0, .ErrRange⟩)
      else if (c == '-') ∧ un > 2 ^ 63 then (-2 ^ 63, some ⟨"ParseInt", s0, .ErrRange⟩)
      else (if c == '-' then negInt64 (toInt64 un) else toInt64 un, none) := by
  rw [ParseInt_cons s0 c rest hs, h]

/-- `ParseInt` accepts exactly the base-10 numerals within the range of
`int64`, and returns the number that the numeral denotes; on every other
text it returns an error. -/
theorem ParseInt_numeral (s : String) :
    (isNumeral s = true → isInt64 (numeralValue s) → ParseInt s = (numeralValue s, none))
      ∧ (¬ (isNumeral s = true ∧ isInt64 (numeralValue s)) →
        ∃ n e, ParseInt s = (n, some ⟨"ParseInt", s, e⟩)) := by
  cases hs : s.toList with
  | nil =>
    have hb : numeralBody s = [] := by simp only [numeralBody, hs]
    have hn : isNumeral s = false := by simp only [isNumeral, hb]; rfl
    refine ⟨fun h => absurd h (by rw [hn]; decide), fun _ => ⟨0, .ErrSyntax, ?_⟩⟩
    unfold ParseInt
    rw [hs]
  | cons c rest =>
    have hbody : numeralBody s = if c == '+' ∨ c == '-' then rest else c :: rest := by
      simp only [numeralBody, hs]
    have hval : numeralValue s =
        if c == '-' then -(digitsNat (numeralBody s) 0 : Int)
        else (digitsNat (numeralBody s) 0 : Int) := by
      simp only [numeralValue, hs, List.head?_cons, Option.some.injEq, beq_iff_eq]
    by_cases hempty : (numeralBody s).isEmpty = true
    · have hn : isNumeral s = false := by simp [isNumeral, hempty]
      refine ⟨fun h => absurd h (by rw [hn]; decide), fun _ => ⟨0, .ErrSyntax, ?_⟩⟩
      apply ParseInt_of_syntax s c rest hs
      rw [← hbody]
      simp only [ParseUint, hempty, if_true]
    · have hU : ParseUint (numeralBody s) = parseUintLoop (numeralBody s) 0 := by
        simp only [ParseUint, hempty, Bool.false_eq_true, if_false]
      by_cases hall : (numeralBody s).all isDecimalDigit = true
      · have hn : isNumeral s = true := by simp [isNumeral, hempty, hall]
        have hloop := parseUintLoop_digits (numeralBody s) 0 hall (by norm_num)
        by_cases hfit : digitsNat (numeralBody s) 0 < 2 ^ 64
        · rw [if_pos hfit] at hloop
          have hP := ParseInt_of_value s c rest hs (digitsNat (numeralBody s) 0)
            (by rw [← hbody, hU, hloop])
          cases hc : c == '-' with
          | false =>
            rw [hc] at hP hval
            simp only [Bool.not_false, true_and, Bool.false_eq_true, false_and, if_false]
              at hP hval
            by_cases hbig : digitsNat (numeralBody s) 0 ≥ 2 ^ 63
            · rw [if_pos hbig] at hP
              refine ⟨fun _ hr => ?_, fun _ => ⟨_, _, hP⟩⟩
              rw [hval] at hr
              unfold isInt64 at hr
              omega
            · rw [if_neg hbig, toInt64_small _ (by omega)] at hP
              refine ⟨fun _ _ => by rw [hP, hval], fun hnot => ?_⟩
              exfalso
              apply hnot
              refine ⟨hn, ?_⟩
              rw [hval]
              unfold isInt64
              omega
          | true =>
            rw [hc] at hP hval
            simp only [Bool.not_true, Bool.false_eq_true, false_and, if_false, true_and, if_true]
              at hP hval
            by_cases hbig : digitsNat (numeralBody s) 0 > 2 ^ 63
            · rw [if_pos hbig] at hP
              refine ⟨fun _ hr => ?_, fun _ => ⟨_, _, hP⟩⟩
              rw [hval] at hr
              unfold isInt64 at hr
              omega
            · rw [if_neg hbig] at hP
              have hneg : negInt64 (toInt64 (digitsNat (numeralBody s) 0))
                  = -(digitsNat (numeralBody s) 0 : Int) := by
                by_cases h0 : digitsNat (numeralBody s) 0 = 0
                · rw [h0]; decide
                · exact negInt64_toInt64 _ (by omega) (by omega)
              rw [hneg] at hP
              refine ⟨fun _ _ => by rw [hP, hval], fun hnot => ?_⟩
              exfalso
              apply hnot
              refine ⟨hn, ?_⟩
              rw [hval]
              unfold isInt64
              omega
        · rw [if_neg hfit] at hloop
          obtain ⟨n, hP⟩ := ParseInt_of_range s c rest hs (by rw [← hbody, hU, hloop])
          refine ⟨fun _ hr => ?_, fun _ => ⟨n, _, hP⟩⟩
          rw [hval] at hr
          unfold isInt64 at hr
          split at hr <;> omega
      · have hall' : (numeralBody s).all isDecimalDigit = false := by
          simpa using hall
        have hn : isNumeral s = false := by simp [isNumeral, hall']
        refine ⟨fun h => absurd h (by rw [hn]; decide), fun _ => ?_⟩
        rcases parseUintLoop_nondigit (numeralBody s) 0 hall' with h | h
        · exact ⟨0, _, ParseInt_of_syntax s c rest hs (by rw [← hbody, hU]; exact h)⟩
        · obtain ⟨n, hP⟩ := ParseInt_of_range s c rest hs (by rw [← hbody, hU, h])
          exact ⟨n, _, hP⟩

end Go

namespace tag

open Go

/-- `untag` on an object whose type and value are strings: the switch on the
type name. -/
theorem untag_strings (lib : Stdlib) (typed : Table) (t v : String)
    (htype : typed.get "type" = .str t) (hvalue : typed.get "value" = .str v) :
    untag lib typed =
      if t = "string" then
        .ok ⟨.str v, none⟩
      else if t = "integer" then
        match ParseInt v with
        | (_, some err) => .ok ⟨.null, some ("untag: " ++ err.Error lib)⟩
        | (n, none) => .ok ⟨.int n, none⟩
      else if t = "float" then
        match lib.ParseFloat v with
        | (_, some err) => .ok ⟨.null, some ("untag: " ++ err.Error lib)⟩
        | (f, none) => .ok ⟨.float f, none⟩
      else if t = "datetime" then
        .ok (retTime (parseTime lib v "2006-01-02T15:04:05.999999999Z07:00" none))
      else if t = "datetime-local" then
        .ok (retTime (parseTime lib v "2006-01-02T15:04:05.999999999" (some .LocalDatetime)))
      else if t = "date-local" then
        .ok (retTime (parseTime lib v "2006-01-02" (some .LocalDate)))
      else if t = "time-local" then
        .ok (retTime (parseTime lib v "15:04:05.999999999" (some .LocalTime)))
      else if t = "bool" then
        if v = "true" then .ok ⟨.bool true, none⟩
        else if v = "false" then .ok ⟨.bool false, none⟩
        else .ok ⟨.null, some ("untag: could not parse " ++ lib.Quote v ++ " as a boolean")⟩
      else
        .ok ⟨.null, some ("untag: unrecognized tag type " ++ lib.Quote t)⟩ := by
  unfold untag
  rw [htype, hvalue]
  rfl

/-- C23, as stated, fails at the tagged bool whose value is the boolean
`true`, which is not exactly `true` or `false` as a string, and at the type
name `array` with an array for its value: `untag` returns no error and no
nil value, it panics in the type assertion on the value. -/
theorem C23_value_not_a_string :
    untag exampleLib [("type", .str "bool"), ("value", .bool true)]
        = .error "interface conversion: interface {} is bool, not string"
      ∧ untag exampleLib [("type", .str "array"), ("value", .array [])]
        = .error "interface conversion: interface {} is []interface {}, not string" :=
  ⟨rfl, rfl⟩

/-- C23, amended: `untag` rejects malformed tagged primitives whose type and
value are strings with an error and a nil value. For an object whose type
name is `t` and whose value is the string `v`: a type name other than `string`, `integer`, `float`, `datetime`,
`datetime-local`, `date-local`, `time-local` and `bool` is rejected as an
unrecognized tag type; a `bool` whose value is neither `true` nor `false` is
rejected; an `integer` whose value is not a base-10 numeral (an optional
sign and one or more decimal digits) within the range of `int64` is rejected
with the error of `ParseInt`, while a numeral within the range gives the
number it denotes; each rejection returns a nil value. A `string` value is
returned unchanged for every string. The values `9223372036854775808`,
`0x1A` and `1_000` of an `integer` are rejected, the first as out of range
and the others for their syntax. -/
theorem C23_untag_rejects (lib : Stdlib) (typed : Table) (t v : String)
    (htype : typed.get "type" = .str t) (hvalue : typed.get "value" = .str v) :
    (t ≠ "string" → t ≠ "integer" → t ≠ "float" → t ≠ "datetime" → t ≠ "datetime-local" →
        t ≠ "date-local" → t ≠ "time-local" → t ≠ "bool" →
        untag lib typed
          = .ok ⟨.null, some ("untag: unrecognized tag type " ++ lib.Quote t)⟩)
      ∧ (t = "bool" → v ≠ "true" → v ≠ "false" →
        untag lib typed
          = .ok ⟨.null, some ("untag: could not parse " ++ lib.Quote v ++ " as a boolean")⟩)
      ∧ (t = "integer" → ¬ (isNumeral v = true ∧ isInt64 (numeralValue v)) →
        ∃ e : NumErr, untag lib typed
          = .ok ⟨.null, some ("untag: " ++ NumError.Error lib ⟨"ParseInt", v, e⟩)⟩)
      ∧ (t = "integer" → isNumeral v = true → isInt64 (numeralValue v) →
        untag lib typed = .ok ⟨.int (numeralValue v), none⟩)
      ∧ (t = "string" → untag lib typed = .ok ⟨.str v, none⟩)
      ∧ (isNumeral "9223372036854775808" = true
        ∧ numeralValue "9223372036854775808" = 2 ^ 63
        ∧ isNumeral "0x1A" = false ∧ isNumeral "1_000" = false
        ∧ untag exampleLib [("type", .str "integer"), ("value", .str "9223372036854775808")]
          = .ok ⟨.null, some ("untag: strconv.ParseInt: parsing " ++
              "\"9223372036854775808\": value out of range")⟩
        ∧ untag exampleLib [("type", .str "integer"), ("value", .str "0x1A")]
          = .ok ⟨.null, some "untag: strconv.ParseInt: parsing \"0x1A\": invalid syntax"⟩
        ∧ untag exampleLib [("type", .str "integer"), ("value", .str "1_000")]
          = .ok ⟨.null, some "untag: strconv.ParseInt: parsing \"1_000\": invalid syntax"⟩) := by
  have hu := untag_strings lib typed t v htype hvalue
  refine ⟨?_, ?_, ?_, ?_, ?_, by decide, by decide, by decide, by decide, rfl, rfl, rfl⟩
  · intro h1 h2 h3 h4 h5 h6 h7 h8
    rw [hu]
    simp only [h1, h2, h3, h4, h5, h6, h7, h8, if_false]
  · intro hb h1 h2
    rw [hu, hb]
    simp only [h1, h2, if_false]
    rfl
  · intro hi hnot
    obtain ⟨n, e, hP⟩ := (ParseInt_numeral v).2 hnot
    refine ⟨e, ?_⟩
    rw [hu, hi, hP]
    rfl
  · intro hi hn hr
    rw [hu, hi, (ParseInt_numeral v).1 hn hr]
    rfl
  · intro hs
    rw [hu, hs]
    rfl

/-- The hypotheses of `C23_untag_rejects` hold for the tagged bool with the
value `maybe`, which `untag` rejects with a nil value. -/
theorem C23_untag_rejects_witness :
    Table.get [("type", .str "bool"), ("value", .str "maybe")] "type" = .str "bool"
      ∧ Table.get [("type", .str "bool"), ("value", .str "maybe")] "value" = .str "maybe"
      ∧ untag exampleLib [("type", .str "bool"), ("value", .str "maybe")]
        = .ok ⟨.null, some "untag: could not parse \"maybe\" as a boolean"⟩ :=
  ⟨rfl, rfl,
    (C23_untag_rejects exampleLib [("type", .str "bool"), ("value", .str "maybe")] "bool"
      "maybe" rfl rfl).2.1 rfl (by decide) (by decide)⟩

end tag
